import Mathlib

/-!
# cpp-feedback: dip detection and frequency sweep

A shallow embedding of `src/utils.cpp` (`odmr_utils::FindProminentDips`,
`odmr_utils::accurate_sleep`), of `src/measurement.cpp` (`Measurement::run`,
`Measurement::start`, `Measurement::stop`), of the double buffer of `src/gui.cpp`
(the `onUpdate` lambda, the swap block of `Gui::RenderPlots`, the resets of
`Gui::StartMeasurement` and `Gui::StopMeasurement`) and of `src/settings.cpp`
(`UserSettings::to_json`, `UserSettings::from_json`, `SettingsManager::Save`,
`SettingsManager::Load`), with their properties proved on it.

Conventions of the embedding.

* A finite `double` is a rational number. In `Measurement::run` and in the exact
  model of `FindProminentDips` its operations are taken exactly; `Dbl` adds the
  one non-finite value the program can produce from finite inputs there, NaN,
  which arises from a floating-point division `0.0 / 0`.
* Where the rounding of `double` operations decides a property, the embedded
  function takes the rounding `fl` of each operation as a parameter:
  `ieee.roundDouble`, rounding to nearest with ties to even, for the program, and
  the identity for exact arithmetic (`odmr_utils.rounded.FindProminentDips`,
  `odmr_utils.accurate_sleep`). Overflow to infinity is not modelled.
* `int` values are unbounded integers (`Int`) where no conversion narrows them; no
  loop of the embedded code runs long enough to overflow an `int` when the vector
  sizes fit one. The members of `UserSettings`, which `get_to` converts from JSON
  numbers, have the types `cpp.Int32` and `cpp.Float32` of the values that an
  `int` and a `float` can hold.
* `std::vector<double>` is a `List ℚ`/`List Dbl`; `v[j]` is a checked read, and a
  read outside the vector (undefined behaviour in the source) makes the embedded
  function return `none`.
* The clock of `accurate_sleep` is the sequence of the values that the successive
  calls of `now()` return, in nanoseconds since the epoch of the clock;
  `sleep_for` has no effect other than on that sequence.
-/

/-- A value of type `double`: a finite value, taken exactly, or NaN. -/
inductive Dbl where
  | fin (q : ℚ)
  | nan
deriving DecidableEq, Repr

namespace Dbl

/-- Addition `a + b` of doubles; NaN propagates. -/
def add : Dbl → Dbl → Dbl
  | fin a, fin b => fin (a + b)
  | _, _ => nan

/-- Subtraction `a - b` of doubles; NaN propagates. -/
def sub : Dbl → Dbl → Dbl
  | fin a, fin b => fin (a - b)
  | _, _ => nan

/-- Multiplication `a * b` of doubles; NaN propagates. -/
def mul : Dbl → Dbl → Dbl
  | fin a, fin b => fin (a * b)
  | _, _ => nan

/-- Division `a / b` of doubles. The divisions of this program that can meet a
zero divisor (`localAvg /= 2 * window`, `i * (endFreq - startFreq) / (steps - 1)`,
`sum / averages`, `sumSq / averages`) all have the dividend `0.0` when they do,
and `0.0 / 0` is NaN. -/
def div : Dbl → Dbl → Dbl
  | fin a, fin b => if b = 0 then nan else fin (a / b)
  | _, _ => nan

/-- The comparison `a < b` of doubles: false as soon as one side is NaN. -/
def lt : Dbl → Dbl → Bool
  | fin a, fin b => decide (a < b)
  | _, _ => false

/-- Conversion of an `int` to `double`. -/
def ofInt (k : Int) : Dbl := fin (k : ℚ)

end Dbl

namespace odmr_utils

/-- The values `lo, lo+1, ..., hi-1` taken by the variable of a loop
`for (int j = lo; j < hi; ++j)`. -/
def intRange (lo hi : Int) : List Int :=
  (List.range (hi - lo).toNat).map (fun (k : Nat) => lo + (k : Int))

/-- The read `y[j]` of a vector at an `int` index; `none` outside the vector. -/
def readAt (y : List ℚ) (j : Int) : Option ℚ :=
  if 0 ≤ j then y[j.toNat]? else none

/-- Lines 16-21 of `utils.cpp`: the loop `for (j = i - window; j <= i + window; ++j)`
adding `y[j]` to `localAvg` for every `j` other than `i`; `js` are the values of
`j` still to come and `acc` is `localAvg` so far. -/
def sumNeighbours (y : List ℚ) (i : Int) : List Int → ℚ → Option ℚ
  | [], acc => some acc
  | j :: js, acc =>
    if j = i then sumNeighbours y i js acc
    else
      match readAt y j with
      | none => none
      | some v => sumNeighbours y i js (acc + v)

/-- Lines 15-22: `localAvg` of index `i`, the neighbour sum divided by
`2 * window` (converted to `double`). -/
def localAvg (y : List ℚ) (window i : Int) : Option Dbl :=
  match sumNeighbours y i (intRange (i - window) (i + window + 1)) 0 with
  | none => none
  | some s => some (Dbl.div (Dbl.fin s) (Dbl.ofInt (2 * window)))

/-- Lines 26-36: the loop over `j = i-1 .. i+1` computing `isMin`; `js` are the
values of `j` still to come. A `j` outside the vector or equal to `i` is skipped;
`center > y[j]` clears `isMin` and leaves the loop. -/
def isMin (y : List ℚ) (center : ℚ) (i : Int) : List Int → Option Bool
  | [] => some true
  | j :: js =>
    if j < 0 ∨ j ≥ (y.length : Int) ∨ j = i then isMin y center i js
    else
      match readAt y j with
      | none => none
      | some v => if center > v then some false else isMin y center i js

/-- Lines 14-40: the body of the candidate loop for index `i`; `some true` when
`i` is pushed on `rawDips`. -/
def isCandidate (y : List ℚ) (window : Int) (prominence : ℚ) (i : Int) : Option Bool :=
  match readAt y i with
  | none => none
  | some center =>
    match localAvg y window i with
    | none => none
    | some avg =>
      if Dbl.lt (Dbl.fin (center + prominence)) avg then
        isMin y center i (intRange (i - 1) (i + 2))
      else some false

/-- Lines 12-41: the candidate loop over the indices `is`, giving `rawDips`. -/
def scanDips (y : List ℚ) (window : Int) (prominence : ℚ) : List Int → Option (List Int)
  | [] => some []
  | i :: is =>
    match isCandidate y window prominence i with
    | none => none
    | some c =>
      match scanDips y window prominence is with
      | none => none
      | some rest => some (if c then i :: rest else rest)

/-- Lines 9-41: `rawDips`, the candidates of `for (i = window; i < n - window; ++i)`. -/
def rawDips (y : List ℚ) (window : Int) (prominence : ℚ) : Option (List Int) :=
  scanDips y window prominence (intRange window ((y.length : Int) - window))

/-- Lines 48-63, inside one run: `prev` is `rawDips[i]`, `minVal`/`minIdx` the
running minimum, and the list holds `rawDips[i+1..]`. While the next candidate `r`
is within `minGap` of `prev` it joins the run (and replaces the minimum when
`y[r] < minVal`); otherwise `minIdx` is pushed on `filteredDips` and the outer loop
starts a new run at `r`, with `minVal = y[r]` and `minIdx = r`. -/
def mergeRun (y : List ℚ) (minGap : Int) : Int → ℚ → Int → List Int → Option (List Int)
  | _, _, minIdx, [] => some [minIdx]
  | prev, minVal, minIdx, r :: rs =>
    if r - prev ≤ minGap then
      match readAt y r with
      | none => none
      | some v =>
        if v < minVal then mergeRun y minGap r v r rs
        else mergeRun y minGap r minVal minIdx rs
    else
      match readAt y r with
      | none => none
      | some v =>
        match mergeRun y minGap r v r rs with
        | none => none
        | some out => some (minIdx :: out)

/-- Lines 43-64: the merge loop over `rawDips`, giving `filteredDips`. -/
def filteredDips (y : List ℚ) (minGap : Int) : List Int → Option (List Int)
  | [] => some []
  | start :: rs =>
    match readAt y start with
    | none => none
    | some minVal => mergeRun y minGap start minVal start rs

/-- The function `FindProminentDips(y, window, prominence)` of `utils.cpp`. -/
def FindProminentDips (y : List ℚ) (window : Int) (prominence : ℚ) : Option (List Int) :=
  match rawDips y window prominence with
  | none => none
  | some raw => filteredDips y (Int.tdiv window 2) raw

end odmr_utils

namespace Measurement

/-- The constructor arguments of `Measurement` that `run` reads. `useRigol` is
`useVisa && rigolSession != VI_NULL`, `useKeithley` is
`useVisa && keithleySession != VI_NULL`, and `hasOnDone` tells whether the
`onDone` callback is set. -/
structure Config where
  startFreq : ℚ
  endFreq : ℚ
  steps : Int
  delay : ℚ
  averages : Int
  updateInterval : Int
  hasOnDone : Bool
  useRigol : Bool
  useKeithley : Bool

/-- What `run` takes from outside the program while it executes: the value of
`stopFlag` seen by the check that precedes point `i`, whether the `viWrite` at
point `i` succeeds, the outcome of the `viQueryf` of repetition `j` at point `i`
(`none` for a status below `VI_SUCCESS`), the variate that `dis` takes from the
generator `gen` at that repetition (see `dis`), and `std::sqrt` on finite values. -/
structure Env where
  stopFlag : Nat → Bool
  viWrite : Nat → Bool
  viQueryf : Nat → Nat → Option ℚ
  noise : Nat → Nat → ℚ
  sqrt : ℚ → ℚ

/-- The five vectors `freqs, avgSignals, minSignals, maxSignals, stdDevs`. -/
structure Series where
  freqs : List Dbl
  avgSignals : List Dbl
  minSignals : List Dbl
  maxSignals : List Dbl
  stdDevs : List Dbl
deriving DecidableEq, Repr

/-- A callback invocation made by `run`, with the vectors it is passed. -/
inductive Event where
  | onUpdate (s : Series)
  | onDone (s : Series)
deriving DecidableEq, Repr

/-- A line written to `std::cerr`: the failed write at a point, or the failed read
at step `i`. -/
inductive Msg where
  | rigolWriteFailed
  | keithleyReadFailed (i : Nat)
deriving DecidableEq, Repr

/-- The running values `sum, sumSq, minVal, maxVal` of the averaging loop. -/
structure Acc where
  sum : Dbl
  sumSq : Dbl
  minVal : Dbl
  maxVal : Dbl
deriving DecidableEq, Repr

/-- What `run` has built at a point of its execution: the five vectors, the
callbacks made so far and the lines written to `std::cerr` so far. -/
structure State where
  series : Series
  calls : List Event
  cerr : List Msg
deriving DecidableEq, Repr

/-- The value `std::numeric_limits<double>::max()`. -/
def dblMax : ℚ := (2 ^ 53 - 1) * 2 ^ 971

/-- The call `std::min(a, b)`, which is `(b < a) ? b : a`. -/
def stdMin (a b : Dbl) : Dbl := if Dbl.lt b a then b else a

/-- The call `std::max(a, b)`, which is `(a < b) ? b : a`. -/
def stdMax (a b : Dbl) : Dbl := if Dbl.lt a b then b else a

/-- Line 72: `freqGHz = startFreq + i * (endFreq - startFreq) / (steps - 1)`. -/
def freqGHz (c : Config) (i : Nat) : Dbl :=
  Dbl.add (Dbl.fin c.startFreq)
    (Dbl.div (Dbl.mul (Dbl.ofInt (i : Int)) (Dbl.fin (c.endFreq - c.startFreq)))
      (Dbl.ofInt (c.steps - 1)))

/-- One dip term `0.2 * (1.0 / (1.0 + pow((freq - center) / width, 2)))` of
`simulateODMR`, for a finite `freq`. -/
def dip (freq center width : ℚ) : ℚ := (1 / 5) * (1 / (1 + ((freq - center) / width) ^ 2))

/-- The draw `dis(gen)` of `std::uniform_real_distribution<> dis(-0.01, 0.01)`
(line 51): `u * (b - a) + a` with `a = -0.01`, `b = 0.01` and `u` the variate of
`[0, 1)` that the distribution takes from the generator. The fractional part of
`u` is used, so that every rational stands for such a variate. -/
def dis (u : ℚ) : ℚ := Int.fract u * (1 / 100 - -1 / 100) + -1 / 100

/-- The function `simulateODMR(freq)`, with `u` the variate that `dis` takes from
`gen`: centres 2.87 and 2.90, width 0.005, and the draw `dis(gen)` added. A NaN
argument gives NaN. -/
def simulateODMR (freq : Dbl) (u : ℚ) : Dbl :=
  match freq with
  | Dbl.fin f =>
    Dbl.fin (1 - dip f (287 / 100) (5 / 1000) - dip f (290 / 100) (5 / 1000) + dis u)
  | Dbl.nan => Dbl.nan

/-- Lines 92-107: the value of `voltage` for repetition `j` of point `i`, with the
line written to `std::cerr` if any: the instrument reading, `0.0` when the query
fails, or the simulated signal when no instrument is used. -/
def voltage (c : Config) (e : Env) (i j : Nat) : Dbl × List Msg :=
  if c.useKeithley then
    match e.viQueryf i j with
    | some v => (Dbl.fin v, [])
    | none => (Dbl.fin 0, [Msg.keithleyReadFailed i])
  else (simulateODMR (freqGHz c i) (e.noise i j), [])

/-- Lines 109-112: one repetition's update of the running values. -/
def accumulate (a : Acc) (v : Dbl) : Acc :=
  { sum := Dbl.add a.sum v
    sumSq := Dbl.add a.sumSq (Dbl.mul v v)
    minVal := stdMin a.minVal v
    maxVal := stdMax a.maxVal v }

/-- Lines 86-88: the running values before the first repetition. -/
def accInit : Acc :=
  { sum := Dbl.fin 0, sumSq := Dbl.fin 0, minVal := Dbl.fin dblMax, maxVal := Dbl.fin (-dblMax) }

/-- Lines 86-115: the averaging loop `for (j = 0; j < averages; ++j)` of point `i`
(the pacing call `accurate_sleep(delay / averages)` of its body has no effect on
the data). -/
def average (c : Config) (e : Env) (i : Nat) : Acc × List Msg :=
  (List.range c.averages.toNat).foldl
    (fun a j => (accumulate a.1 (voltage c e i j).1, a.2 ++ (voltage c e i j).2))
    (accInit, [])

/-- The call `std::sqrt(x)`: NaN for NaN. -/
def dsqrt (e : Env) : Dbl → Dbl
  | Dbl.fin q => Dbl.fin (e.sqrt q)
  | Dbl.nan => Dbl.nan

/-- Line 117: `avg = sum / averages`. -/
def avg (c : Config) (a : Acc) : Dbl := Dbl.div a.sum (Dbl.ofInt c.averages)

/-- Line 118: `variance = (sumSq / averages) - (avg * avg)`. -/
def variance (c : Config) (a : Acc) : Dbl :=
  Dbl.sub (Dbl.div a.sumSq (Dbl.ofInt c.averages)) (Dbl.mul (avg c a) (avg c a))

/-- Line 119: `stddev = std::sqrt(std::max(variance, 0.0))`. -/
def stddev (c : Config) (e : Env) (a : Acc) : Dbl :=
  dsqrt e (stdMax (variance c a) (Dbl.fin 0))

/-- Lines 121-125: the five `push_back` calls of point `i`, from the running
values `a` its averaging loop ended with. -/
def pushPoint (c : Config) (e : Env) (i : Nat) (a : Acc) (s : Series) : Series :=
  { freqs := s.freqs ++ [freqGHz c i]
    avgSignals := s.avgSignals ++ [avg c a]
    minSignals := s.minSignals ++ [a.minVal]
    maxSignals := s.maxSignals ++ [a.maxVal]
    stdDevs := s.stdDevs ++ [stddev c e a] }

/-- Lines 76-83: the line written to `std::cerr` when the frequency write of point
`i` fails. -/
def setFrequency (c : Config) (e : Env) (i : Nat) : List Msg :=
  if c.useRigol ∧ e.viWrite i = false then [Msg.rigolWriteFailed] else []

/-- Lines 72-130: the body of the sweep loop for point `i`. -/
def loopBody (c : Config) (e : Env) (i : Nat) (st : State) : State :=
  let a := average c e i
  let s := pushPoint c e i a.1 st.series
  { series := s
    calls :=
      if c.updateInterval > 0 ∧ Int.tmod (i : Int) c.updateInterval = 0 then
        st.calls ++ [Event.onUpdate s]
      else st.calls
    cerr := st.cerr ++ setFrequency c e i ++ a.2 }

/-- Lines 67-131: the loop `for (i = 0; i < steps; ++i)` over the values of `i`
still to come, left at once when `stopFlag` is seen set. -/
def sweepLoop (c : Config) (e : Env) : List Nat → State → State
  | [], st => st
  | i :: is, st => if e.stopFlag i then st else sweepLoop c e is (loopBody c e i st)

/-- Lines 65-131: the state of `run` when its loop is left. -/
def afterLoop (c : Config) (e : Env) : State :=
  sweepLoop c e (List.range c.steps.toNat) ⟨⟨[], [], [], [], []⟩, [], []⟩

/-- The function `Measurement::run`: after the loop, `onUpdate` and, when set,
`onDone` are called with the vectors built. -/
def run (c : Config) (e : Env) : State :=
  let st := afterLoop c e
  { st with
    calls := st.calls ++ [Event.onUpdate st.series] ++
      (if c.hasOnDone then [Event.onDone st.series] else []) }

end Measurement

namespace odmr_utils

/-- The value `y[j]` of an index inside the vector (`0` for an index outside). -/
def valAt (y : List ℚ) (j : Int) : ℚ := (readAt y j).getD 0

/-- The sum of the `2 * window` values `y[i-window], ..., y[i+window]` other than
`y[i]`. -/
def neighbourSum (y : List ℚ) (window i : Int) : ℚ :=
  ∑ j in (Finset.Icc (i - window) (i + window)).erase i, valAt y j

/-- The first maximal run that starts at `a` and the maximal runs after it, for
the candidates `rest` that follow `a`: a candidate stays in the run of the one
before it when their gap is at most `g`. Returns the run without its head `a`. -/
def splitRuns (g : Int) : Int → List Int → List Int × List (List Int)
  | _, [] => ([], [])
  | a, b :: rest =>
    if b - a ≤ g then (b :: (splitRuns g b rest).1, (splitRuns g b rest).2)
    else ([], (b :: (splitRuns g b rest).1) :: (splitRuns g b rest).2)

/-- In the words of the specification: the maximal runs of consecutive candidates
whose index gaps are all at most `g`, in order. -/
def runs (g : Int) : List Int → List (List Int)
  | [] => []
  | a :: rest => (a :: (splitRuns g a rest).1) :: (splitRuns g a rest).2

/-- Of a kept index `m` and a later index `j`, the one with the lower value, `m`
on a tie. -/
def lowerOf (y : List ℚ) (m j : Int) : Int := if valAt y j < valAt y m then j else m

/-- In the words of the specification: the candidate of a run with the lowest
signal value, the first-seen one when the lowest value is shared. -/
def firstMin (y : List ℚ) : List Int → Int
  | [] => 0
  | a :: rest => rest.foldl (lowerOf y) a

/-- Two consecutive runs are separated: the gap from the last candidate of the
first to the first candidate of the second exceeds `g`. -/
def Separated (g : Int) (r1 r2 : List Int) : Prop :=
  ∀ u ∈ r1.getLast?, ∀ v ∈ r2.head?, g < v - u

/-- The signal of the test `MergeCloseDipsKeepsDeeperFirst`: 12 points at 10.0
with `y[4] = 1.0` and `y[6] = 2.0`. -/
def deeperFirst : List ℚ := [10, 10, 10, 10, 1, 10, 2, 10, 10, 10, 10, 10]

/-- The signal of the test `MergeCloseDipsKeepsDeeperSecond`: 12 points at 10.0
with `y[4] = 2.0` and `y[6] = 1.0`. -/
def deeperSecond : List ℚ := [10, 10, 10, 10, 2, 10, 1, 10, 10, 10, 10, 10]

/-- The signal of the tests `SingleDip` and `EdgeCaseBarelyInsideWindowBounds`. -/
def singleDip : List ℚ := [1, 1, 1 / 5, 1, 1]

end odmr_utils

namespace Measurement

/-- The vectors a callback invocation is passed. -/
def Event.series : Event → Series
  | Event.onUpdate s => s
  | Event.onDone s => s

/-- The vectors holding the points `0, ..., m-1` of the sweep. -/
def seriesOf (c : Config) (e : Env) (m : Nat) : Series :=
  (List.range m).foldl (fun s i => pushPoint c e i (average c e i).1 s) ⟨[], [], [], [], []⟩

/-- The configuration of the test `RunFillsDataCorrectly`: 5 steps from 2.85 to
2.87, 2 averages, an update at every point, no instrument. -/
def fiveSteps : Config :=
  { startFreq := 285 / 100, endFreq := 287 / 100, steps := 5, delay := 1 / 1000, averages := 2,
    updateInterval := 1, hasOnDone := true, useRigol := false, useKeithley := false }

/-- The configuration `fiveSteps` with `steps = 1`. -/
def oneStep : Config := { fiveSteps with steps := 1 }

/-- An execution that is never cancelled, with noise-free simulated samples: the
variate is always `1/2`, for which the draw `dis(gen)` is 0 (the two samples of a
point are then equal, and the root is taken of 0 only). -/
def quiet : Env :=
  { stopFlag := fun _ => false, viWrite := fun _ => true, viQueryf := fun _ _ => none,
    noise := fun _ _ => 1 / 2, sqrt := fun x => x }

end Measurement

namespace Dbl

/-- The comparison `a >= b` of doubles: false as soon as one side is NaN. -/
def ge : Dbl → Dbl → Bool
  | fin a, fin b => decide (b ≤ a)
  | _, _ => false

end Dbl

namespace Measurement

/-- Whether a callback invocation is a call of `onDone`. -/
def Event.isDone : Event → Bool
  | Event.onDone _ => true
  | Event.onUpdate _ => false

/-- Whether a callback invocation is a call of `onUpdate`. -/
def Event.isUpdate : Event → Bool
  | Event.onUpdate _ => true
  | Event.onDone _ => false

/-- Line 127: the test `updateInterval > 0 && i % updateInterval == 0` made after
point `i`. -/
def updateDue (c : Config) (i : Nat) : Bool :=
  decide (c.updateInterval > 0 ∧ Int.tmod (i : Int) c.updateInterval = 0)

/-- The number of points a run samples: the values `i = 0, 1, ...` below `steps`
that come before the first check at which `stopFlag` is seen set. -/
def pointsDone (c : Config) (e : Env) : Nat :=
  ((List.range c.steps.toNat).takeWhile (fun i => !e.stopFlag i)).length

/-- The `onUpdate` calls made inside the loop while the points `0, ..., m-1` are
sampled: one after each point `i` at which an update is due, with the vectors of
the points `0, ..., i`. -/
def periodicUpdates (c : Config) (e : Env) (m : Nat) : List Event :=
  ((List.range m).filter (updateDue c)).map (fun i => Event.onUpdate (seriesOf c e (i + 1)))

/-- Each of the five vectors of `s` is an initial segment of the same vector of
`t`. -/
def Series.InitialOf (s t : Series) : Prop :=
  s.freqs <+: t.freqs ∧ s.avgSignals <+: t.avgSignals ∧ s.minSignals <+: t.minSignals ∧
    s.maxSignals <+: t.maxSignals ∧ s.stdDevs <+: t.stdDevs

/-- The configuration of the test `HandlesZeroAveragesGracefully`: 3 steps, no
averages. -/
def zeroAverages : Config := { fiveSteps with steps := 3, averages := 0 }

/-- The configuration `fiveSteps` with both instruments in use. -/
def withInstruments : Config := { fiveSteps with useRigol := true, useKeithley := true }

/-- An execution that is never cancelled in which every write and every read of
the instruments fails. -/
def failing : Env := { quiet with viWrite := fun _ => false, viQueryf := fun _ _ => none }

/-- An execution cancelled at the check that precedes point 2. -/
def stoppedAtTwo : Env := { quiet with stopFlag := fun i => decide (2 ≤ i) }

/-- The members of `Measurement` that `start` touches, with the callbacks made by
its workers so far: `stopFlag`, and whether `worker` is joinable. -/
structure Controller where
  stopFlag : Bool
  joinable : Bool
  calls : List Event

/-- A `Measurement` on which `start` was never called. -/
def Controller.fresh : Controller := { stopFlag := false, joinable := false, calls := [] }

/-- Lines 29-39, `Measurement::start()`, observed when the worker it spawns has
returned: a joinable worker is joined first, so the callbacks of the earlier
workers all come before those of the new one; `stopFlag` is cleared; the new
worker executes `run`, with `e` what it meets, and is joinable. -/
def start (c : Config) (e : Env) (m : Controller) : Controller :=
  { stopFlag := false, joinable := true, calls := m.calls ++ (run c e).calls }

end Measurement

namespace Gui

/-- The struct `PlotData` of `gui.h`. -/
structure PlotData where
  x : List Dbl
  y : List Dbl
  yMin : List Dbl
  yMax : List Dbl
  yStd : List Dbl
  z : List Dbl
deriving DecidableEq, Repr

/-- The value `{}` of type `PlotData`: six empty vectors. -/
def PlotData.empty : PlotData := ⟨[], [], [], [], [], []⟩

/-- The call `v.resize(n, t)` of a vector: the first `n` entries of `v`, followed
by copies of `t` when `v` has fewer than `n` entries. -/
def resize (v : List Dbl) (n : Nat) (t : Dbl) : List Dbl :=
  v.take n ++ List.replicate (n - v.length) t

/-- The members of `Gui` that make the double buffer and the consumer's copy of
the plot data, with the counters and flags written along with them. The members
of type `float` (`lastFreq`, `lastSignal`, `minSignal`, `maxSignal`), the clock
values, the 3D lines and the `measurement` pointer are display and worker state
and are not part of this record. -/
structure State where
  frontBuffer : PlotData
  backBuffer : PlotData
  hasNewData : Bool
  xData : List Dbl
  yData : List Dbl
  zData : List Dbl
  yMinData : List Dbl
  yMaxData : List Dbl
  yStdData : List Dbl
  measurementCount : Int
  totalPoints : Int
  isRunning : Bool
  shouldAutoFit : Bool
deriving DecidableEq, Repr

/-- Lines 452-469 of `gui.cpp`, the `onUpdate` lambda given to the `Measurement`,
called with the five vectors `s` when `t` seconds have passed since `startTime`:
under `bufferMutex` the five vectors are copied into `backBuffer`, `backBuffer.z`
is resized to the length of `y` with `t` as the fill value, and `hasNewData` is
set. -/
def onUpdate (s : Measurement.Series) (t : Dbl) (g : State) : State :=
  { g with
    backBuffer :=
      { x := s.freqs, y := s.avgSignals, yMin := s.minSignals, yMax := s.maxSignals,
        yStd := s.stdDevs, z := resize g.backBuffer.z s.avgSignals.length t }
    hasNewData := true }

/-- Lines 96-126 of `gui.cpp`, the first block of `Gui::RenderPlots`: under
`bufferMutex`, when `hasNewData` is set, the two buffers are swapped, the flag is
cleared, and the new front buffer is copied into the plot data (lines 111-123
update the count and the `float` display members from it). The Boolean tells
whether the branch was taken. -/
def swapBlock (g : State) : Bool × State :=
  if g.hasNewData then
    (true,
      { g with
        frontBuffer := g.backBuffer
        backBuffer := g.frontBuffer
        hasNewData := false
        xData := g.backBuffer.x
        yData := g.backBuffer.y
        yMinData := g.backBuffer.yMin
        yMaxData := g.backBuffer.yMax
        yStdData := g.backBuffer.yStd
        zData := g.backBuffer.z
        measurementCount := (g.backBuffer.x.length : Int)
        shouldAutoFit := true })
  else (false, g)

/-- Lines 414-448 of `gui.cpp`, the part of `Gui::StartMeasurement` that comes
before the new `Measurement` is created (a worker still running is stopped and
joined first, lines 416-421): `isRunning` is set, the plot data are cleared,
both buffers are reset to `{}` and `hasNewData` is cleared under `bufferMutex`,
and the counters are reset, `totalPoints` to `steps`. -/
def StartMeasurement (steps : Int) (g : State) : State :=
  { g with
    isRunning := true
    xData := [], yData := [], zData := [], yMinData := [], yMaxData := [], yStdData := []
    frontBuffer := PlotData.empty
    backBuffer := PlotData.empty
    hasNewData := false
    measurementCount := 0
    totalPoints := steps }

/-- Lines 496-533 of `gui.cpp`, `Gui::StopMeasurement`, after the worker is
stopped and joined (lines 498-502): `isRunning` is cleared, `hasNewData` is
cleared and both buffers are reset to `{}` under `bufferMutex`, the plot data
are cleared and the counters are reset. -/
def StopMeasurement (g : State) : State :=
  { g with
    isRunning := false
    hasNewData := false
    frontBuffer := PlotData.empty
    backBuffer := PlotData.empty
    xData := [], yData := [], zData := [], yMinData := [], yMaxData := [], yStdData := []
    measurementCount := 0
    totalPoints := 0 }

/-- The `Gui` members as they are on construction: empty buffers and plot data,
no pending update. -/
def State.initial : State :=
  { frontBuffer := PlotData.empty, backBuffer := PlotData.empty, hasNewData := false,
    xData := [], yData := [], zData := [], yMinData := [], yMaxData := [], yStdData := [],
    measurementCount := 0, totalPoints := 0, isRunning := false, shouldAutoFit := false }

/-- A sequence of `onUpdate` calls, each with its five vectors and its elapsed
time, with no `swapBlock` in between. -/
def publishAll (ps : List (Measurement.Series × Dbl)) (g : State) : State :=
  ps.foldl (fun g p => onUpdate p.1 p.2 g) g

/-- Whether the five vectors of a buffer are those of `s`. -/
def PlotData.Holds (b : PlotData) (s : Measurement.Series) : Prop :=
  b.x = s.freqs ∧ b.y = s.avgSignals ∧ b.yMin = s.minSignals ∧ b.yMax = s.maxSignals ∧
    b.yStd = s.stdDevs

/-- A series of one point, for the examples. -/
def onePoint (v : ℚ) : Measurement.Series :=
  ⟨[Dbl.fin v], [Dbl.fin v], [Dbl.fin v], [Dbl.fin v], [Dbl.fin 0]⟩

end Gui


namespace Measurement

/-- Lines 41-46, `Measurement::stop()`: `stopFlag` is set, and a joinable worker
is joined, after which it is no longer joinable. The Boolean tells whether the
join was performed. -/
def stop (m : Controller) : Bool × Controller :=
  if m.joinable then (true, { m with stopFlag := true, joinable := false })
  else (false, { m with stopFlag := true })

end Measurement

namespace Gui

/-- A series of two points, for the examples. -/
def twoPoints (v w : ℚ) : Measurement.Series :=
  ⟨[Dbl.fin v, Dbl.fin w], [Dbl.fin v, Dbl.fin w], [Dbl.fin v, Dbl.fin w],
    [Dbl.fin v, Dbl.fin w], [Dbl.fin 0, Dbl.fin 0]⟩

end Gui

namespace Measurement

/-- The configuration `fiveSteps` with its band moved up by 0.01 GHz: 5 steps
from 2.86 to 2.88. -/
def shiftedBand : Config := { fiveSteps with startFreq := 286 / 100, endFreq := 288 / 100 }

/-- The noise-free value of `simulateODMR` at the finite frequency `f`:
`1.0 - dip1 - dip2` with the centres 2.87 and 2.90 and the width 0.005. -/
def lorentzians (f : ℚ) : ℚ := 1 - dip f (287 / 100) (5 / 1000) - dip f (290 / 100) (5 / 1000)

end Measurement

namespace Measurement

end Measurement


namespace ieee

/-- The power `2 ^ e` of an integer exponent. -/
def pow2 (e : Int) : ℚ :=
  if 0 ≤ e then ((2 ^ e.toNat : Nat) : ℚ) else 1 / ((2 ^ (-e).toNat : Nat) : ℚ)

/-- The number of halvings that bring `n` below 2, at most `fuel` of them. -/
def halvings : Nat → Nat → Nat
  | 0, _ => 0
  | fuel + 1, n => if n < 2 then 0 else halvings fuel (n / 2) + 1

/-- The integer part of the binary logarithm of `n`, for `n ≥ 1`. -/
def log2 (n : Nat) : Nat := halvings n n

/-- The exponent `e` with `2 ^ e ≤ |x| < 2 ^ (e + 1)`, for `x ≠ 0`: the difference
of the logarithms of numerator and denominator, or one less. -/
def binade (x : ℚ) : Int :=
  if pow2 ((log2 x.num.natAbs : Int) - (log2 x.den : Int)) ≤ |x| then
    (log2 x.num.natAbs : Int) - (log2 x.den : Int)
  else (log2 x.num.natAbs : Int) - (log2 x.den : Int) - 1

/-- Rounding to the nearest integer, a tie going to the even one. -/
def roundHalfEven (q : ℚ) : Int :=
  if q - ⌊q⌋ < 1 / 2 then ⌊q⌋
  else if 1 / 2 < q - ⌊q⌋ then ⌊q⌋ + 1
  else if ⌊q⌋ % 2 = 0 then ⌊q⌋ else ⌊q⌋ + 1

/-- The spacing around `x` of the binary floating-point numbers with `p` bits of
precision and least normal exponent `emin` (below `2 ^ emin` the spacing is that
of the subnormal numbers). -/
def ulp (p : Nat) (emin : Int) (x : ℚ) : ℚ := pow2 (max (binade x) emin - ((p : Int) - 1))

/-- Rounding to the nearest number of that format, ties to even: the rounding of
IEEE 754 arithmetic in its default mode. Overflow to infinity is not modelled. -/
def roundTo (p : Nat) (emin : Int) (x : ℚ) : ℚ :=
  (roundHalfEven (x / ulp p emin x) : ℚ) * ulp p emin x

/-- The rounding of a `double` operation (binary64). -/
def roundDouble (x : ℚ) : ℚ := roundTo 53 (-1022) x

/-- The rounding to `float` (binary32). -/
def roundFloat (x : ℚ) : ℚ := roundTo 24 (-126) x

/-- The largest finite `float`, `FLT_MAX`. -/
def fltMax : ℚ := 16777215 * pow2 104

/-- Whether `q` is a finite value of type `float`. -/
def isFloat (q : ℚ) : Bool := decide (|q| ≤ fltMax) && decide (roundFloat q = q)

/-- The conversion of a floating-point value to an integer type: truncation toward
zero. -/
def truncate (x : ℚ) : Int := if 0 ≤ x then ⌊x⌋ else ⌈x⌉

end ieee

namespace Dbl

/-- The result of a `double` operation whose exact value is `a`, rounded by `fl`. -/
def round (fl : ℚ → ℚ) : Dbl → Dbl
  | fin a => fin (fl a)
  | nan => nan

end Dbl

namespace odmr_utils

/-- The phase-1 test of the specification at index `i`: `signal[i] + prominence`
is less than the mean of the `2 * window` neighbouring points, and `signal[i]` is
strictly less than both immediate neighbours. -/
def specCandidate (y : List ℚ) (window : Int) (prominence : ℚ) (i : Int) : Bool :=
  decide (valAt y i + prominence < neighbourSum y window i / (2 * (window : ℚ))) &&
    (decide (valAt y i < valAt y (i - 1)) && decide (valAt y i < valAt y (i + 1)))

/-- The signal of the spec example and of the test `NotALocalMinimum`: a plateau
of two equal values. -/
def plateau : List ℚ := [1, 1 / 5, 1 / 5, 1]

end odmr_utils

namespace odmr_utils.rounded

/-- Lines 16-21 of `utils.cpp` in `double` arithmetic: the loop adding `y[j]` to
`localAvg` for every `j` other than `i`, each addition rounded by `fl`; `js` are
the values of `j` still to come and `acc` is `localAvg` so far. -/
def sumNeighbours (fl : ℚ → ℚ) (y : List ℚ) (i : Int) : List Int → ℚ → Option ℚ
  | [], acc => some acc
  | j :: js, acc =>
    if j = i then sumNeighbours fl y i js acc
    else
      match readAt y j with
      | none => none
      | some v => sumNeighbours fl y i js (fl (acc + v))

/-- Lines 15-22 in `double` arithmetic: `localAvg` of index `i`, the rounded
neighbour sum divided by `2 * window`, the quotient rounded by `fl`. -/
def localAvg (fl : ℚ → ℚ) (y : List ℚ) (window i : Int) : Option Dbl :=
  match sumNeighbours fl y i (intRange (i - window) (i + window + 1)) 0 with
  | none => none
  | some s => some (Dbl.round fl (Dbl.div (Dbl.fin s) (Dbl.ofInt (2 * window))))

/-- Lines 14-40 in `double` arithmetic: the body of the candidate loop for index
`i`, the sum `center + prominence` rounded by `fl`; `some true` when `i` is
pushed on `rawDips`. -/
def isCandidate (fl : ℚ → ℚ) (y : List ℚ) (window : Int) (prominence : ℚ) (i : Int) :
    Option Bool :=
  match readAt y i with
  | none => none
  | some center =>
    match localAvg fl y window i with
    | none => none
    | some avg =>
      if Dbl.lt (Dbl.fin (fl (center + prominence))) avg then
        isMin y center i (intRange (i - 1) (i + 2))
      else some false

/-- Lines 12-41 in `double` arithmetic: the candidate loop over the indices `is`. -/
def scanDips (fl : ℚ → ℚ) (y : List ℚ) (window : Int) (prominence : ℚ) :
    List Int → Option (List Int)
  | [] => some []
  | i :: is =>
    match isCandidate fl y window prominence i with
    | none => none
    | some c =>
      match scanDips fl y window prominence is with
      | none => none
      | some rest => some (if c then i :: rest else rest)

/-- Lines 9-41 in `double` arithmetic: `rawDips`. -/
def rawDips (fl : ℚ → ℚ) (y : List ℚ) (window : Int) (prominence : ℚ) : Option (List Int) :=
  scanDips fl y window prominence (intRange window ((y.length : Int) - window))

/-- The function `FindProminentDips(y, window, prominence)` in `double` arithmetic:
every sum and quotient of phase 1 is rounded by `fl` (`ieee.roundDouble` for the
program, the identity for exact arithmetic); phase 2 only compares values. The
signal and the prominence are `double` values. -/
def FindProminentDips (fl : ℚ → ℚ) (y : List ℚ) (window : Int) (prominence : ℚ) :
    Option (List Int) :=
  match rawDips fl y window prominence with
  | none => none
  | some raw => filteredDips y (Int.tdiv window 2) raw

/-- The neighbour sum as the loop computes it: the values `y[i-window], ...,
`y[i+window]` other than `y[i]` added in index order, each addition rounded. -/
def windowSum (fl : ℚ → ℚ) (y : List ℚ) (window i : Int) : ℚ :=
  ((intRange (i - window) (i + window + 1)).filter (fun j => decide (j ≠ i))).foldl
    (fun acc j => fl (acc + valAt y j)) 0

/-- The `double` values of the literals `{0.6, 1.1, 0.5, 0.6, 1.3}`. -/
def tieSignal : List ℚ :=
  [ieee.roundDouble (6 / 10), ieee.roundDouble (11 / 10), 1 / 2, ieee.roundDouble (6 / 10),
    ieee.roundDouble (13 / 10)]

end odmr_utils.rounded

namespace odmr_utils

/-- The conversion `duration_cast<microseconds>` of a `duration<double, std::nano>`
of `x` nanoseconds: the quotient `x / 1000` in `double`, converted to the 64-bit
count toward zero. -/
def toMicroseconds (fl : ℚ → ℚ) (x : ℚ) : Int := ieee.truncate (fl (x / 1000))

/-- The variable `end` of `accurate_sleep`: `start + duration<double>(duration_seconds)`
is a time point in `double` nanoseconds, the sum of `start` converted to `double`
and of `duration_seconds * 1e9`, each operation rounded by `fl`. -/
def deadline (fl : ℚ → ℚ) (duration_seconds : ℚ) (start : Int) : ℚ :=
  fl (fl (start : ℚ) + fl (duration_seconds * 1000000000))

/-- The count of `remaining` computed from the clock reading `j`:
`duration_cast<microseconds>(end - now())`, the reading converted to `double`
nanoseconds and the difference taken in `double`. -/
def remaining (fl : ℚ → ℚ) (clock : Nat → Int) (dl : ℚ) (j : Nat) : Int :=
  toMicroseconds fl (fl (dl - fl (clock j : ℚ)))

/-- Lines 76-85 of `utils.cpp`, the loop of `accurate_sleep`. The clock is the
sequence of the values returned by the successive calls of
`high_resolution_clock::now()`, in nanoseconds since its epoch; `k` is the number
of calls made so far, `dl` is the variable `end`, and `sleeps` lists the
`sleep_for` calls made so far: the index of the reading from which `remaining`
was computed, and the argument `remaining / 2` in microseconds. Each turn reads
the clock for the loop test `now() < end`, a comparison in `double` nanoseconds,
and, when the test holds, once more for `remaining`. The result is the index of
the reading that ended the loop, with the `sleep_for` calls made; `none` when the
loop has not ended after `fuel` tests. -/
def sleepLoop (fl : ℚ → ℚ) (clock : Nat → Int) (dl : ℚ) :
    Nat → Nat → List (Nat × Int) → Option (Nat × List (Nat × Int))
  | 0, _, _ => none
  | fuel + 1, k, sleeps =>
    if fl (clock k : ℚ) < dl then
      if remaining fl clock dl (k + 1) > 2000 then
        sleepLoop fl clock dl fuel (k + 2)
          (sleeps ++ [(k + 1, Int.tdiv (remaining fl clock dl (k + 1)) 2)])
      else sleepLoop fl clock dl fuel (k + 2) sleeps
    else some (k, sleeps)

/-- The function `accurate_sleep(duration_seconds)` of `utils.cpp`, its `double`
operations rounded by `fl` (`ieee.roundDouble` for the program, the identity for
exact arithmetic): reading 0 of the clock is `start`. -/
def accurate_sleep (fl : ℚ → ℚ) (duration_seconds : ℚ) (clock : Nat → Int) (fuel : Nat) :
    Option (Nat × List (Nat × Int)) :=
  sleepLoop fl clock (deadline fl duration_seconds (clock 0)) fuel 1 []

/-- The `sleep_for` calls of `m` turns of the loop: turn `t` tests reading
`2 * t + 1` and computes `remaining` from the next reading, `2 * t + 2`; a call
is made in the turns where this count exceeds 2000, for half of it. -/
def requests (fl : ℚ → ℚ) (clock : Nat → Int) (dl : ℚ) (m : Nat) : List (Nat × Int) :=
  (((List.range m).map (fun (t : Nat) => 2 * t + 2)).filter
    (fun j => decide (remaining fl clock dl j > 2000))).map
    (fun j => (j, remaining fl clock dl j / 2))

/-- A clock that advances by one millisecond between two readings, from 1 s. -/
def milliClock (k : Nat) : Int := 1000000000 + 1000000 * (k : Int)

/-- A system clock read on 15 January 2027 at 08:00:00.000000127 UTC and then
every 199.94 microseconds. -/
def pollClock (k : Nat) : Int := 1800000000000000127 + 199940 * (k : Int)

/-- A clock that is set back while `accurate_sleep` runs: it reads 1 s on entry,
one nanosecond less at the first loop test, 10 ms less at the next reading, and
2 s from then on. -/
def backClock (k : Nat) : Int :=
  if k = 0 then 1000000000
  else if k = 1 then 999999999
  else if k = 2 then 990000000
  else 2000000000

end odmr_utils

namespace cpp

/-- The values of type `int`: the integers of 32 bits in two's complement. -/
abbrev Int32 := { n : Int // -2147483648 ≤ n ∧ n ≤ 2147483647 }

/-- The finite values of type `float`. -/
abbrev Float32 := { q : ℚ // ieee.isFloat q = true }

/-- The conversion `static_cast<int>(n)` of a 64-bit integer: the value of `int`
congruent to `n` modulo `2 ^ 32`, which is `n` itself when `n` is in the range of
`int`. -/
def intOfInt64 (n : Int) : Int32 :=
  ⟨(n + 2147483648) % 4294967296 - 2147483648, by omega⟩

/-- The conversion `static_cast<int>(x)` of a `double`: `x` truncated toward
zero; `none` when the truncated value is outside the range of `int`, where the
behaviour is undefined. -/
def intOfDouble (x : ℚ) : Option Int32 :=
  if h : -2147483648 ≤ ieee.truncate x ∧ ieee.truncate x ≤ 2147483647 then
    some ⟨ieee.truncate x, h⟩
  else none

/-- The conversion `static_cast<float>(x)` of a `double` or of a 64-bit integer:
`x` itself when it is a `float`, and otherwise one of the two `float` values next
to it, the nearest as IEEE 754 has it; `none` when `x` is outside the range of
the finite `float` values, where the behaviour is undefined. The rounded value of
an `x` in the range is a `float`, so the inner test holds for every such `x`. -/
def floatOfDouble (x : ℚ) : Option Float32 :=
  if |x| ≤ ieee.fltMax then
    if h : ieee.isFloat (ieee.roundFloat x) = true then some ⟨ieee.roundFloat x, h⟩ else none
  else none

/-- The `int` value of a literal. -/
def int (n : Int) : Int32 := intOfInt64 n

/-- The `float` value of a literal such as `2.85f`: the `float` nearest to the
decimal fraction. -/
def float (x : ℚ) : Float32 := (floatOfDouble x).getD ⟨0, by decide!⟩

end cpp

namespace nlohmann

/-- The values of a `nlohmann::json`, told apart the way `get_to` tells them apart
for an arithmetic target: the number types (`number_unsigned` is counted with
`number_integer`), `boolean`, and the types for which it throws. A
`number_float` is a finite `double`, taken exactly. -/
inductive value where
  | null
  | boolean (b : Bool)
  | number_integer (n : Int)
  | number_float (x : ℚ)
  | string (s : String)
  | structured
deriving DecidableEq

/-- A JSON object: its members. `j.lookup key` is `some v` when `j.contains(key)`
holds and `j.at(key)` is `v`, and `none` when `j.contains(key)` is false. -/
abbrev json := List (String × value)

/-- The outcome of a call `v.get_to(field)`: the value stored in the field, the
exception `type_error` 302 that the library throws when `v` is not a number, or
undefined behaviour in the `static_cast` of the number to the type of the field. -/
inductive Got (α : Type) where
  | stored (x : α)
  | type_error
  | undefined
deriving DecidableEq

/-- The call `v.get_to(field)` for a `float` field: the number converted by
`static_cast<float>`, a boolean counting as 0 or 1. -/
def get_to_float : value → Got cpp.Float32
  | value.number_integer n =>
    match cpp.floatOfDouble (n : ℚ) with
    | some f => Got.stored f
    | none => Got.undefined
  | value.number_float x =>
    match cpp.floatOfDouble x with
    | some f => Got.stored f
    | none => Got.undefined
  | value.boolean b => Got.stored (if b then cpp.float 1 else cpp.float 0)
  | _ => Got.type_error

/-- The call `v.get_to(field)` for an `int` field: the number converted by
`static_cast<int>`, a boolean counting as 0 or 1. -/
def get_to_int : value → Got cpp.Int32
  | value.number_integer n => Got.stored (cpp.intOfInt64 n)
  | value.number_float x =>
    match cpp.intOfDouble x with
    | some n => Got.stored n
    | none => Got.undefined
  | value.boolean b => Got.stored (if b then cpp.int 1 else cpp.int 0)
  | _ => Got.type_error

end nlohmann

/-- The struct `UserSettings` of settings.h: four `float` members and six `int`
members. -/
structure UserSettings where
  startFreq : cpp.Float32
  endFreq : cpp.Float32
  delay : cpp.Float32
  steps : cpp.Int32
  averages : cpp.Int32
  updateInterval : cpp.Int32
  lineWidth : cpp.Float32
  plotStyle : cpp.Int32
  bandMode : cpp.Int32
  themeMode : cpp.Int32
deriving DecidableEq

namespace UserSettings

open nlohmann

/-- The member initialisers of settings.h. -/
def initial : UserSettings :=
  { startFreq := cpp.float (285 / 100), endFreq := cpp.float (292 / 100),
    delay := cpp.float (1 / 1000), steps := cpp.int 1000, averages := cpp.int 10,
    updateInterval := cpp.int 1, lineWidth := cpp.float (3 / 2), plotStyle := cpp.int 0,
    bandMode := cpp.int 1, themeMode := cpp.int 1 }

/-- Lines 7-20 of settings.cpp: the object with the ten keys, a `float` member
stored as a `number_float` (the conversion of a `float` to `double` is exact), an
`int` member as a `number_integer`. -/
def to_json (s : UserSettings) : json :=
  [("startFreq", value.number_float s.startFreq.val),
   ("endFreq", value.number_float s.endFreq.val),
   ("delay", value.number_float s.delay.val),
   ("steps", value.number_integer s.steps.val),
   ("averages", value.number_integer s.averages.val),
   ("updateInterval", value.number_integer s.updateInterval.val),
   ("lineWidth", value.number_float s.lineWidth.val),
   ("plotStyle", value.number_integer s.plotStyle.val),
   ("bandMode", value.number_integer s.bandMode.val),
   ("themeMode", value.number_integer s.themeMode.val)]

/-- The outcome of `if (j.contains(key)) j.at(key).get_to(field)` for a `float`
member: the value of the member afterwards, unless `get_to` throws or has
undefined behaviour. -/
def readFloat (j : json) (key : String) (field : cpp.Float32) : Got cpp.Float32 :=
  match j.lookup key with
  | none => Got.stored field
  | some v => get_to_float v

/-- The outcome of `if (j.contains(key)) j.at(key).get_to(field)` for an `int`
member: the value of the member afterwards, unless `get_to` throws or has
undefined behaviour. -/
def readInt (j : json) (key : String) (field : cpp.Int32) : Got cpp.Int32 :=
  match j.lookup key with
  | none => Got.stored field
  | some v => get_to_int v

end UserSettings

/-- How a call of `from_json` ends when it does not return: with the exception
`type_error` thrown by a `get_to`, which leaves the settings at `s`, the members
before the one it was reading already updated, or in undefined behaviour. -/
inductive Stop where
  | type_error (s : UserSettings)
  | undefined
deriving DecidableEq

deriving instance DecidableEq for Except

namespace UserSettings

open nlohmann

/-- One statement of `from_json` on the settings `s`: it stores the value read, or
`from_json` ends there. -/
def store {α : Type} (r : Got α) (s : UserSettings) (set : α → UserSettings) :
    Except Stop UserSettings :=
  match r with
  | Got.stored x => Except.ok (set x)
  | Got.type_error => Except.error (Stop.type_error s)
  | Got.undefined => Except.error Stop.undefined

/-- Lines 22-44 of settings.cpp. `Except.ok s` is a normal return with the settings
`s`. -/
def from_json (s : UserSettings) (j : json) : Except Stop UserSettings := do
  let s ← store (readFloat j "startFreq" s.startFreq) s (fun x => { s with startFreq := x })
  let s ← store (readFloat j "endFreq" s.endFreq) s (fun x => { s with endFreq := x })
  let s ← store (readFloat j "delay" s.delay) s (fun x => { s with delay := x })
  let s ← store (readInt j "steps" s.steps) s (fun x => { s with steps := x })
  let s ← store (readInt j "averages" s.averages) s (fun x => { s with averages := x })
  let s ← store (readInt j "updateInterval" s.updateInterval) s
    (fun x => { s with updateInterval := x })
  let s ← store (readFloat j "lineWidth" s.lineWidth) s (fun x => { s with lineWidth := x })
  let s ← store (readInt j "plotStyle" s.plotStyle) s (fun x => { s with plotStyle := x })
  let s ← store (readInt j "bandMode" s.bandMode) s (fun x => { s with bandMode := x })
  store (readInt j "themeMode" s.themeMode) s (fun x => { s with themeMode := x })

/-- The settings that a call of `from_json` leaves when it returns or throws. -/
def after (r : Except Stop UserSettings) : Option UserSettings :=
  match r with
  | Except.ok s => some s
  | Except.error (Stop.type_error s) => some s
  | Except.error Stop.undefined => none

/-- The keys of the `float` members. -/
def floatKeys : List String := ["startFreq", "endFreq", "delay", "lineWidth"]

/-- The keys of the `int` members. -/
def intKeys : List String :=
  ["steps", "averages", "updateInterval", "plotStyle", "bandMode", "themeMode"]

/-- Every member of `j` under one of the ten keys is a number or a boolean whose
conversion to the type of the field is defined. -/
def Converts (j : json) : Prop :=
  (∀ key ∈ floatKeys, ∀ v, j.lookup key = some v → ∃ x, get_to_float v = Got.stored x) ∧
  (∀ key ∈ intKeys, ∀ v, j.lookup key = some v → ∃ n, get_to_int v = Got.stored n)

/-- The value that the claim gives a `float` member: the JSON value converted when
the key is present, the previous value when it is absent. -/
def floatField (old : cpp.Float32) : Option value → cpp.Float32
  | none => old
  | some v =>
    match get_to_float v with
    | Got.stored x => x
    | _ => old

/-- The value that the claim gives an `int` member: the JSON value converted when
the key is present, the previous value when it is absent. -/
def intField (old : cpp.Int32) : Option value → cpp.Int32
  | none => old
  | some v =>
    match get_to_int v with
    | Got.stored n => n
    | _ => old

/-- Every member of `s'` whose key is absent from `j` has the value it has in `s`. -/
def KeepsAbsent (j : json) (s s' : UserSettings) : Prop :=
  (j.lookup "startFreq" = none → s'.startFreq = s.startFreq) ∧
  (j.lookup "endFreq" = none → s'.endFreq = s.endFreq) ∧
  (j.lookup "delay" = none → s'.delay = s.delay) ∧
  (j.lookup "steps" = none → s'.steps = s.steps) ∧
  (j.lookup "averages" = none → s'.averages = s.averages) ∧
  (j.lookup "updateInterval" = none → s'.updateInterval = s.updateInterval) ∧
  (j.lookup "lineWidth" = none → s'.lineWidth = s.lineWidth) ∧
  (j.lookup "plotStyle" = none → s'.plotStyle = s.plotStyle) ∧
  (j.lookup "bandMode" = none → s'.bandMode = s.bandMode) ∧
  (j.lookup "themeMode" = none → s'.themeMode = s.themeMode)

/-- The settings of the test `SerializesToJsonCorrectly`. -/
def sample : UserSettings :=
  { startFreq := cpp.float (28 / 10), endFreq := cpp.float (29 / 10),
    delay := cpp.float (1 / 100), steps := cpp.int 200, averages := cpp.int 5,
    updateInterval := cpp.int 2, lineWidth := cpp.float 2, plotStyle := cpp.int 1,
    bandMode := cpp.int 0, themeMode := cpp.int 0 }

/-- The settings of the test `FromJsonKeepsExistingValuesWhenKeysAreMissing` before
the call. -/
def edited : UserSettings :=
  { initial with startFreq := cpp.float (111 / 100), endFreq := cpp.float (999 / 100) }

/-- The object `partial` of the test `FromJsonKeepsExistingValuesWhenKeysAreMissing`:
the `float` value `2.22f` stored as a `double`. -/
def onlyStartFreq : json := [("startFreq", value.number_float (cpp.float (222 / 100)).val)]

end UserSettings

namespace SettingsManager

open nlohmann

/-- Lines 85-90 of settings.cpp: `Save` leaves in the file at `GetPath()` the text
`settings.to_json().dump(4)`. The file is modelled by the document that parsing
its text gives, `none` when it cannot be opened; `dump` followed by the parse of
`in >> j` is taken to give the document back. -/
def Save (settings : UserSettings) : Option json := some settings.to_json

/-- Lines 74-83 of settings.cpp: `Load` does nothing when the file cannot be
opened, and otherwise runs `from_json` on the document parsed from it. -/
def Load (settings : UserSettings) (file : Option json) : Except Stop UserSettings :=
  match file with
  | none => Except.ok settings
  | some j => settings.from_json j

end SettingsManager
namespace odmr_utils

/-- Lines 52-60 of `utils.cpp`, on the index: the `while` loop of one run, started
with the index `i`, the running minimum `minVal` and its index `minIdx`; it gives
the index `i` and `minIdx` at the exit of the loop. The reads `rawDips[i + 1]`,
`rawDips[i]` and `y[rawDips[i]]` are checked: a read outside its vector gives
`none`, as does running out of `fuel`. -/
def runLoop (y : List ℚ) (minGap : Int) (raw : List Int) : Nat → Nat → ℚ → Int → Option (Nat × Int)
  | 0, _, _, _ => none
  | fuel + 1, i, minVal, minIdx =>
    if i + 1 < raw.length then
      match raw[i + 1]?, raw[i]? with
      | some next, some cur =>
        if next - cur ≤ minGap then
          match readAt y next with
          | none => none
          | some v =>
            if v < minVal then runLoop y minGap raw fuel (i + 1) v next
            else runLoop y minGap raw fuel (i + 1) minVal minIdx
        else some (i, minIdx)
      | _, _ => none
    else some (i, minIdx)

/-- Lines 46-64 of `utils.cpp`, on the index: the loop
`for (size_t i = 0; i < rawDips.size();)` from the index `i` on, `out` being
`filteredDips` so far. The reads `rawDips[i]` and `y[start]` are checked: a read
outside its vector gives `none`, as does running out of `fuel`. -/
def filterLoop (y : List ℚ) (minGap : Int) (raw : List Int) : Nat → Nat → List Int → Option (List Int)
  | 0, _, _ => none
  | fuel + 1, i, out =>
    if i < raw.length then
      match raw[i]? with
      | none => none
      | some start =>
        match readAt y start with
        | none => none
        | some minVal =>
          match runLoop y minGap raw (raw.length + 1) i minVal start with
          | none => none
          | some (i', minIdx) => filterLoop y minGap raw fuel (i' + 1) (out ++ [minIdx])
    else some out

/-- Lines 43-66 of `utils.cpp` with the index reads of `rawDips` checked; each
iteration of a loop moves `i` forward, so `rawDips.size() + 1` is fuel enough. -/
def filteredDipsAt (y : List ℚ) (minGap : Int) (raw : List Int) : Option (List Int) :=
  filterLoop y minGap raw (raw.length + 1) 0 []

end odmr_utils
namespace odmr_utils

theorem mem_intRange {lo hi j : Int} : j ∈ intRange lo hi ↔ lo ≤ j ∧ j < hi := by
  unfold intRange
  simp only [List.mem_map, List.mem_range]
  constructor
  · rintro ⟨k, hk, rfl⟩
    omega
  · intro h
    exact ⟨(j - lo).toNat, by omega, by omega⟩

theorem intRange_sorted (lo hi : Int) : (intRange lo hi).Pairwise (· < ·) := by
  unfold intRange
  rw [List.pairwise_map]
  refine (List.pairwise_lt_range _).imp ?_
  intro a b hab
  omega

theorem intRange_nodup (lo hi : Int) : (intRange lo hi).Nodup :=
  (intRange_sorted lo hi).imp (fun h => ne_of_lt h)

theorem readAt_eq_valAt {y : List ℚ} {j : Int} (h0 : 0 ≤ j) (h1 : j < (y.length : Int)) :
    readAt y j = some (valAt y j) := by
  have hlt : j.toNat < y.length := by omega
  have hsome : readAt y j = some (y[j.toNat]) := by
    unfold readAt
    rw [if_pos h0]
    exact List.getElem?_eq_getElem hlt
  simp [valAt, hsome]

theorem intRange_three (i : Int) : intRange (i - 1) (i + 2) = [i - 1, i, i + 1] := by
  have h : (i + 2 - (i - 1)).toNat = 3 := by omega
  unfold intRange
  rw [h]
  simp [List.range_succ]
  omega

theorem sumNeighbours_eq (y : List ℚ) (i : Int) :
    ∀ (js : List Int) (acc : ℚ), (∀ j ∈ js, 0 ≤ j ∧ j < (y.length : Int)) →
      sumNeighbours y i js acc
        = some (acc + ((js.filter (fun j => decide (j ≠ i))).map (valAt y)).sum) := by
  intro js
  induction js with
  | nil => intro acc _; simp [sumNeighbours]
  | cons j js ih =>
    intro acc hjs
    have hj := hjs j (List.mem_cons_self _ _)
    have hrest : ∀ j ∈ js, 0 ≤ j ∧ j < (y.length : Int) :=
      fun k hk => hjs k (List.mem_cons_of_mem _ hk)
    by_cases hji : j = i
    · simp [sumNeighbours, hji, ih acc hrest]
    · simp [sumNeighbours, hji, readAt_eq_valAt hj.1 hj.2, ih _ hrest, add_assoc]

theorem sum_window_eq (y : List ℚ) (window i : Int) :
    (((intRange (i - window) (i + window + 1)).filter (fun j => decide (j ≠ i))).map
      (valAt y)).sum = neighbourSum y window i := by
  unfold neighbourSum
  have hnd : ((intRange (i - window) (i + window + 1)).filter (fun j => decide (j ≠ i))).Nodup :=
    (intRange_nodup _ _).filter _
  rw [← List.sum_toFinset _ hnd]
  congr 1
  ext j
  simp only [List.mem_toFinset, List.mem_filter, mem_intRange, decide_eq_true_eq,
    Finset.mem_erase, Finset.mem_Icc]
  constructor
  · rintro ⟨⟨h1, h2⟩, h3⟩
    exact ⟨h3, h1, by omega⟩
  · rintro ⟨h3, h1, h2⟩
    exact ⟨⟨h1, by omega⟩, h3⟩

theorem localAvg_eq {y : List ℚ} {window i : Int} (h1 : window ≤ i)
    (h2 : i < (y.length : Int) - window) :
    localAvg y window i
      = some (Dbl.div (Dbl.fin (neighbourSum y window i)) (Dbl.ofInt (2 * window))) := by
  unfold localAvg
  rw [sumNeighbours_eq y i _ 0 (fun j hj => by rw [mem_intRange] at hj; omega),
    sum_window_eq, zero_add]

theorem isMin_three {y : List ℚ} {i : Int} (center : ℚ) (h1 : 1 ≤ i)
    (h2 : i + 1 < (y.length : Int)) :
    isMin y center i [i - 1, i, i + 1]
      = some (decide (center ≤ valAt y (i - 1)) && decide (center ≤ valAt y (i + 1))) := by
  have ha : ¬ (i - 1 < 0 ∨ i - 1 ≥ (y.length : Int) ∨ i - 1 = i) := by omega
  have hb : ¬ (i + 1 < 0 ∨ i + 1 ≥ (y.length : Int) ∨ i + 1 = i) := by omega
  have ra : readAt y (i - 1) = some (valAt y (i - 1)) := readAt_eq_valAt (by omega) (by omega)
  have rb : readAt y (i + 1) = some (valAt y (i + 1)) := readAt_eq_valAt (by omega) (by omega)
  simp only [isMin, ha, hb, ra, rb, if_false, or_true, if_true, gt_iff_lt]
  by_cases c1 : center ≤ valAt y (i - 1) <;> by_cases c2 : center ≤ valAt y (i + 1) <;>
    simp [c1, c2, not_lt.mpr, not_le.mp]

theorem isCandidate_eq {y : List ℚ} {window i : Int} (prominence : ℚ) (hw : 1 ≤ window)
    (h1 : window ≤ i) (h2 : i < (y.length : Int) - window) :
    isCandidate y window prominence i
      = some (decide (valAt y i + prominence < neighbourSum y window i / (2 * window)) &&
          (decide (valAt y i ≤ valAt y (i - 1)) && decide (valAt y i ≤ valAt y (i + 1)))) := by
  have hne : ((2 * window : Int) : ℚ) ≠ 0 := by
    have : (2 * window : Int) ≠ 0 := by omega
    exact_mod_cast this
  have hcast : ((2 * window : Int) : ℚ) = 2 * (window : ℚ) := by push_cast; ring
  have hdiv : ∀ s : ℚ, Dbl.div (Dbl.fin s) (Dbl.ofInt (2 * window))
      = Dbl.fin (s / (2 * (window : ℚ))) := by
    intro s
    show (if ((2 * window : Int) : ℚ) = 0 then Dbl.nan
      else Dbl.fin (s / ((2 * window : Int) : ℚ))) = _
    rw [if_neg hne, hcast]
  have hlt : ∀ a b : ℚ, Dbl.lt (Dbl.fin a) (Dbl.fin b) = decide (a < b) := fun _ _ => rfl
  unfold isCandidate
  rw [readAt_eq_valAt (by omega) (by omega), localAvg_eq h1 h2]
  simp only [hdiv, hlt]
  rw [intRange_three, isMin_three _ (by omega) (by omega)]
  by_cases hp : valAt y i + prominence < neighbourSum y window i / (2 * (window : ℚ))
  · simp [hp]
  · simp [hp]

theorem isCandidate_zero {y : List ℚ} {i : Int} (prominence : ℚ) (h1 : 0 ≤ i)
    (h2 : i < (y.length : Int)) : isCandidate y 0 prominence i = some false := by
  unfold isCandidate
  rw [readAt_eq_valAt h1 h2, localAvg_eq (by omega) (by omega)]
  simp [Dbl.div, Dbl.ofInt, Dbl.lt]

theorem isCandidate_total {y : List ℚ} {window i : Int} (prominence : ℚ) (hw : 0 ≤ window)
    (h1 : window ≤ i) (h2 : i < (y.length : Int) - window) :
    ∃ c, isCandidate y window prominence i = some c := by
  rcases eq_or_lt_of_le hw with h0 | hpos
  · subst h0
    exact ⟨false, isCandidate_zero prominence (by omega) (by omega)⟩
  · exact ⟨_, isCandidate_eq prominence (by omega) h1 h2⟩

theorem scanDips_eq (y : List ℚ) (window : Int) (prominence : ℚ) :
    ∀ (is : List Int), (∀ i ∈ is, ∃ c, isCandidate y window prominence i = some c) →
      scanDips y window prominence is
        = some (is.filter (fun i => decide (isCandidate y window prominence i = some true))) := by
  intro is
  induction is with
  | nil => intro _; rfl
  | cons i is ih =>
    intro h
    obtain ⟨c, hc⟩ := h i (List.mem_cons_self _ _)
    have hrest := ih (fun k hk => h k (List.mem_cons_of_mem _ hk))
    cases c <;> simp [scanDips, hc, hrest]

theorem rawDips_eq (y : List ℚ) {window : Int} (prominence : ℚ) (hw : 0 ≤ window) :
    rawDips y window prominence
      = some ((intRange window ((y.length : Int) - window)).filter
          (fun i => decide (isCandidate y window prominence i = some true))) := by
  unfold rawDips
  apply scanDips_eq
  intro i hi
  rw [mem_intRange] at hi
  exact isCandidate_total prominence hw hi.1 hi.2

end odmr_utils

namespace odmr_utils

theorem mergeRun_eq (y : List ℚ) (g : Int) :
    ∀ (rs : List Int) (prev mi : Int), (∀ r ∈ rs, 0 ≤ r ∧ r < (y.length : Int)) →
      mergeRun y g prev (valAt y mi) mi rs
        = some ((splitRuns g prev rs).1.foldl (lowerOf y) mi
            :: (splitRuns g prev rs).2.map (firstMin y)) := by
  intro rs
  induction rs with
  | nil => intro prev mi _; simp [mergeRun, splitRuns]
  | cons r rs ih =>
    intro prev mi h
    have hr := h r (List.mem_cons_self _ _)
    have hrest : ∀ k ∈ rs, 0 ≤ k ∧ k < (y.length : Int) :=
      fun k hk => h k (List.mem_cons_of_mem _ hk)
    have hread := readAt_eq_valAt hr.1 hr.2
    by_cases hgap : r - prev ≤ g
    · by_cases hlow : valAt y r < valAt y mi
      · simp [mergeRun, hread, hgap, hlow, splitRuns, lowerOf, ih r r hrest]
      · simp [mergeRun, hread, hgap, hlow, splitRuns, lowerOf, ih r mi hrest]
    · simp [mergeRun, hread, hgap, splitRuns, firstMin, ih r r hrest]

theorem filteredDips_eq (y : List ℚ) (g : Int) (raw : List Int)
    (h : ∀ r ∈ raw, 0 ≤ r ∧ r < (y.length : Int)) :
    filteredDips y g raw = some ((runs g raw).map (firstMin y)) := by
  cases raw with
  | nil => rfl
  | cons a rest =>
    have ha := h a (List.mem_cons_self _ _)
    simp only [filteredDips]
    rw [readAt_eq_valAt ha.1 ha.2]
    simp only []
    rw [mergeRun_eq y g rest a a (fun k hk => h k (List.mem_cons_of_mem _ hk))]
    simp [runs, firstMin]

theorem splitRuns_flatten (g : Int) :
    ∀ (rest : List Int) (a : Int),
      (splitRuns g a rest).1 ++ (splitRuns g a rest).2.flatten = rest := by
  intro rest
  induction rest with
  | nil => intro a; simp [splitRuns]
  | cons b rest ih =>
    intro a
    by_cases hgap : b - a ≤ g
    · simp [splitRuns, hgap, ih b]
    · simp [splitRuns, hgap, ih b]

theorem runs_flatten (g : Int) (l : List Int) : (runs g l).flatten = l := by
  cases l with
  | nil => rfl
  | cons a rest => simp [runs, splitRuns_flatten g rest a]

theorem splitRuns_chain (g : Int) :
    ∀ (rest : List Int) (a : Int),
      List.Chain (fun u v => v - u ≤ g) a (splitRuns g a rest).1 ∧
      ∀ run ∈ (splitRuns g a rest).2, run ≠ [] ∧ List.Chain' (fun u v => v - u ≤ g) run := by
  intro rest
  induction rest with
  | nil => intro a; simp [splitRuns]
  | cons b rest ih =>
    intro a
    obtain ⟨h1, h2⟩ := ih b
    by_cases hgap : b - a ≤ g
    · simp only [splitRuns, hgap, if_true]
      exact ⟨List.Chain.cons hgap h1, h2⟩
    · simp only [splitRuns, hgap, if_false]
      refine ⟨List.Chain.nil, ?_⟩
      intro run hrun
      rcases List.mem_cons.mp hrun with rfl | hmem
      · exact ⟨List.cons_ne_nil _ _, h1⟩
      · exact h2 run hmem

theorem runs_chain (g : Int) (l : List Int) :
    ∀ run ∈ runs g l, run ≠ [] ∧ List.Chain' (fun u v => v - u ≤ g) run := by
  cases l with
  | nil => intro run hrun; simp [runs] at hrun
  | cons a rest =>
    intro run hrun
    obtain ⟨h1, h2⟩ := splitRuns_chain g rest a
    rcases List.mem_cons.mp hrun with rfl | hmem
    · exact ⟨List.cons_ne_nil _ _, h1⟩
    · exact h2 run hmem

theorem splitRuns_separated (g : Int) :
    ∀ (rest : List Int) (a : Int) (pre : List Int),
      List.Chain' (Separated g)
        ((pre ++ a :: (splitRuns g a rest).1) :: (splitRuns g a rest).2) := by
  intro rest
  induction rest with
  | nil => intro a pre; simp [splitRuns]
  | cons b rest ih =>
    intro a pre
    by_cases hgap : b - a ≤ g
    · simp only [splitRuns, hgap, if_true]
      have := ih b (pre ++ [a])
      simpa using this
    · simp only [splitRuns, hgap, if_false]
      have := ih b []
      refine List.Chain'.cons ?_ this
      intro u hu v hv
      simp at hu hv
      subst hu hv
      omega

theorem runs_separated (g : Int) (l : List Int) : List.Chain' (Separated g) (runs g l) := by
  cases l with
  | nil => simp [runs]
  | cons a rest => simpa [runs] using splitRuns_separated g rest a []

end odmr_utils

namespace odmr_utils

theorem foldl_lowerOf (y : List ℚ) :
    ∀ (l : List Int) (m : Int), l.Pairwise (· < ·) → (∀ j ∈ l, m < j) →
      (l.foldl (lowerOf y) m = m ∨ l.foldl (lowerOf y) m ∈ l) ∧
      valAt y (l.foldl (lowerOf y) m) ≤ valAt y m ∧
      (∀ j ∈ l, valAt y (l.foldl (lowerOf y) m) ≤ valAt y j) ∧
      (∀ j ∈ l, j < l.foldl (lowerOf y) m → valAt y (l.foldl (lowerOf y) m) < valAt y j) ∧
      (l.foldl (lowerOf y) m ≠ m → valAt y (l.foldl (lowerOf y) m) < valAt y m) := by
  intro l
  induction l with
  | nil => intro m _ _; simp
  | cons r l ih =>
    intro m hs hm
    have hsl : l.Pairwise (· < ·) := (List.pairwise_cons.mp hs).2
    have hrl : ∀ j ∈ l, r < j := (List.pairwise_cons.mp hs).1
    have hmr : m < r := hm r (List.mem_cons_self _ _)
    rw [List.foldl_cons]
    by_cases hlow : valAt y r < valAt y m
    · have hstep : lowerOf y m r = r := by simp [lowerOf, hlow]
      rw [hstep]
      obtain ⟨ha, hb, hc, hd, he⟩ := ih r hsl hrl
      refine ⟨Or.inr ?_, le_of_lt (lt_of_le_of_lt hb hlow), ?_, ?_, fun _ => lt_of_le_of_lt hb hlow⟩
      · rcases ha with ha | ha
        · rw [ha]; exact List.mem_cons_self _ _
        · exact List.mem_cons_of_mem _ ha
      · intro j hj
        rcases List.mem_cons.mp hj with rfl | hj
        · exact hb
        · exact hc j hj
      · intro j hj hlt
        rcases List.mem_cons.mp hj with rfl | hj
        · exact he (ne_of_gt hlt)
        · exact hd j hj hlt
    · have hstep : lowerOf y m r = m := by simp [lowerOf, hlow]
      rw [hstep]
      obtain ⟨ha, hb, hc, hd, he⟩ := ih m hsl (fun j hj => lt_trans hmr (hrl j hj))
      refine ⟨?_, hb, ?_, ?_, he⟩
      · rcases ha with ha | ha
        · exact Or.inl ha
        · exact Or.inr (List.mem_cons_of_mem _ ha)
      · intro j hj
        rcases List.mem_cons.mp hj with rfl | hj
        · exact le_trans hb (not_lt.mp hlow)
        · exact hc j hj
      · intro j hj hlt
        rcases List.mem_cons.mp hj with rfl | hj
        · have hne : l.foldl (lowerOf y) m ≠ m := ne_of_gt (lt_trans hmr hlt)
          exact lt_of_lt_of_le (he hne) (not_lt.mp hlow)
        · exact hd j hj hlt

theorem firstMin_spec (y : List ℚ) {run : List Int} (hne : run ≠ [])
    (hs : run.Pairwise (· < ·)) :
    firstMin y run ∈ run ∧
    (∀ j ∈ run, valAt y (firstMin y run) ≤ valAt y j) ∧
    (∀ j ∈ run, j < firstMin y run → valAt y (firstMin y run) < valAt y j) := by
  cases run with
  | nil => exact absurd rfl hne
  | cons a rest =>
    obtain ⟨ha, hb, hc, hd, he⟩ :=
      foldl_lowerOf y rest a (List.pairwise_cons.mp hs).2 (List.pairwise_cons.mp hs).1
    simp only [firstMin]
    refine ⟨?_, ?_, ?_⟩
    · rcases ha with ha | ha
      · rw [ha]; exact List.mem_cons_self _ _
      · exact List.mem_cons_of_mem _ ha
    · intro j hj
      rcases List.mem_cons.mp hj with rfl | hj
      · exact hb
      · exact hc j hj
    · intro j hj hlt
      rcases List.mem_cons.mp hj with rfl | hj
      · exact he (ne_of_gt hlt)
      · exact hd j hj hlt

theorem run_sorted {g : Int} {raw run : List Int} (hs : raw.Pairwise (· < ·))
    (h : run ∈ runs g raw) : run.Pairwise (· < ·) := by
  have hsub : run.Sublist (runs g raw).flatten := List.sublist_flatten_of_mem h
  rw [runs_flatten] at hsub
  exact hs.sublist hsub

theorem run_subset {g : Int} {raw run : List Int} (h : run ∈ runs g raw) :
    ∀ i ∈ run, i ∈ raw := by
  intro i hi
  have : i ∈ (runs g raw).flatten := List.mem_flatten.mpr ⟨run, h, hi⟩
  rwa [runs_flatten] at this

theorem run_unique {g : Int} {raw r1 r2 : List Int} (hs : raw.Pairwise (· < ·))
    (h1 : r1 ∈ runs g raw) (h2 : r2 ∈ runs g raw) {i : Int} (hi1 : i ∈ r1) (hi2 : i ∈ r2) :
    r1 = r2 := by
  have hnd : (runs g raw).flatten.Nodup := by
    rw [runs_flatten]
    exact hs.imp (fun h => ne_of_lt h)
  have hdis := (List.nodup_flatten.mp hnd).2
  by_contra hne
  have := hdis.forall (fun _ _ h => h.symm) h1 h2 hne
  exact this hi1 hi2

end odmr_utils

namespace odmr_utils

theorem raw_sorted {y : List ℚ} {window : Int} {prominence : ℚ} {raw : List Int}
    (hw : 0 ≤ window) (h : rawDips y window prominence = some raw) :
    raw.Pairwise (· < ·) := by
  rw [rawDips_eq y prominence hw] at h
  cases h
  exact (intRange_sorted _ _).filter _

theorem raw_mem {y : List ℚ} {window : Int} {prominence : ℚ} {raw : List Int}
    (hw : 0 ≤ window) (h : rawDips y window prominence = some raw) {i : Int} :
    i ∈ raw ↔ (window ≤ i ∧ i < (y.length : Int) - window) ∧
      isCandidate y window prominence i = some true := by
  rw [rawDips_eq y prominence hw] at h
  cases h
  simp [List.mem_filter, mem_intRange]

theorem FindProminentDips_eq (y : List ℚ) {window : Int} (prominence : ℚ) (hw : 0 ≤ window) :
    ∃ raw, rawDips y window prominence = some raw ∧
      FindProminentDips y window prominence
        = some ((runs (window / 2) raw).map (firstMin y)) := by
  refine ⟨_, rawDips_eq y prominence hw, ?_⟩
  have hraw := rawDips_eq y prominence hw
  unfold FindProminentDips
  rw [hraw]
  simp only []
  rw [Int.tdiv_eq_ediv hw (by decide)]
  apply filteredDips_eq
  intro r hr
  have := (raw_mem hw hraw).mp hr
  omega

theorem dips_mem_raw {y : List ℚ} {g : Int} {raw : List Int} (hs : raw.Pairwise (· < ·))
    {i : Int} (hi : i ∈ (runs g raw).map (firstMin y)) : i ∈ raw := by
  obtain ⟨run, hrun, rfl⟩ := List.mem_map.mp hi
  exact run_subset hrun _
    (firstMin_spec y (runs_chain g raw run hrun).1 (run_sorted hs hrun)).1

/-- C1 (violated by the code). On the plateau `{1.0, 0.2, 0.2, 1.0}` with window 1
and prominence 0.3 the function returns the indices 1 and 2, although `y[1]` and
`y[2]` are equal: the test `center > y[j]` lets a neighbour equal to the centre
pass. -/
theorem FindProminentDips_returns_plateau :
    FindProminentDips [1, 1 / 5, 1 / 5, 1] 1 (3 / 10) = some [1, 2] ∧
      readAt [1, 1 / 5, 1 / 5, 1] 1 = readAt [1, 1 / 5, 1 / 5, 1] 2 := by
  decide!

/-- C3. For a window that is not negative the function returns a list, every
returned index `i` has `window ≤ i < n - window`, and nothing is returned when
`2 * window ≥ n` (so nothing for the empty signal). -/
theorem FindProminentDips_within_window (y : List ℚ) (window : Int) (prominence : ℚ)
    (hw : 0 ≤ window) :
    ∃ dips, FindProminentDips y window prominence = some dips ∧
      (∀ i ∈ dips, window ≤ i ∧ i < (y.length : Int) - window) ∧
      ((y.length : Int) ≤ 2 * window → dips = []) := by
  obtain ⟨raw, hraw, hres⟩ := FindProminentDips_eq y prominence hw
  have hmem : ∀ i ∈ (runs (window / 2) raw).map (firstMin y),
      window ≤ i ∧ i < (y.length : Int) - window :=
    fun i hi => ((raw_mem hw hraw).mp (dips_mem_raw (raw_sorted hw hraw) hi)).1
  refine ⟨_, hres, hmem, ?_⟩
  intro hn
  apply List.eq_nil_iff_forall_not_mem.mpr
  intro i hi
  have := hmem i hi
  omega

/-- C3 at the signal `{1.0, 0.5, 1.0}` with window 5. -/
theorem FindProminentDips_within_window_witness :
    (0 : Int) ≤ 5 ∧
    ∃ dips, FindProminentDips [1, 1 / 2, 1] 5 (3 / 10) = some dips ∧
      (∀ i ∈ dips, (5 : Int) ≤ i ∧ i < (([1, 1 / 2, 1] : List ℚ).length : Int) - 5) ∧
      ((([1, 1 / 2, 1] : List ℚ).length : Int) ≤ 2 * 5 → dips = []) :=
  ⟨by decide, FindProminentDips_within_window [1, 1 / 2, 1] 5 (3 / 10) (by decide)⟩

end odmr_utils

namespace odmr_utils

/-- C2. For a window that is not negative, the raw candidates `raw` are strictly
increasing and split into the maximal runs `runs (window / 2) raw`: the runs
concatenate to `raw`, inside a run every gap is at most `window / 2`, and from
the last candidate of a run to the first of the next the gap is larger. The
function returns one index per run, in order: the candidate of the run with the
lowest value, which is strictly lower than every earlier candidate of the run;
no other candidate of the run is returned. -/
theorem FindProminentDips_merges_runs (y : List ℚ) (window : Int) (prominence : ℚ)
    (hw : 0 ≤ window) :
    ∃ raw dips, rawDips y window prominence = some raw ∧
      FindProminentDips y window prominence = some dips ∧
      dips = (runs (window / 2) raw).map (firstMin y) ∧
      raw.Pairwise (· < ·) ∧
      (runs (window / 2) raw).flatten = raw ∧
      (∀ run ∈ runs (window / 2) raw,
        run ≠ [] ∧ run.Chain' (fun u v => v - u ≤ window / 2)) ∧
      (runs (window / 2) raw).Chain' (Separated (window / 2)) ∧
      ∀ run ∈ runs (window / 2) raw,
        firstMin y run ∈ run ∧
        (∀ j ∈ run, valAt y (firstMin y run) ≤ valAt y j) ∧
        (∀ j ∈ run, j < firstMin y run → valAt y (firstMin y run) < valAt y j) ∧
        (∀ i ∈ run, i ∈ dips ↔ i = firstMin y run) := by
  obtain ⟨raw, hraw, hres⟩ := FindProminentDips_eq y prominence hw
  have hs := raw_sorted hw hraw
  refine ⟨raw, _, hraw, hres, rfl, hs, runs_flatten _ _, runs_chain _ _, runs_separated _ _, ?_⟩
  intro run hrun
  obtain ⟨h1, h2, h3⟩ := firstMin_spec y (runs_chain _ raw run hrun).1 (run_sorted hs hrun)
  refine ⟨h1, h2, h3, ?_⟩
  intro i hi
  constructor
  · intro hd
    obtain ⟨run2, hrun2, rfl⟩ := List.mem_map.mp hd
    have hin2 := (firstMin_spec y (runs_chain _ raw run2 hrun2).1 (run_sorted hs hrun2)).1
    rw [run_unique hs hrun hrun2 hi hin2]
  · rintro rfl
    exact List.mem_map.mpr ⟨run, hrun, rfl⟩

theorem splitRuns_zero :
    ∀ (rest : List Int) (a : Int), (a :: rest).Pairwise (· < ·) →
      splitRuns 0 a rest = ([], rest.map (fun x => [x])) := by
  intro rest
  induction rest with
  | nil => intro a _; rfl
  | cons b rest ih =>
    intro a hs
    have hab : a < b := (List.pairwise_cons.mp hs).1 b (List.mem_cons_self _ _)
    have hgap : ¬ (b - a ≤ 0) := by omega
    simp [splitRuns, hgap, ih b (List.pairwise_cons.mp hs).2]

theorem runs_zero (y : List ℚ) (l : List Int) (hs : l.Pairwise (· < ·)) :
    (runs 0 l).map (firstMin y) = l := by
  cases l with
  | nil => rfl
  | cons a rest =>
    simp only [runs, splitRuns_zero rest a hs, List.map_cons, List.map_map]
    simp [firstMin, Function.comp_def]

/-- C7 as stated fails: on the one-point signal `{1.0}` with window 0 the local
average of index 0 is the quotient of the empty neighbour sum `0.0` by
`2 * window = 0`, a division by zero, whose result is NaN. -/
theorem localAvg_window_zero_divides_by_zero :
    localAvg [1] 0 0 = some (Dbl.div (Dbl.fin 0) (Dbl.ofInt (2 * 0))) ∧
      Dbl.ofInt (2 * 0) = Dbl.fin 0 ∧ localAvg [1] 0 0 = some Dbl.nan := by
  decide!

/-- C7, amended. For window 0 the function returns the empty list, for every
signal and every prominence. -/
theorem FindProminentDips_window_zero (y : List ℚ) (prominence : ℚ) :
    FindProminentDips y 0 prominence = some [] := by
  obtain ⟨raw, hraw, hres⟩ := FindProminentDips_eq y prominence (le_refl (0 : Int))
  have hnil : raw = [] := by
    apply List.eq_nil_iff_forall_not_mem.mpr
    intro i hi
    obtain ⟨hb, hc⟩ := (raw_mem (le_refl 0) hraw).mp hi
    rw [isCandidate_zero prominence (by omega) (by omega)] at hc
    cases hc
  rw [hres, hnil]
  rfl

end odmr_utils

namespace odmr_utils

/-- C2 at the signal of the test `MergeCloseDipsKeepsDeeperFirst` (window 4,
prominence 0.5), where the result is `[4]`; with the two depths swapped it is
`[6]`. -/
theorem FindProminentDips_merges_runs_witness :
    (0 : Int) ≤ 4 ∧
    (∃ raw dips, rawDips deeperFirst 4 (1 / 2) = some raw ∧
      FindProminentDips deeperFirst 4 (1 / 2) = some dips ∧
      dips = (runs ((4 : Int) / 2) raw).map (firstMin deeperFirst) ∧
      raw.Pairwise (· < ·) ∧
      (runs ((4 : Int) / 2) raw).flatten = raw ∧
      (∀ run ∈ runs ((4 : Int) / 2) raw,
        run ≠ [] ∧ run.Chain' (fun u v => v - u ≤ (4 : Int) / 2)) ∧
      (runs ((4 : Int) / 2) raw).Chain' (Separated ((4 : Int) / 2)) ∧
      ∀ run ∈ runs ((4 : Int) / 2) raw,
        firstMin deeperFirst run ∈ run ∧
        (∀ j ∈ run, valAt deeperFirst (firstMin deeperFirst run) ≤ valAt deeperFirst j) ∧
        (∀ j ∈ run, j < firstMin deeperFirst run →
          valAt deeperFirst (firstMin deeperFirst run) < valAt deeperFirst j) ∧
        (∀ i ∈ run, i ∈ dips ↔ i = firstMin deeperFirst run)) ∧
    rawDips deeperFirst 4 (1 / 2) = some [4, 6] ∧
    FindProminentDips deeperFirst 4 (1 / 2) = some [4] ∧
    FindProminentDips deeperSecond 4 (1 / 2) = some [6] :=
  ⟨by decide, FindProminentDips_merges_runs deeperFirst 4 (1 / 2) (by decide),
    by decide!, by decide!, by decide!⟩

theorem card_window {window : Int} (i : Int) (hw : 0 ≤ window) :
    (((Finset.Icc (i - window) (i + window)).erase i).card : ℚ) = 2 * (window : ℚ) := by
  have hmem : i ∈ Finset.Icc (i - window) (i + window) := by
    rw [Finset.mem_Icc]; omega
  rw [Finset.card_erase_of_mem hmem, Int.card_Icc]
  have h1 : (i + window + 1 - (i - window)).toNat - 1 = (2 * window).toNat := by omega
  rw [h1]
  have h2 : (((2 * window).toNat : Int) : ℚ) = ((2 * window : Int) : ℚ) := by
    rw [Int.toNat_of_nonneg (by omega)]
  rw [← Int.cast_natCast, h2]
  push_cast
  ring

theorem neighbourSum_const {y : List ℚ} {window i : Int} {b : ℚ} (hw : 0 ≤ window)
    (h : ∀ j, i - window ≤ j → j ≤ i + window → j ≠ i → valAt y j = b) :
    neighbourSum y window i = 2 * (window : ℚ) * b := by
  have hc : neighbourSum y window i
      = ∑ _j in (Finset.Icc (i - window) (i + window)).erase i, b := by
    unfold neighbourSum
    apply Finset.sum_congr rfl
    intro j hj
    rw [Finset.mem_erase, Finset.mem_Icc] at hj
    exact h j hj.2.1 hj.2.2 hj.1
  rw [hc, Finset.sum_const, nsmul_eq_mul, card_window i hw]

theorem neighbourSum_le {y : List ℚ} {window i : Int} {b : ℚ} (hw : 0 ≤ window)
    (h : ∀ j, i - window ≤ j → j ≤ i + window → j ≠ i → valAt y j ≤ b) :
    neighbourSum y window i ≤ 2 * (window : ℚ) * b := by
  unfold neighbourSum
  have := Finset.sum_le_card_nsmul ((Finset.Icc (i - window) (i + window)).erase i)
    (valAt y) b (fun j hj => by
      rw [Finset.mem_erase, Finset.mem_Icc] at hj
      exact h j hj.2.1 hj.2.2 hj.1)
  rwa [nsmul_eq_mul, card_window i hw] at this

theorem filter_singleton {l : List Int} {k : Int} {P : Int → Bool} (hnd : l.Nodup)
    (hk : k ∈ l) (hP : ∀ i ∈ l, (P i = true ↔ i = k)) : l.filter P = [k] := by
  have h1 : l.filter P = l.filter (fun i => decide (i = k)) := by
    apply List.filter_congr
    intro i hi
    by_cases h : i = k
    · simp [h, (hP k hk).mpr rfl]
    · have : P i = false := by
        cases hpi : P i
        · rfl
        · exact absurd ((hP i hi).mp hpi) h
      simp [h, this]
  rw [h1, List.filter_eq, List.count_eq_one_of_mem hnd hk]
  rfl

/-- C5. A signal that equals `b` everywhere except at one index `k` with
`window ≤ k < n - window`, where `y[k] + prominence < b`, gives exactly `[k]`,
for every window of at least 1 and every prominence that is not negative. -/
theorem FindProminentDips_single_dip (y : List ℚ) (window : Int) (prominence b : ℚ) (k : Int)
    (hw : 1 ≤ window) (hp : 0 ≤ prominence)
    (hk1 : window ≤ k) (hk2 : k < (y.length : Int) - window)
    (hconst : ∀ j : Int, 0 ≤ j → j < (y.length : Int) → j ≠ k → valAt y j = b)
    (hdip : valAt y k + prominence < b) :
    FindProminentDips y window prominence = some [k] := by
  have hw0 : 0 ≤ window := by omega
  have hwq : (0 : ℚ) < 2 * (window : ℚ) := by
    have : (0 : ℚ) < (window : ℚ) := by exact_mod_cast (show (0 : Int) < window by omega)
    linarith
  obtain ⟨raw, hraw, hres⟩ := FindProminentDips_eq y prominence hw0
  have hfil := rawDips_eq y prominence hw0
  rw [hraw] at hfil
  have hrawk : raw = [k] := by
    rw [Option.some.inj hfil]
    apply filter_singleton (intRange_nodup _ _) (mem_intRange.mpr ⟨hk1, hk2⟩)
    intro i hi
    rw [mem_intRange] at hi
    rw [decide_eq_true_eq, isCandidate_eq prominence hw hi.1 hi.2]
    simp only [Option.some.injEq, Bool.and_eq_true, decide_eq_true_eq]
    constructor
    · rintro ⟨hprom, -, -⟩
      by_contra hik
      have hvi : valAt y i = b := hconst i (by omega) (by omega) hik
      have hle : neighbourSum y window i ≤ 2 * (window : ℚ) * b := by
        apply neighbourSum_le hw0
        intro j hj1 hj2 _
        by_cases hjk : j = k
        · rw [hjk]; linarith
        · exact le_of_eq (hconst j (by omega) (by omega) hjk)
      rw [hvi, lt_div_iff₀ hwq] at hprom
      nlinarith
    · rintro rfl
      have hsum : neighbourSum y window i = 2 * (window : ℚ) * b :=
        neighbourSum_const hw0 (fun j hj1 hj2 hji => hconst j (by omega) (by omega) hji)
      have hl : valAt y (i - 1) = b := hconst _ (by omega) (by omega) (by omega)
      have hr : valAt y (i + 1) = b := hconst _ (by omega) (by omega) (by omega)
      rw [hsum, hl, hr, mul_div_cancel_left₀ _ (ne_of_gt hwq)]
      exact ⟨hdip, by linarith, by linarith⟩
  rw [hres, hrawk]
  simp [runs, splitRuns, firstMin]

/-- C5 at the signal `{1.0, 1.0, 0.2, 1.0, 1.0}` with prominence 0.5 and window 1;
the same signal with window 2 also gives `[2]`. -/
theorem FindProminentDips_single_dip_witness :
    ((1 : Int) ≤ 1 ∧ (0 : ℚ) ≤ 1 / 2 ∧ (1 : Int) ≤ 2 ∧
      (2 : Int) < (singleDip.length : Int) - 1 ∧
      (∀ j : Int, 0 ≤ j → j < (singleDip.length : Int) → j ≠ 2 → valAt singleDip j = 1) ∧
      valAt singleDip 2 + 1 / 2 < 1) ∧
    FindProminentDips singleDip 1 (1 / 2) = some [2] ∧
    FindProminentDips singleDip 2 (1 / 2) = some [2] := by
  have hconst : ∀ j : Int, 0 ≤ j → j < (singleDip.length : Int) → j ≠ 2 →
      valAt singleDip j = 1 := by
    intro j h0 h1 h2
    have h5 : j < 5 := h1
    interval_cases j
    · decide!
    · decide!
    · exact absurd rfl h2
    · decide!
    · decide!
  have hdip : valAt singleDip 2 + 1 / 2 < 1 := by decide!
  exact ⟨⟨by decide, by norm_num, by decide, by decide, hconst, hdip⟩,
    FindProminentDips_single_dip singleDip 1 (1 / 2) 1 2 (by decide) (by norm_num)
      (by decide) (by decide) hconst hdip,
    FindProminentDips_single_dip singleDip 2 (1 / 2) 1 2 (by decide) (by norm_num)
      (by decide) (by decide) hconst hdip⟩

end odmr_utils

namespace Measurement

theorem seriesOf_succ (c : Config) (e : Env) (m : Nat) :
    seriesOf c e (m + 1) = pushPoint c e m (average c e m).1 (seriesOf c e m) := by
  simp [seriesOf, List.range_succ, List.foldl_append]

theorem seriesOf_freqs (c : Config) (e : Env) (m : Nat) :
    (seriesOf c e m).freqs = (List.range m).map (freqGHz c) := by
  induction m with
  | zero => rfl
  | succ m ih => rw [seriesOf_succ, List.range_succ, List.map_append]; simp [pushPoint, ih]

theorem seriesOf_length (c : Config) (e : Env) (m : Nat) :
    (seriesOf c e m).freqs.length = m ∧ (seriesOf c e m).avgSignals.length = m ∧
    (seriesOf c e m).minSignals.length = m ∧ (seriesOf c e m).maxSignals.length = m ∧
    (seriesOf c e m).stdDevs.length = m := by
  induction m with
  | zero => simp [seriesOf]
  | succ m ih =>
    obtain ⟨h1, h2, h3, h4, h5⟩ := ih
    rw [seriesOf_succ]
    simp [pushPoint, h1, h2, h3, h4, h5]

/-- The loop invariant of the sweep: started at point `m` with the vectors of the
points before `m`, the loop over the next `k` points ends with the vectors of the
points before some `m'`, which is `m + k` when `stopFlag` is never seen set; every
callback it adds passes the vectors of the points before some `j ≤ m'`. -/
theorem sweepLoop_inv (c : Config) (e : Env) :
    ∀ (k m : Nat) (st : State), st.series = seriesOf c e m →
      ∃ m', m ≤ m' ∧ m' ≤ m + k ∧
        (sweepLoop c e (List.range' m k) st).series = seriesOf c e m' ∧
        ((∀ i, m ≤ i → i < m + k → e.stopFlag i = false) → m' = m + k) ∧
        ∃ added, (sweepLoop c e (List.range' m k) st).calls = st.calls ++ added ∧
          ∀ ev ∈ added, ∃ j, j ≤ m' ∧ ev = Event.onUpdate (seriesOf c e j) := by
  intro k
  induction k with
  | zero =>
    intro m st hst
    exact ⟨m, le_refl _, le_refl _, hst, fun _ => rfl, [], by simp [sweepLoop], by simp⟩
  | succ k ih =>
    intro m st hst
    rw [List.range'_succ]
    by_cases hstop : e.stopFlag m = true
    · refine ⟨m, le_refl _, by omega, by simp [sweepLoop, hstop, hst], ?_, [],
        by simp [sweepLoop, hstop], by simp⟩
      intro hno
      have := hno m (le_refl _) (by omega)
      rw [this] at hstop
      cases hstop
    · have hbody : (loopBody c e m st).series = seriesOf c e (m + 1) := by
        rw [seriesOf_succ, ← hst]
        rfl
      obtain ⟨m', h1, h2, h3, h4, added, h5, h6⟩ := ih (m + 1) (loopBody c e m st) hbody
      have hloop : sweepLoop c e (m :: List.range' (m + 1) k) st
          = sweepLoop c e (List.range' (m + 1) k) (loopBody c e m st) := by
        simp [sweepLoop, hstop]
      rw [hloop]
      refine ⟨m', by omega, by omega, h3, ?_, ?_⟩
      · intro hno
        have := h4 (fun i hi1 hi2 => hno i (by omega) (by omega))
        omega
      · by_cases hupd : c.updateInterval > 0 ∧ Int.tmod (m : Int) c.updateInterval = 0
        · refine ⟨Event.onUpdate (seriesOf c e (m + 1)) :: added, ?_, ?_⟩
          · rw [h5]
            have : (loopBody c e m st).calls
                = st.calls ++ [Event.onUpdate (seriesOf c e (m + 1))] := by
              rw [seriesOf_succ, ← hst]
              simp [loopBody, hupd]
            rw [this]
            simp
          · intro ev hev
            rcases List.mem_cons.mp hev with rfl | hev
            · exact ⟨m + 1, h1, rfl⟩
            · exact h6 ev hev
        · refine ⟨added, ?_, h6⟩
          rw [h5]
          have : (loopBody c e m st).calls = st.calls := by
            simp only [loopBody, if_neg hupd]
          rw [this]

theorem afterLoop_spec (c : Config) (e : Env) :
    ∃ m', m' ≤ c.steps.toNat ∧ (afterLoop c e).series = seriesOf c e m' ∧
      ((∀ i, i < c.steps.toNat → e.stopFlag i = false) → m' = c.steps.toNat) ∧
      ∀ ev ∈ (afterLoop c e).calls, ∃ j, j ≤ m' ∧ ev = Event.onUpdate (seriesOf c e j) := by
  obtain ⟨m', -, h2, h3, h4, added, h5, h6⟩ :=
    sweepLoop_inv c e c.steps.toNat 0 ⟨⟨[], [], [], [], []⟩, [], []⟩ rfl
  rw [← List.range_eq_range'] at h3 h5
  refine ⟨m', by omega, h3, ?_, ?_⟩
  · intro hno
    have := h4 (fun i _ hi => hno i (by omega))
    omega
  · intro ev hev
    have : (afterLoop c e).calls = added := by
      simp only [afterLoop, h5, List.nil_append]
    rw [this] at hev
    exact h6 ev hev

end Measurement

namespace Measurement

theorem run_calls (c : Config) (e : Env) :
    (run c e).calls = (afterLoop c e).calls ++ [Event.onUpdate (afterLoop c e).series] ++
      (if c.hasOnDone then [Event.onDone (afterLoop c e).series] else []) := rfl

theorem run_series (c : Config) (e : Env) : (run c e).series = (afterLoop c e).series := rfl

theorem freqGHz_eq (c : Config) (k : Nat) (hsteps : 2 ≤ c.steps) :
    freqGHz c k
      = Dbl.fin (c.startFreq + (k : ℚ) * (c.endFreq - c.startFreq) / ((c.steps : ℚ) - 1)) := by
  have hne : ((c.steps - 1 : Int) : ℚ) ≠ 0 := by
    have : (c.steps - 1 : Int) ≠ 0 := by omega
    exact_mod_cast this
  have hcast : ((c.steps - 1 : Int) : ℚ) = (c.steps : ℚ) - 1 := by push_cast; ring
  have hdiv : ∀ s : ℚ, Dbl.div (Dbl.fin s) (Dbl.ofInt (c.steps - 1))
      = Dbl.fin (s / ((c.steps : ℚ) - 1)) := by
    intro s
    show (if ((c.steps - 1 : Int) : ℚ) = 0 then Dbl.nan
      else Dbl.fin (s / ((c.steps - 1 : Int) : ℚ))) = _
    rw [if_neg hne, hcast]
  have hmul : Dbl.mul (Dbl.ofInt (k : Int)) (Dbl.fin (c.endFreq - c.startFreq))
      = Dbl.fin ((k : ℚ) * (c.endFreq - c.startFreq)) := by
    show Dbl.fin ((((k : Nat) : Int) : ℚ) * (c.endFreq - c.startFreq)) = _
    rw [Int.cast_natCast]
  unfold freqGHz
  rw [hmul, hdiv]
  rfl

/-- C8. In a run that is never cancelled, with `steps ≥ 0` and `onDone` set, the
last callback is `onDone`, and each of the five vectors it is passed has `steps`
entries (whatever the number of averages); for `steps = 0` they are empty. -/
theorem run_final_length (c : Config) (e : Env) (hsteps : 0 ≤ c.steps)
    (hdone : c.hasOnDone = true) (hrun : ∀ i, e.stopFlag i = false) :
    ∃ s, (run c e).calls.getLast? = some (Event.onDone s) ∧
      (s.freqs.length : Int) = c.steps ∧ (s.avgSignals.length : Int) = c.steps ∧
      (s.minSignals.length : Int) = c.steps ∧ (s.maxSignals.length : Int) = c.steps ∧
      (s.stdDevs.length : Int) = c.steps ∧
      (c.steps = 0 → s = ⟨[], [], [], [], []⟩) := by
  obtain ⟨m', -, h2, h3, -⟩ := afterLoop_spec c e
  have hm : m' = c.steps.toNat := h3 (fun i _ => hrun i)
  subst hm
  obtain ⟨l1, l2, l3, l4, l5⟩ := seriesOf_length c e c.steps.toNat
  refine ⟨seriesOf c e c.steps.toNat, ?_, ?_, ?_, ?_, ?_, ?_, ?_⟩
  · rw [run_calls, hdone, h2]
    simp
  · rw [l1]; omega
  · rw [l2]; omega
  · rw [l3]; omega
  · rw [l4]; omega
  · rw [l5]; omega
  · intro h0
    rw [h0]
    rfl

/-- C8 at the configuration of the test `RunFillsDataCorrectly`. -/
theorem run_final_length_witness :
    ((0 : Int) ≤ fiveSteps.steps ∧ fiveSteps.hasOnDone = true ∧
      ∀ i, quiet.stopFlag i = false) ∧
    ∃ s, (run fiveSteps quiet).calls.getLast? = some (Event.onDone s) ∧
      (s.freqs.length : Int) = fiveSteps.steps ∧
      (s.avgSignals.length : Int) = fiveSteps.steps ∧
      (s.minSignals.length : Int) = fiveSteps.steps ∧
      (s.maxSignals.length : Int) = fiveSteps.steps ∧
      (s.stdDevs.length : Int) = fiveSteps.steps ∧
      (fiveSteps.steps = 0 → s = ⟨[], [], [], [], []⟩) :=
  ⟨⟨by decide, rfl, fun _ => rfl⟩,
    run_final_length fiveSteps quiet (by decide) rfl (fun _ => rfl)⟩

/-- C9. For `steps ≥ 2`, in every vector of frequencies passed to a callback the
entry `k` is `startFreq + k * (endFreq - startFreq) / (steps - 1)`; the vectors
passed to the last callback are those the run ends with, and in a run that is
never cancelled they have an entry for every `k < steps`, the first `startFreq`
and the last `endFreq`. -/
theorem run_frequencies (c : Config) (e : Env) (hsteps : 2 ≤ c.steps) :
    (∀ ev ∈ (run c e).calls, ∀ (k : Nat) (v : Dbl), ev.series.freqs[k]? = some v →
      v = Dbl.fin (c.startFreq + (k : ℚ) * (c.endFreq - c.startFreq) / ((c.steps : ℚ) - 1))) ∧
    (run c e).calls.getLast?.map Event.series = some (run c e).series ∧
    ((∀ i, e.stopFlag i = false) →
      (∀ k : Nat, (k : Int) < c.steps → (run c e).series.freqs[k]? = some
        (Dbl.fin (c.startFreq + (k : ℚ) * (c.endFreq - c.startFreq) / ((c.steps : ℚ) - 1)))) ∧
      (run c e).series.freqs.head? = some (Dbl.fin c.startFreq) ∧
      (run c e).series.freqs.getLast? = some (Dbl.fin c.endFreq)) := by
  obtain ⟨m', -, h2, h3, h4⟩ := afterLoop_spec c e
  have hentry : ∀ (j k : Nat) (v : Dbl), (seriesOf c e j).freqs[k]? = some v →
      v = Dbl.fin (c.startFreq + (k : ℚ) * (c.endFreq - c.startFreq) / ((c.steps : ℚ) - 1)) := by
    intro j k v hv
    rw [seriesOf_freqs, List.getElem?_map] at hv
    by_cases hk : k < j
    · rw [List.getElem?_range hk] at hv
      simp only [Option.map_some', Option.some.injEq] at hv
      rw [← hv, freqGHz_eq c k hsteps]
    · rw [List.getElem?_eq_none (by simp; omega)] at hv
      cases hv
  refine ⟨?_, ?_, ?_⟩
  · intro ev hev k v hv
    rw [run_calls] at hev
    rcases List.mem_append.mp hev with hev | hev
    · rcases List.mem_append.mp hev with hev | hev
      · obtain ⟨j, -, rfl⟩ := h4 ev hev
        exact hentry j k v hv
      · rw [List.mem_singleton] at hev
        subst hev
        rw [h2] at hv
        exact hentry m' k v hv
    · cases hd : c.hasOnDone
      · simp [hd] at hev
      · simp only [hd, if_true, List.mem_singleton] at hev
        subst hev
        rw [h2] at hv
        exact hentry m' k v hv
  · rw [run_calls, run_series]
    cases hd : c.hasOnDone <;> simp [Event.series]
  · intro hrun
    have hm : m' = c.steps.toNat := h3 (fun i _ => hrun i)
    subst hm
    have hfreqs : (run c e).series.freqs = (List.range c.steps.toNat).map (freqGHz c) := by
      rw [run_series, h2, seriesOf_freqs]
    obtain ⟨n, hn⟩ : ∃ n : Nat, c.steps.toNat = n + 2 := ⟨c.steps.toNat - 2, by omega⟩
    have hsq : (c.steps : ℚ) = (n : ℚ) + 2 := by
      have : c.steps = (n : Int) + 2 := by omega
      rw [this]; push_cast; ring
    refine ⟨?_, ?_, ?_⟩
    · intro k hk
      rw [hfreqs, List.getElem?_map, List.getElem?_range (by omega)]
      simp only [Option.map_some', Option.some.injEq]
      exact freqGHz_eq c k hsteps
    · rw [hfreqs, hn, List.range_succ_eq_map]
      simp only [List.map_cons, List.head?_cons, Option.some.injEq]
      rw [freqGHz_eq c 0 hsteps]
      simp
    · rw [hfreqs, hn, List.range_succ, List.map_append]
      simp only [List.map_cons, List.map_nil, List.getLast?_concat]
      rw [freqGHz_eq c (n + 1) hsteps, hsq]
      congr 1
      have hn0 : (n : ℚ) + 2 - 1 ≠ 0 := by
        have : (0 : ℚ) ≤ (n : ℚ) := Nat.cast_nonneg n
        linarith
      push_cast
      field_simp
      ring

/-- C9 at the configuration of the test `RunFillsDataCorrectly`. -/
theorem run_frequencies_witness :
    ((2 : Int) ≤ fiveSteps.steps ∧ ∀ i, quiet.stopFlag i = false) ∧
    (∀ k : Nat, (k : Int) < fiveSteps.steps → (run fiveSteps quiet).series.freqs[k]? = some
      (Dbl.fin (fiveSteps.startFreq +
        (k : ℚ) * (fiveSteps.endFreq - fiveSteps.startFreq) / ((fiveSteps.steps : ℚ) - 1)))) ∧
    (run fiveSteps quiet).series.freqs.head? = some (Dbl.fin fiveSteps.startFreq) ∧
    (run fiveSteps quiet).series.freqs.getLast? = some (Dbl.fin fiveSteps.endFreq) :=
  ⟨⟨by decide, fun _ => rfl⟩, (run_frequencies fiveSteps quiet (by decide)).2.2 (fun _ => rfl)⟩

/-- C10 (violated by the code). With `steps = 1` the divisor `steps - 1` is 0 and
it is used: the frequency of point 0 is `startFreq + 0.0 / 0`, which is NaN, so
the one point of the run has the frequency NaN and not `startFreq`. -/
theorem run_one_step_frequency_nan :
    Dbl.ofInt (oneStep.steps - 1) = Dbl.fin 0 ∧
    freqGHz oneStep 0 = Dbl.add (Dbl.fin oneStep.startFreq) (Dbl.div (Dbl.fin 0) (Dbl.fin 0)) ∧
    freqGHz oneStep 0 = Dbl.nan ∧
    (run oneStep quiet).series.freqs = [Dbl.nan] ∧
    ((run oneStep quiet).calls.getLast?.map Event.series).map Series.freqs
      = some [Dbl.nan] := by
  decide!

end Measurement

namespace Measurement

theorem sweepLoop_eq_foldl (c : Config) (e : Env) :
    ∀ (is : List Nat) (st : State),
      sweepLoop c e is st
        = (is.takeWhile (fun i => !e.stopFlag i)).foldl (fun s i => loopBody c e i s) st := by
  intro is
  induction is with
  | nil => intro st; rfl
  | cons i is ih =>
    intro st
    by_cases hstop : e.stopFlag i = true
    · simp [sweepLoop, hstop]
    · simp [sweepLoop, hstop, ih]

theorem takeWhile_range (p : Nat → Bool) (n : Nat) :
    (List.range n).takeWhile p = List.range ((List.range n).takeWhile p).length := by
  have hpre := List.takeWhile_prefix p (l := List.range n)
  have hlen : ((List.range n).takeWhile p).length ≤ n := by
    have := hpre.length_le
    simpa using this
  have h := List.prefix_iff_eq_take.mp hpre
  rw [List.take_range, Nat.min_eq_left hlen] at h
  exact h

theorem loopBody_series (c : Config) (e : Env) (i : Nat) (st : State) :
    (loopBody c e i st).series = pushPoint c e i (average c e i).1 st.series := rfl

theorem loopBody_calls (c : Config) (e : Env) (i : Nat) (st : State) :
    (loopBody c e i st).calls
      = st.calls ++ (if updateDue c i = true
          then [Event.onUpdate (pushPoint c e i (average c e i).1 st.series)] else []) := by
  by_cases hupd : c.updateInterval > 0 ∧ Int.tmod (i : Int) c.updateInterval = 0
  · have hdue : updateDue c i = true := by simp [updateDue, hupd]
    simp only [loopBody, if_pos hupd, hdue, if_true]
  · have hdue : updateDue c i = false := by simp [updateDue, hupd]
    simp [loopBody, if_neg hupd, hdue]

theorem foldl_loopBody (c : Config) (e : Env) (m : Nat) :
    ((List.range m).foldl (fun s i => loopBody c e i s) ⟨⟨[], [], [], [], []⟩, [], []⟩).series
        = seriesOf c e m ∧
      ((List.range m).foldl (fun s i => loopBody c e i s) ⟨⟨[], [], [], [], []⟩, [], []⟩).calls
        = periodicUpdates c e m := by
  induction m with
  | zero => exact ⟨rfl, rfl⟩
  | succ m ih =>
    obtain ⟨h1, h2⟩ := ih
    rw [List.range_succ, List.foldl_append]
    simp only [List.foldl_cons, List.foldl_nil]
    rw [loopBody_series, loopBody_calls, h1, h2, ← seriesOf_succ]
    refine ⟨rfl, ?_⟩
    unfold periodicUpdates
    rw [List.range_succ, List.filter_append, List.map_append]
    cases hdue : updateDue c m <;> simp [List.filter, hdue]

theorem afterLoop_eq (c : Config) (e : Env) :
    (afterLoop c e).series = seriesOf c e (pointsDone c e) ∧
      (afterLoop c e).calls = periodicUpdates c e (pointsDone c e) := by
  unfold afterLoop
  rw [sweepLoop_eq_foldl, takeWhile_range]
  exact foldl_loopBody c e (pointsDone c e)

theorem takeWhile_rangeFrom_all (p : Nat → Bool) :
    ∀ (n s : Nat), (∀ i, s ≤ i → i < s + n → p i = true) →
      ((List.range' s n).takeWhile p).length = n := by
  intro n
  induction n with
  | zero => intro s _; rfl
  | succ n ih =>
    intro s h
    rw [List.range'_succ, List.takeWhile_cons_of_pos (h s (le_refl _) (by omega))]
    simp only [List.length_cons]
    rw [ih (s + 1) (fun i h1 h2 => h i (by omega) (by omega))]

theorem takeWhile_rangeFrom_first (p : Nat → Bool) (k : Nat) (hk : p k = false) :
    ∀ (n s : Nat), s ≤ k → k < s + n → (∀ i, s ≤ i → i < k → p i = true) →
      ((List.range' s n).takeWhile p).length = k - s := by
  intro n
  induction n with
  | zero => intro s h1 h2 _; omega
  | succ n ih =>
    intro s h1 h2 h
    rw [List.range'_succ]
    by_cases hsk : s = k
    · subst hsk
      rw [List.takeWhile_cons_of_neg (by simp [hk])]
      simp
    · rw [List.takeWhile_cons_of_pos (h s (le_refl _) (by omega))]
      simp only [List.length_cons]
      rw [ih (s + 1) (by omega) (by omega) (fun i h3 h4 => h i (by omega) h4)]
      omega

theorem pointsDone_le (c : Config) (e : Env) : pointsDone c e ≤ c.steps.toNat := by
  have := (List.takeWhile_prefix (fun i => !e.stopFlag i) (l := List.range c.steps.toNat)).length_le
  simpa [pointsDone] using this

theorem pointsDone_all (c : Config) (e : Env) (h : ∀ i, i < c.steps.toNat → e.stopFlag i = false) :
    pointsDone c e = c.steps.toNat := by
  unfold pointsDone
  rw [List.range_eq_range']
  apply takeWhile_rangeFrom_all
  intro i _ hi
  simp [h i (by omega)]

theorem pointsDone_first (c : Config) (e : Env) (k : Nat) (hk : k < c.steps.toNat)
    (hstop : e.stopFlag k = true) (h : ∀ i, i < k → e.stopFlag i = false) :
    pointsDone c e = k := by
  unfold pointsDone
  rw [List.range_eq_range']
  rw [takeWhile_rangeFrom_first (fun i => !e.stopFlag i) k (by simp [hstop]) c.steps.toNat 0
    (Nat.zero_le _) (by omega) (fun i _ hi => by simp [h i hi])]
  rfl

end Measurement

namespace Measurement

theorem run_calls_eq (c : Config) (e : Env) :
    (run c e).calls = periodicUpdates c e (pointsDone c e) ++
      [Event.onUpdate (seriesOf c e (pointsDone c e))] ++
      (if c.hasOnDone then [Event.onDone (seriesOf c e (pointsDone c e))] else []) := by
  rw [run_calls, (afterLoop_eq c e).1, (afterLoop_eq c e).2]

theorem run_series_eq (c : Config) (e : Env) :
    (run c e).series = seriesOf c e (pointsDone c e) := by
  rw [run_series, (afterLoop_eq c e).1]

theorem periodicUpdates_isDone (c : Config) (e : Env) (m : Nat) :
    ∀ ev ∈ periodicUpdates c e m, ev.isDone = false := by
  intro ev hev
  obtain ⟨i, -, rfl⟩ := List.mem_map.mp hev
  rfl

theorem periodicUpdates_countP_isDone (c : Config) (e : Env) (m : Nat) :
    (periodicUpdates c e m).countP Event.isDone = 0 := by
  rw [List.countP_eq_zero]
  intro ev hev
  simp [periodicUpdates_isDone c e m ev hev]

theorem run_countP_isDone (c : Config) (e : Env) (hdone : c.hasOnDone = true) :
    (run c e).calls.countP Event.isDone = 1 := by
  rw [run_calls_eq, hdone]
  simp [List.countP_append, periodicUpdates_countP_isDone, List.countP_cons, Event.isDone]

/-- C13. A run with `onDone` set, completed or cancelled, calls `onDone` exactly
once, as its last callback, right after an `onUpdate` that is passed the same
five vectors (those the run ends with); every callback before these two is an
`onUpdate`. Two calls of `start` on a fresh `Measurement` make the callbacks of
the first run and then those of the second, with exactly two `onDone` calls. -/
theorem run_done_once (c : Config) (e : Env) (c2 : Config) (e2 : Env)
    (hdone : c.hasOnDone = true) (hdone2 : c2.hasOnDone = true) :
    (∃ pre, (run c e).calls
        = pre ++ [Event.onUpdate (run c e).series, Event.onDone (run c e).series] ∧
      ∀ ev ∈ pre, ev.isDone = false) ∧
    (run c e).calls.countP Event.isDone = 1 ∧
    (start c2 e2 (start c e Controller.fresh)).calls = (run c e).calls ++ (run c2 e2).calls ∧
    (start c2 e2 (start c e Controller.fresh)).calls.countP Event.isDone = 2 := by
  refine ⟨⟨periodicUpdates c e (pointsDone c e), ?_, periodicUpdates_isDone c e _⟩,
    run_countP_isDone c e hdone, ?_, ?_⟩
  · rw [run_series_eq, run_calls_eq, hdone]
    simp
  · simp [start, Controller.fresh]
  · simp only [start, Controller.fresh, List.nil_append, List.countP_append,
      run_countP_isDone c e hdone, run_countP_isDone c2 e2 hdone2]

/-- C13 at the configuration of the test `RunFillsDataCorrectly`, run twice. -/
theorem run_done_once_witness :
    (fiveSteps.hasOnDone = true ∧ fiveSteps.hasOnDone = true) ∧
    (∃ pre, (run fiveSteps quiet).calls
        = pre ++ [Event.onUpdate (run fiveSteps quiet).series,
            Event.onDone (run fiveSteps quiet).series] ∧
      ∀ ev ∈ pre, ev.isDone = false) ∧
    (run fiveSteps quiet).calls.countP Event.isDone = 1 ∧
    (start fiveSteps quiet (start fiveSteps quiet Controller.fresh)).calls
      = (run fiveSteps quiet).calls ++ (run fiveSteps quiet).calls ∧
    (start fiveSteps quiet (start fiveSteps quiet Controller.fresh)).calls.countP Event.isDone
      = 2 :=
  ⟨⟨rfl, rfl⟩, run_done_once fiveSteps quiet fiveSteps quiet rfl rfl⟩

theorem seriesOf_initial (c : Config) (e : Env) (j : Nat) :
    ∀ k : Nat, (seriesOf c e j).InitialOf (seriesOf c e (j + k)) := by
  intro k
  induction k with
  | zero => exact ⟨List.prefix_refl _, List.prefix_refl _, List.prefix_refl _,
      List.prefix_refl _, List.prefix_refl _⟩
  | succ k ih =>
    obtain ⟨h1, h2, h3, h4, h5⟩ := ih
    rw [← Nat.add_assoc, seriesOf_succ]
    exact ⟨h1.trans (List.prefix_append _ _), h2.trans (List.prefix_append _ _),
      h3.trans (List.prefix_append _ _), h4.trans (List.prefix_append _ _),
      h5.trans (List.prefix_append _ _)⟩

theorem seriesOf_initial_of_le (c : Config) (e : Env) {j m : Nat} (h : j ≤ m) :
    (seriesOf c e j).InitialOf (seriesOf c e m) := by
  obtain ⟨k, rfl⟩ := Nat.exists_eq_add_of_le h
  exact seriesOf_initial c e j k

theorem run_calls_points (c : Config) (e : Env) :
    ∃ js : List Nat, js.Pairwise (· ≤ ·) ∧ (∀ j ∈ js, j ≤ pointsDone c e) ∧
      (run c e).calls.map Event.series = js.map (seriesOf c e) := by
  refine ⟨((List.range (pointsDone c e)).filter (updateDue c)).map (· + 1) ++
    [pointsDone c e] ++ (if c.hasOnDone then [pointsDone c e] else []), ?_, ?_, ?_⟩
  · have hsorted : (((List.range (pointsDone c e)).filter (updateDue c)).map (· + 1)).Pairwise
        (· ≤ ·) := by
      rw [List.pairwise_map]
      exact ((List.pairwise_lt_range _).filter _).imp (fun h => by omega)
    have hbound : ∀ j ∈ ((List.range (pointsDone c e)).filter (updateDue c)).map (· + 1),
        j ≤ pointsDone c e := by
      intro j hj
      obtain ⟨i, hi, rfl⟩ := List.mem_map.mp hj
      have := List.mem_range.mp (List.mem_filter.mp hi).1
      omega
    cases hd : c.hasOnDone
    · simp only [Bool.false_eq_true, if_false, List.append_nil]
      rw [List.pairwise_append]
      exact ⟨hsorted, List.pairwise_singleton _ _, fun a ha b hb => by
        rw [List.mem_singleton] at hb; rw [hb]; exact hbound a ha⟩
    · simp only [if_true]
      rw [List.append_assoc, List.pairwise_append]
      refine ⟨hsorted, by simp, fun a ha b hb => ?_⟩
      have : b = pointsDone c e := by simpa using hb
      rw [this]; exact hbound a ha
  · intro j hj
    rcases List.mem_append.mp hj with hj | hj
    · rcases List.mem_append.mp hj with hj | hj
      · obtain ⟨i, hi, rfl⟩ := List.mem_map.mp hj
        have := List.mem_range.mp (List.mem_filter.mp hi).1
        omega
      · rw [List.mem_singleton] at hj; omega
    · cases hd : c.hasOnDone
      · simp [hd] at hj
      · simp [hd] at hj; omega
  · rw [run_calls_eq]
    cases hd : c.hasOnDone <;>
      simp [periodicUpdates, Event.series, Function.comp_def]

/-- C15. In every run the vectors passed to the successive callbacks (the
`onUpdate` calls and the final `onDone`) never get shorter, and each of the five
vectors passed to a callback is an initial segment of the same vector of the
final series, the one passed to the last callback. -/
theorem run_updates_grow (c : Config) (e : Env) :
    (run c e).calls.Pairwise (fun a b =>
      a.series.freqs.length ≤ b.series.freqs.length ∧
      a.series.avgSignals.length ≤ b.series.avgSignals.length ∧
      a.series.minSignals.length ≤ b.series.minSignals.length ∧
      a.series.maxSignals.length ≤ b.series.maxSignals.length ∧
      a.series.stdDevs.length ≤ b.series.stdDevs.length) ∧
    (∀ ev ∈ (run c e).calls, ev.series.InitialOf (run c e).series) ∧
    (run c e).calls.getLast?.map Event.series = some (run c e).series := by
  obtain ⟨js, hsorted, hbound, hmap⟩ := run_calls_points c e
  refine ⟨?_, ?_, ?_⟩
  · have h : ((run c e).calls.map Event.series).Pairwise (fun s t =>
        s.freqs.length ≤ t.freqs.length ∧ s.avgSignals.length ≤ t.avgSignals.length ∧
        s.minSignals.length ≤ t.minSignals.length ∧ s.maxSignals.length ≤ t.maxSignals.length ∧
        s.stdDevs.length ≤ t.stdDevs.length) := by
      rw [hmap, List.pairwise_map]
      refine hsorted.imp ?_
      intro a b hab
      obtain ⟨a1, a2, a3, a4, a5⟩ := seriesOf_length c e a
      obtain ⟨b1, b2, b3, b4, b5⟩ := seriesOf_length c e b
      rw [a1, a2, a3, a4, a5, b1, b2, b3, b4, b5]
      exact ⟨hab, hab, hab, hab, hab⟩
    exact List.pairwise_map.mp h
  · intro ev hev
    have hmem : ev.series ∈ js.map (seriesOf c e) := by
      rw [← hmap]; exact List.mem_map_of_mem _ hev
    obtain ⟨j, hj, hjs⟩ := List.mem_map.mp hmem
    rw [← hjs, run_series_eq]
    exact seriesOf_initial_of_le c e (hbound j hj)
  · rw [run_calls, run_series]
    cases hd : c.hasOnDone <;> simp [Event.series]

/-- C16. When `stopFlag` is first seen set at the check that precedes point `k`,
with `k < steps`, the run ends with the vectors of the points `0, ..., k-1`: each
of the five vectors has `k` entries, fewer than `steps`, and these vectors are
passed to the `onUpdate` call after the loop and to `onDone`. -/
theorem run_cancelled (c : Config) (e : Env) (k : Nat) (hk : (k : Int) < c.steps)
    (hstop : e.stopFlag k = true) (hbefore : ∀ i, i < k → e.stopFlag i = false) :
    (run c e).series = seriesOf c e k ∧
    (run c e).series.freqs.length = k ∧ (run c e).series.avgSignals.length = k ∧
    (run c e).series.minSignals.length = k ∧ (run c e).series.maxSignals.length = k ∧
    (run c e).series.stdDevs.length = k ∧
    ((run c e).series.freqs.length : Int) < c.steps ∧
    (run c e).calls = periodicUpdates c e k ++ [Event.onUpdate (seriesOf c e k)] ++
      (if c.hasOnDone then [Event.onDone (seriesOf c e k)] else []) := by
  have hp : pointsDone c e = k := pointsDone_first c e k (by omega) hstop hbefore
  obtain ⟨l1, l2, l3, l4, l5⟩ := seriesOf_length c e k
  have hs : (run c e).series = seriesOf c e k := by rw [run_series_eq, hp]
  refine ⟨hs, ?_, ?_, ?_, ?_, ?_, ?_, ?_⟩
  · rw [hs, l1]
  · rw [hs, l2]
  · rw [hs, l3]
  · rw [hs, l4]
  · rw [hs, l5]
  · rw [hs, l1]; exact hk
  · rw [run_calls_eq, hp]

/-- C16 at the configuration of the test `RunFillsDataCorrectly`, cancelled at the
check that precedes point 2. -/
theorem run_cancelled_witness :
    (((2 : Nat) : Int) < fiveSteps.steps ∧ stoppedAtTwo.stopFlag 2 = true ∧
      ∀ i, i < 2 → stoppedAtTwo.stopFlag i = false) ∧
    (run fiveSteps stoppedAtTwo).series = seriesOf fiveSteps stoppedAtTwo 2 ∧
    (run fiveSteps stoppedAtTwo).series.freqs.length = 2 ∧
    (run fiveSteps stoppedAtTwo).series.avgSignals.length = 2 ∧
    (run fiveSteps stoppedAtTwo).series.minSignals.length = 2 ∧
    (run fiveSteps stoppedAtTwo).series.maxSignals.length = 2 ∧
    (run fiveSteps stoppedAtTwo).series.stdDevs.length = 2 ∧
    ((run fiveSteps stoppedAtTwo).series.freqs.length : Int) < fiveSteps.steps ∧
    (run fiveSteps stoppedAtTwo).calls
      = periodicUpdates fiveSteps stoppedAtTwo 2 ++
        [Event.onUpdate (seriesOf fiveSteps stoppedAtTwo 2)] ++
        (if fiveSteps.hasOnDone then [Event.onDone (seriesOf fiveSteps stoppedAtTwo 2)]
          else []) :=
  have hbefore : ∀ i, i < 2 → stoppedAtTwo.stopFlag i = false := by
    intro i hi
    interval_cases i <;> rfl
  ⟨⟨by decide, rfl, hbefore⟩, run_cancelled fiveSteps stoppedAtTwo 2 (by decide) rfl hbefore⟩

end Measurement

namespace Measurement

theorem count_multiples (u : Nat) (hu : 0 < u) (n : Nat) :
    ((List.range n).filter (fun i => decide (i % u = 0))).length = (n + u - 1) / u := by
  induction n with
  | zero =>
    have : (u - 1) / u = 0 := Nat.div_eq_of_lt (by omega)
    simp [this]
  | succ n ih =>
    rw [List.range_succ, List.filter_append, List.length_append, ih]
    have hsucc : (n + 1 + u - 1) / u = (n + u - 1) / u + if u ∣ n + u - 1 + 1 then 1 else 0 := by
      have : n + 1 + u - 1 = n + u - 1 + 1 := by omega
      rw [this, Nat.succ_div]
    have hdvd : u ∣ n + u - 1 + 1 ↔ n % u = 0 := by
      have : n + u - 1 + 1 = n + u := by omega
      rw [this, Nat.dvd_add_self_right, Nat.dvd_iff_mod_eq_zero]
    rw [hsucc]
    by_cases hm : n % u = 0
    · simp [List.filter, hm, hdvd.mpr hm]
    · have : ¬ u ∣ n + u - 1 + 1 := fun h => hm (hdvd.mp h)
      simp [List.filter, hm, this]

theorem updateDue_of_pos (c : Config) (hu : 0 < c.updateInterval) (i : Nat) :
    updateDue c i = decide (i % c.updateInterval.toNat = 0) := by
  obtain ⟨u, hu'⟩ : ∃ u : Nat, c.updateInterval = (u : Int) :=
    ⟨c.updateInterval.toNat, by omega⟩
  have hmod : Int.tmod (i : Int) (u : Int) = ((i % u : Nat) : Int) := by
    rw [Int.tmod_eq_emod (by omega) (by omega)]
    norm_cast
  unfold updateDue
  rw [hu'] at hu ⊢
  rw [hmod]
  simp only [Int.toNat_ofNat]
  rw [decide_eq_decide]
  constructor
  · rintro ⟨-, h⟩
    exact_mod_cast h
  · intro h
    exact ⟨hu, by exact_mod_cast h⟩

theorem updateDue_of_nonpos (c : Config) (hu : c.updateInterval ≤ 0) (i : Nat) :
    updateDue c i = false := by
  unfold updateDue
  have : ¬ (c.updateInterval > 0) := by omega
  simp [this]

theorem periodicUpdates_length_of_pos (c : Config) (e : Env) (hu : 0 < c.updateInterval)
    (m : Nat) :
    (periodicUpdates c e m).length
      = (m + c.updateInterval.toNat - 1) / c.updateInterval.toNat := by
  unfold periodicUpdates
  rw [List.length_map]
  have hfun : updateDue c = fun i => decide (i % c.updateInterval.toNat = 0) :=
    funext (updateDue_of_pos c hu)
  rw [hfun]
  exact count_multiples _ (by omega) m

theorem periodicUpdates_of_nonpos (c : Config) (e : Env) (hu : c.updateInterval ≤ 0)
    (m : Nat) : periodicUpdates c e m = [] := by
  unfold periodicUpdates
  have hfun : updateDue c = fun _ => false := funext (updateDue_of_nonpos c hu)
  rw [hfun]
  simp

theorem ceil_div_eq (n u : Nat) (hu : 0 < u) :
    ⌈((n : Int) : ℚ) / ((u : Int) : ℚ)⌉ = (((n + u - 1) / u : Nat) : Int) := by
  have huq : (0 : ℚ) < ((u : Int) : ℚ) := by exact_mod_cast hu
  have h1 : (n + u - 1) / u * u ≤ n + u - 1 := Nat.div_mul_le_self _ _
  have h2 : n + u - 1 < u * ((n + u - 1) / u + 1) := Nat.lt_mul_div_succ _ hu
  have h1' : (n + u - 1) / u * u + 1 ≤ n + u := by omega
  have h2' : n ≤ (n + u - 1) / u * u := by
    have : u * ((n + u - 1) / u + 1) = (n + u - 1) / u * u + u := by ring
    omega
  generalize (n + u - 1) / u = q at h1' h2' ⊢
  rw [Int.ceil_eq_iff]
  constructor
  · rw [lt_div_iff₀ huq]
    have : ((q * u + 1 : Nat) : ℚ) ≤ ((n + u : Nat) : ℚ) := by exact_mod_cast h1'
    push_cast at this ⊢
    linarith
  · rw [div_le_iff₀ huq]
    have : ((n : Nat) : ℚ) ≤ ((q * u : Nat) : ℚ) := by exact_mod_cast h2'
    push_cast at this ⊢
    linarith

theorem countP_isUpdate_periodic (c : Config) (e : Env) (m : Nat) :
    (periodicUpdates c e m).countP Event.isUpdate = (periodicUpdates c e m).length := by
  rw [List.countP_eq_length]
  intro ev hev
  obtain ⟨i, -, rfl⟩ := List.mem_map.mp hev
  rfl

theorem run_countP_isUpdate (c : Config) (e : Env) :
    (run c e).calls.countP Event.isUpdate = (periodicUpdates c e (pointsDone c e)).length + 1 := by
  rw [run_calls_eq]
  cases hd : c.hasOnDone <;>
    simp [List.countP_append, countP_isUpdate_periodic, List.countP_cons, Event.isUpdate]

/-- C14. The callbacks of a run are: for each sampled point `i` at which
`updateInterval > 0` and `i % updateInterval == 0`, and for no other, an
`onUpdate` with the vectors of the points `0, ..., i` (which have `i + 1`
entries), in order; then the `onUpdate` after the loop; then `onDone` when set.
So with `updateInterval = 0` a run calls `onUpdate` exactly once, and with
`updateInterval > 0` a run with `steps ≥ 0` that is never cancelled calls it
`ceil(steps / updateInterval) + 1` times. -/
theorem run_updates (c : Config) (e : Env) :
    (run c e).calls
      = ((List.range (pointsDone c e)).filter
          (fun (i : Nat) =>
            decide (c.updateInterval > 0 ∧ Int.tmod (i : Int) c.updateInterval = 0))).map
          (fun i => Event.onUpdate (seriesOf c e (i + 1))) ++
        [Event.onUpdate (seriesOf c e (pointsDone c e))] ++
        (if c.hasOnDone then [Event.onDone (seriesOf c e (pointsDone c e))] else []) ∧
    (∀ i, (seriesOf c e (i + 1)).freqs.length = i + 1 ∧
      (seriesOf c e (i + 1)).avgSignals.length = i + 1 ∧
      (seriesOf c e (i + 1)).minSignals.length = i + 1 ∧
      (seriesOf c e (i + 1)).maxSignals.length = i + 1 ∧
      (seriesOf c e (i + 1)).stdDevs.length = i + 1) ∧
    (c.updateInterval = 0 →
      (run c e).calls = [Event.onUpdate (run c e).series] ++
          (if c.hasOnDone then [Event.onDone (run c e).series] else []) ∧
        (run c e).calls.countP Event.isUpdate = 1) ∧
    (0 < c.updateInterval → 0 ≤ c.steps → (∀ i, e.stopFlag i = false) →
      ((run c e).calls.countP Event.isUpdate : Int)
        = ⌈(c.steps : ℚ) / (c.updateInterval : ℚ)⌉ + 1) := by
  refine ⟨run_calls_eq c e, fun i => seriesOf_length c e (i + 1), ?_, ?_⟩
  · intro hu
    have hnil := periodicUpdates_of_nonpos c e (le_of_eq hu) (pointsDone c e)
    refine ⟨?_, ?_⟩
    · rw [run_series_eq, run_calls_eq, hnil]
      rfl
    · rw [run_countP_isUpdate, hnil]
      rfl
  · intro hu hsteps hrun
    have hp : pointsDone c e = c.steps.toNat := pointsDone_all c e (fun i _ => hrun i)
    rw [run_countP_isUpdate, periodicUpdates_length_of_pos c e hu, hp]
    have hs : c.steps = ((c.steps.toNat : Nat) : Int) := by omega
    have hi : c.updateInterval = ((c.updateInterval.toNat : Nat) : Int) := by omega
    have hceil := ceil_div_eq c.steps.toNat c.updateInterval.toNat (by omega)
    rw [← hs, ← hi] at hceil
    rw [hceil]
    push_cast
    rfl

/-- C14 at the configuration of the test `RunFillsDataCorrectly` (an update at
every point), never cancelled. -/
theorem run_updates_witness :
    ((0 : Int) < fiveSteps.updateInterval ∧ (0 : Int) ≤ fiveSteps.steps ∧
      ∀ i, quiet.stopFlag i = false) ∧
    ((run fiveSteps quiet).calls.countP Event.isUpdate : Int)
      = ⌈(fiveSteps.steps : ℚ) / (fiveSteps.updateInterval : ℚ)⌉ + 1 :=
  ⟨⟨by decide, by decide, fun _ => rfl⟩,
    (run_updates fiveSteps quiet).2.2.2 (by decide) (by decide) (fun _ => rfl)⟩

end Measurement

namespace Measurement

theorem foldl_fst {α β γ : Type} (f : α → γ → α) (g : β → γ → β) (l : List γ) :
    ∀ (a : α) (b : β),
      (l.foldl (fun (p : α × β) j => (f p.1 j, g p.2 j)) (a, b)).1 = l.foldl f a := by
  induction l with
  | nil => intro a b; rfl
  | cons j l ih => intro a b; simp only [List.foldl_cons]; exact ih _ _

theorem average_fst (c : Config) (e : Env) (i : Nat) :
    (average c e i).1
      = (List.range c.averages.toNat).foldl (fun a j => accumulate a (voltage c e i j).1)
          accInit :=
  foldl_fst (fun a j => accumulate a (voltage c e i j).1)
    (fun (m : List Msg) j => m ++ (voltage c e i j).2) _ accInit []

theorem seriesOf_points (c : Config) (e : Env) (m : Nat) :
    (seriesOf c e m).avgSignals = (List.range m).map (fun i => avg c (average c e i).1) ∧
    (seriesOf c e m).minSignals = (List.range m).map (fun i => (average c e i).1.minVal) ∧
    (seriesOf c e m).maxSignals = (List.range m).map (fun i => (average c e i).1.maxVal) ∧
    (seriesOf c e m).stdDevs = (List.range m).map (fun i => stddev c e (average c e i).1) := by
  induction m with
  | zero => exact ⟨rfl, rfl, rfl, rfl⟩
  | succ m ih =>
    obtain ⟨h1, h2, h3, h4⟩ := ih
    rw [seriesOf_succ, List.range_succ]
    simp [pushPoint, h1, h2, h3, h4]

theorem voltage_keithley (c : Config) (e : Env) (hk : c.useKeithley = true) (i j : Nat) :
    (voltage c e i j).1 = Dbl.fin ((e.viQueryf i j).getD 0) := by
  unfold voltage
  rw [if_pos hk]
  cases e.viQueryf i j <;> rfl

theorem foldl_accumulate_sum (f : Nat → ℚ) :
    ∀ (l : List Nat) (a : Acc) (s : ℚ), a.sum = Dbl.fin s →
      (l.foldl (fun a j => accumulate a (Dbl.fin (f j))) a).sum
        = Dbl.fin (s + (l.map f).sum) := by
  intro l
  induction l with
  | nil => intro a s h; simpa using h
  | cons j l ih =>
    intro a s h
    simp only [List.foldl_cons, List.map_cons, List.sum_cons]
    rw [ih (accumulate a (Dbl.fin (f j))) (s + f j) (by simp [accumulate, h, Dbl.add]),
      add_assoc]

theorem dblMax_pos : (0 : ℚ) < dblMax := by
  unfold dblMax
  norm_num

theorem accumulate_zero_init :
    accumulate accInit (Dbl.fin 0) = ⟨Dbl.fin 0, Dbl.fin 0, Dbl.fin 0, Dbl.fin 0⟩ := by
  have h1 : Dbl.lt (Dbl.fin 0) (Dbl.fin dblMax) = true := by simp [Dbl.lt, dblMax_pos]
  have h2 : Dbl.lt (Dbl.fin (-dblMax)) (Dbl.fin 0) = true := by simp [Dbl.lt, dblMax_pos]
  simp [accumulate, accInit, stdMin, stdMax, h1, h2, Dbl.add, Dbl.mul]

theorem accumulate_zero_zero :
    accumulate ⟨Dbl.fin 0, Dbl.fin 0, Dbl.fin 0, Dbl.fin 0⟩ (Dbl.fin 0)
      = ⟨Dbl.fin 0, Dbl.fin 0, Dbl.fin 0, Dbl.fin 0⟩ := by
  simp [accumulate, stdMin, stdMax, Dbl.add, Dbl.mul, Dbl.lt]

theorem foldl_accumulate_zero (l : List Nat) :
    l.foldl (fun a _ => accumulate a (Dbl.fin 0)) ⟨Dbl.fin 0, Dbl.fin 0, Dbl.fin 0, Dbl.fin 0⟩
      = ⟨Dbl.fin 0, Dbl.fin 0, Dbl.fin 0, Dbl.fin 0⟩ := by
  induction l with
  | nil => rfl
  | cons j l ih => simp only [List.foldl_cons, accumulate_zero_zero, ih]

theorem average_all_failed (c : Config) (e : Env) (hk : c.useKeithley = true)
    (havg : 1 ≤ c.averages) (hfail : ∀ i j, e.viQueryf i j = none) (i : Nat) :
    (average c e i).1 = ⟨Dbl.fin 0, Dbl.fin 0, Dbl.fin 0, Dbl.fin 0⟩ := by
  rw [average_fst]
  have hv : (fun (a : Acc) (j : Nat) => accumulate a (voltage c e i j).1)
      = fun a _ => accumulate a (Dbl.fin 0) := by
    funext a j
    rw [voltage_keithley c e hk, hfail]
    rfl
  rw [hv]
  obtain ⟨n, hn⟩ : ∃ n : Nat, c.averages.toNat = n + 1 := ⟨c.averages.toNat - 1, by omega⟩
  rw [hn, List.range_succ_eq_map]
  simp only [List.foldl_cons, accumulate_zero_init]
  exact foldl_accumulate_zero _

theorem point_all_zero (c : Config) (e : Env) (havg : 1 ≤ c.averages) (hsqrt : e.sqrt 0 = 0) :
    avg c ⟨Dbl.fin 0, Dbl.fin 0, Dbl.fin 0, Dbl.fin 0⟩ = Dbl.fin 0 ∧
    stddev c e ⟨Dbl.fin 0, Dbl.fin 0, Dbl.fin 0, Dbl.fin 0⟩ = Dbl.fin 0 := by
  have hne : ((c.averages : Int) : ℚ) ≠ 0 := by
    have : c.averages ≠ 0 := by omega
    exact_mod_cast this
  have hdiv : Dbl.div (Dbl.fin 0) (Dbl.ofInt c.averages) = Dbl.fin 0 := by
    show (if ((c.averages : Int) : ℚ) = 0 then Dbl.nan
      else Dbl.fin (0 / ((c.averages : Int) : ℚ))) = _
    rw [if_neg hne, zero_div]
  have havg0 : avg c ⟨Dbl.fin 0, Dbl.fin 0, Dbl.fin 0, Dbl.fin 0⟩ = Dbl.fin 0 := hdiv
  refine ⟨havg0, ?_⟩
  unfold stddev variance
  rw [havg0]
  simp only [hdiv]
  simp [Dbl.mul, Dbl.sub, stdMax, Dbl.lt, dsqrt, hsqrt]

/-- C17. With the voltmeter in use: a failed read gives the sample `0.0` (and a
line on `std::cerr`), so the sum of a point is the sum of the readings with 0 for
each failed one, and the mean is that sum divided by `averages`; a failed
frequency write only writes a line on `std::cerr`, and the vectors and callbacks
of a run do not depend on the outcomes of the writes; a run that is never
cancelled has one point per step; and when every read fails, with
`averages ≥ 1`, every point has mean, min, max and standard deviation 0 (given
`sqrt 0 = 0`). -/
theorem run_transport_failures (c : Config) (e : Env) (hk : c.useKeithley = true) :
    (∀ i j, e.viQueryf i j = none →
      voltage c e i j = (Dbl.fin 0, [Msg.keithleyReadFailed i])) ∧
    (∀ i, (average c e i).1.sum
        = Dbl.fin (((List.range c.averages.toNat).map
            (fun j => (e.viQueryf i j).getD 0)).sum) ∧
      avg c (average c e i).1 = Dbl.div (average c e i).1.sum (Dbl.ofInt c.averages)) ∧
    (∀ i, c.useRigol = true → e.viWrite i = false →
      setFrequency c e i = [Msg.rigolWriteFailed]) ∧
    (∀ w : Nat → Bool, (run c { e with viWrite := w }).series = (run c e).series ∧
      (run c { e with viWrite := w }).calls = (run c e).calls) ∧
    ((∀ i, e.stopFlag i = false) →
      (run c e).series.freqs.length = c.steps.toNat ∧
      (run c e).series.avgSignals.length = c.steps.toNat ∧
      (run c e).series.minSignals.length = c.steps.toNat ∧
      (run c e).series.maxSignals.length = c.steps.toNat ∧
      (run c e).series.stdDevs.length = c.steps.toNat) ∧
    (1 ≤ c.averages → e.sqrt 0 = 0 → (∀ i j, e.viQueryf i j = none) →
      (run c e).series.avgSignals = List.replicate (pointsDone c e) (Dbl.fin 0) ∧
      (run c e).series.minSignals = List.replicate (pointsDone c e) (Dbl.fin 0) ∧
      (run c e).series.maxSignals = List.replicate (pointsDone c e) (Dbl.fin 0) ∧
      (run c e).series.stdDevs = List.replicate (pointsDone c e) (Dbl.fin 0)) := by
  refine ⟨?_, ?_, ?_, ?_, ?_, ?_⟩
  · intro i j h
    simp [voltage, hk, h]
  · intro i
    refine ⟨?_, rfl⟩
    rw [average_fst]
    have hv : (fun (a : Acc) (j : Nat) => accumulate a (voltage c e i j).1)
        = fun a j => accumulate a (Dbl.fin ((e.viQueryf i j).getD 0)) := by
      funext a j
      rw [voltage_keithley c e hk]
    rw [hv, foldl_accumulate_sum (fun j => (e.viQueryf i j).getD 0) _ accInit 0 rfl, zero_add]
  · intro i hr hw
    simp [setFrequency, hr, hw]
  · intro w
    rw [run_series_eq, run_series_eq, run_calls_eq, run_calls_eq]
    exact ⟨rfl, rfl⟩
  · intro hrun
    rw [run_series_eq, pointsDone_all c e (fun i _ => hrun i)]
    exact seriesOf_length c e _
  · intro havg hsqrt hfail
    obtain ⟨h1, h2, h3, h4⟩ := seriesOf_points c e (pointsDone c e)
    obtain ⟨p1, p2⟩ := point_all_zero c e havg hsqrt
    rw [run_series_eq, h1, h2, h3, h4]
    simp only [average_all_failed c e hk havg hfail, p1, p2]
    simp

/-- C17 at a five-step run with both instruments in use in which every write and
every read fails. -/
theorem run_transport_failures_witness :
    (withInstruments.useKeithley = true ∧ (1 : Int) ≤ withInstruments.averages ∧
      failing.sqrt 0 = 0 ∧ (∀ i j, failing.viQueryf i j = none) ∧
      ∀ i, failing.stopFlag i = false) ∧
    ((run withInstruments failing).series.avgSignals
        = List.replicate (pointsDone withInstruments failing) (Dbl.fin 0) ∧
      (run withInstruments failing).series.minSignals
        = List.replicate (pointsDone withInstruments failing) (Dbl.fin 0) ∧
      (run withInstruments failing).series.maxSignals
        = List.replicate (pointsDone withInstruments failing) (Dbl.fin 0) ∧
      (run withInstruments failing).series.stdDevs
        = List.replicate (pointsDone withInstruments failing) (Dbl.fin 0)) ∧
    (run withInstruments failing).series.freqs.length = withInstruments.steps.toNat ∧
    (run withInstruments failing).cerr.length = 15 :=
  ⟨⟨rfl, by decide, rfl, fun _ _ => rfl, fun _ => rfl⟩,
    (run_transport_failures withInstruments failing rfl).2.2.2.2.2 (by decide) rfl
      (fun _ _ => rfl),
    ((run_transport_failures withInstruments failing rfl).2.2.2.2.1 (fun _ => rfl)).1,
    by decide!⟩

end Measurement

namespace Measurement

/-- C11 (violated by the code). In the configuration of the test
`HandlesZeroAveragesGracefully` (`averages = 0`, three steps) the mean of a point
is `sum / averages` with `sum = 0.0` and the divisor 0, a division by zero, and
the three points of the run have the mean NaN, the minimum `DBL_MAX` and the
maximum `-DBL_MAX`: statistics that are neither zero nor all undefined. -/
theorem run_zero_averages_divides_by_zero :
    Dbl.ofInt zeroAverages.averages = Dbl.fin 0 ∧
    avg zeroAverages (average zeroAverages quiet 0).1
      = Dbl.div (Dbl.fin 0) (Dbl.ofInt zeroAverages.averages) ∧
    (run zeroAverages quiet).series.avgSignals = [Dbl.nan, Dbl.nan, Dbl.nan] ∧
    (run zeroAverages quiet).series.minSignals
      = [Dbl.fin dblMax, Dbl.fin dblMax, Dbl.fin dblMax] ∧
    (run zeroAverages quiet).series.maxSignals
      = [Dbl.fin (-dblMax), Dbl.fin (-dblMax), Dbl.fin (-dblMax)] := by
  decide!

/-- C12 (violated by the code). In the configuration of the test
`HandlesZeroAveragesGracefully` (`averages = 0`) the variance of a point is NaN,
`std::max(variance, 0.0)` returns its first argument, NaN, and the standard
deviation of each of the three points is NaN, for which `sd >= 0.0` is false. -/
theorem run_zero_averages_stddev_nan :
    variance zeroAverages (average zeroAverages quiet 0).1 = Dbl.nan ∧
    stdMax Dbl.nan (Dbl.fin 0) = Dbl.nan ∧
    (run zeroAverages quiet).series.stdDevs = [Dbl.nan, Dbl.nan, Dbl.nan] ∧
    (∀ sd ∈ (run zeroAverages quiet).series.stdDevs, Dbl.ge sd (Dbl.fin 0) = false) ∧
    ((run zeroAverages quiet).calls.getLast?.map Event.series).map Series.stdDevs
      = some [Dbl.nan, Dbl.nan, Dbl.nan] := by
  decide!

end Measurement

namespace Gui

theorem onUpdate_pending (s : Measurement.Series) (t : Dbl) (g : State) :
    (onUpdate s t g).hasNewData = true ∧ (onUpdate s t g).backBuffer.Holds s ∧
      (onUpdate s t g).frontBuffer = g.frontBuffer :=
  ⟨rfl, ⟨rfl, rfl, rfl, rfl, rfl⟩, rfl⟩

theorem publishAll_concat (ps : List (Measurement.Series × Dbl)) (p : Measurement.Series × Dbl)
    (g : State) : publishAll (ps ++ [p]) g = onUpdate p.1 p.2 (publishAll ps g) := by
  simp [publishAll, List.foldl_append]

theorem publishAll_front (ps : List (Measurement.Series × Dbl)) (g : State) :
    (publishAll ps g).frontBuffer = g.frontBuffer := by
  induction ps using List.reverseRecOn with
  | nil => rfl
  | append_singleton ps p ih => rw [publishAll_concat]; exact ih

theorem swapBlock_of_pending (g : State) (h : g.hasNewData = true) :
    (swapBlock g).1 = true ∧ (swapBlock g).2.frontBuffer = g.backBuffer ∧
      (swapBlock g).2.backBuffer = g.frontBuffer ∧ (swapBlock g).2.hasNewData = false ∧
      (swapBlock g).2.xData = g.backBuffer.x ∧ (swapBlock g).2.yData = g.backBuffer.y ∧
      (swapBlock g).2.yMinData = g.backBuffer.yMin ∧
      (swapBlock g).2.yMaxData = g.backBuffer.yMax ∧
      (swapBlock g).2.yStdData = g.backBuffer.yStd ∧ (swapBlock g).2.zData = g.backBuffer.z := by
  simp [swapBlock, h]

theorem swapBlock_of_not_pending (g : State) (h : g.hasNewData = false) :
    swapBlock g = (false, g) := by
  simp [swapBlock, h]

/-- C18. After one or more `onUpdate` calls with no swap in between, from any
state of the `Gui` members (a cleared channel in particular), one update is
pending: the next swap block takes its branch, leaves in the front buffer and in
the plot data the five vectors of the last `onUpdate` call, all five from that
call, and clears the flag; the swap block after it does not take its branch and
changes nothing. -/
theorem swap_after_publishes (g : State) (ps : List (Measurement.Series × Dbl))
    (last : Measurement.Series × Dbl) :
    (publishAll (ps ++ [last]) g).hasNewData = true ∧
    (swapBlock (publishAll (ps ++ [last]) g)).1 = true ∧
    (swapBlock (publishAll (ps ++ [last]) g)).2.frontBuffer.Holds last.1 ∧
    (swapBlock (publishAll (ps ++ [last]) g)).2.xData = last.1.freqs ∧
    (swapBlock (publishAll (ps ++ [last]) g)).2.yData = last.1.avgSignals ∧
    (swapBlock (publishAll (ps ++ [last]) g)).2.yMinData = last.1.minSignals ∧
    (swapBlock (publishAll (ps ++ [last]) g)).2.yMaxData = last.1.maxSignals ∧
    (swapBlock (publishAll (ps ++ [last]) g)).2.yStdData = last.1.stdDevs ∧
    (swapBlock (publishAll (ps ++ [last]) g)).2.hasNewData = false ∧
    swapBlock (swapBlock (publishAll (ps ++ [last]) g)).2
      = (false, (swapBlock (publishAll (ps ++ [last]) g)).2) := by
  have hpub := publishAll_concat ps last g
  obtain ⟨hflag, hholds, -⟩ := onUpdate_pending last.1 last.2 (publishAll ps g)
  rw [← hpub] at hflag hholds
  obtain ⟨s1, s2, -, s4, s5, s6, s7, s8, s9, -⟩ := swapBlock_of_pending _ hflag
  obtain ⟨b1, b2, b3, b4, b5⟩ := hholds
  refine ⟨hflag, s1, ?_, ?_, ?_, ?_, ?_, ?_, s4, swapBlock_of_not_pending _ s4⟩
  · rw [s2]; exact ⟨b1, b2, b3, b4, b5⟩
  · rw [s5, b1]
  · rw [s6, b2]
  · rw [s7, b3]
  · rw [s8, b4]
  · rw [s9, b5]

/-- C18 on the cleared channel: one `onUpdate` followed by two swap blocks gives
true then false, and forty `onUpdate` calls, the last one passing the point 40,
leave one pending update, that of the last call. -/
theorem swap_after_publishes_witness :
    ((swapBlock (publishAll ([] ++ [(onePoint 1, Dbl.fin 1)]) State.initial)).1 = true ∧
      swapBlock (swapBlock (publishAll ([] ++ [(onePoint 1, Dbl.fin 1)]) State.initial)).2
        = (false, (swapBlock (publishAll ([] ++ [(onePoint 1, Dbl.fin 1)]) State.initial)).2)) ∧
    ((List.range 39).map (fun (k : Nat) => (onePoint ((k : ℚ) + 1), Dbl.fin (k : ℚ)))
        ++ [(onePoint 40, Dbl.fin 39)]).length = 40 ∧
    (swapBlock (publishAll ((List.range 39).map
        (fun (k : Nat) => (onePoint ((k : ℚ) + 1), Dbl.fin (k : ℚ)))
        ++ [(onePoint 40, Dbl.fin 39)]) State.initial)).1 = true ∧
    (swapBlock (publishAll ((List.range 39).map
        (fun (k : Nat) => (onePoint ((k : ℚ) + 1), Dbl.fin (k : ℚ)))
        ++ [(onePoint 40, Dbl.fin 39)]) State.initial)).2.xData = (onePoint 40).freqs ∧
    swapBlock (swapBlock (publishAll ((List.range 39).map
        (fun (k : Nat) => (onePoint ((k : ℚ) + 1), Dbl.fin (k : ℚ)))
        ++ [(onePoint 40, Dbl.fin 39)]) State.initial)).2
      = (false, (swapBlock (publishAll ((List.range 39).map
        (fun (k : Nat) => (onePoint ((k : ℚ) + 1), Dbl.fin (k : ℚ)))
        ++ [(onePoint 40, Dbl.fin 39)]) State.initial)).2) :=
  ⟨⟨(swap_after_publishes State.initial [] (onePoint 1, Dbl.fin 1)).2.1,
      (swap_after_publishes State.initial [] (onePoint 1, Dbl.fin 1)).2.2.2.2.2.2.2.2.2⟩,
    by simp,
    (swap_after_publishes State.initial ((List.range 39).map
      (fun (k : Nat) => (onePoint ((k : ℚ) + 1), Dbl.fin (k : ℚ))))
      (onePoint 40, Dbl.fin 39)).2.1,
    (swap_after_publishes State.initial ((List.range 39).map
      (fun (k : Nat) => (onePoint ((k : ℚ) + 1), Dbl.fin (k : ℚ))))
      (onePoint 40, Dbl.fin 39)).2.2.2.1,
    (swap_after_publishes State.initial ((List.range 39).map
      (fun (k : Nat) => (onePoint ((k : ℚ) + 1), Dbl.fin (k : ℚ))))
      (onePoint 40, Dbl.fin 39)).2.2.2.2.2.2.2.2.2⟩

/-- C19. When `hasNewData` is not set, the swap block does not take its branch
and leaves every member as it was: both buffers, the flag and the plot data. -/
theorem swap_without_pending (g : State) (h : g.hasNewData = false) :
    (swapBlock g).1 = false ∧ (swapBlock g).2 = g ∧
    (swapBlock g).2.frontBuffer = g.frontBuffer ∧ (swapBlock g).2.backBuffer = g.backBuffer ∧
    (swapBlock g).2.hasNewData = g.hasNewData ∧
    (swapBlock g).2.xData = g.xData ∧ (swapBlock g).2.yData = g.yData ∧
    (swapBlock g).2.zData = g.zData ∧ (swapBlock g).2.yMinData = g.yMinData ∧
    (swapBlock g).2.yMaxData = g.yMaxData ∧ (swapBlock g).2.yStdData = g.yStdData := by
  rw [swapBlock_of_not_pending g h]
  exact ⟨rfl, rfl, rfl, rfl, rfl, rfl, rfl, rfl, rfl, rfl, rfl⟩

/-- C19 at a state whose plot data hold a consumed point and whose flag is
clear. -/
theorem swap_without_pending_witness :
    (swapBlock (onUpdate (onePoint 1) (Dbl.fin 1) State.initial)).2.hasNewData = false ∧
    (swapBlock (swapBlock (onUpdate (onePoint 1) (Dbl.fin 1) State.initial)).2).1 = false ∧
    (swapBlock (swapBlock (onUpdate (onePoint 1) (Dbl.fin 1) State.initial)).2).2
      = (swapBlock (onUpdate (onePoint 1) (Dbl.fin 1) State.initial)).2 :=
  ⟨rfl,
    (swap_without_pending (swapBlock (onUpdate (onePoint 1) (Dbl.fin 1) State.initial)).2
      rfl).1,
    (swap_without_pending (swapBlock (onUpdate (onePoint 1) (Dbl.fin 1) State.initial)).2
      rfl).2.1⟩

/-- C20. After `StopMeasurement`, and after the reset of `StartMeasurement`, from
any state of the `Gui` members: both buffers are `{}`, `hasNewData` is false and
the plot data are empty, so the swap block that follows does not take its branch
and the front buffer and the plot data stay empty. -/
theorem reset_clears_channel (g : State) (steps : Int) :
    ((StopMeasurement g).frontBuffer = PlotData.empty ∧
      (StopMeasurement g).backBuffer = PlotData.empty ∧
      (StopMeasurement g).hasNewData = false ∧
      swapBlock (StopMeasurement g) = (false, StopMeasurement g) ∧
      (swapBlock (StopMeasurement g)).2.frontBuffer = PlotData.empty ∧
      (swapBlock (StopMeasurement g)).2.xData = [] ∧
      (swapBlock (StopMeasurement g)).2.yData = []) ∧
    ((StartMeasurement steps g).frontBuffer = PlotData.empty ∧
      (StartMeasurement steps g).backBuffer = PlotData.empty ∧
      (StartMeasurement steps g).hasNewData = false ∧
      swapBlock (StartMeasurement steps g) = (false, StartMeasurement steps g) ∧
      (swapBlock (StartMeasurement steps g)).2.frontBuffer = PlotData.empty ∧
      (swapBlock (StartMeasurement steps g)).2.xData = [] ∧
      (swapBlock (StartMeasurement steps g)).2.yData = []) := by
  have h1 : swapBlock (StopMeasurement g) = (false, StopMeasurement g) :=
    swapBlock_of_not_pending _ rfl
  have h2 : swapBlock (StartMeasurement steps g) = (false, StartMeasurement steps g) :=
    swapBlock_of_not_pending _ rfl
  refine ⟨⟨rfl, rfl, rfl, h1, ?_, ?_, ?_⟩, ⟨rfl, rfl, rfl, h2, ?_, ?_, ?_⟩⟩
  · rw [h1]; rfl
  · rw [h1]; rfl
  · rw [h1]; rfl
  · rw [h2]; rfl
  · rw [h2]; rfl
  · rw [h2]; rfl

end Gui

namespace Measurement

/-- C25. On the state (`stopFlag`, worker joinable or not): a second `stop()`
performs no join and leaves the state of the first; `stop()` with no joinable
worker performs no join, leaves the worker not joinable and the callbacks as
they were, and sets the flag; on a `Measurement` never started it performs no
join, and after a `start` it performs one. -/
theorem stop_idempotent (m : Controller) (c : Config) (e : Env) :
    (stop (stop m).2).2 = (stop m).2 ∧
    (stop (stop m).2).1 = false ∧
    (m.joinable = false →
      (stop m).1 = false ∧ (stop m).2.joinable = false ∧ (stop m).2.stopFlag = true ∧
        (stop m).2.calls = m.calls) ∧
    (stop Controller.fresh).1 = false ∧
    (stop (start c e m)).1 = true ∧ (stop (start c e m)).2.joinable = false := by
  refine ⟨?_, ?_, ?_, rfl, rfl, rfl⟩
  · cases hj : m.joinable <;> simp [stop, hj]
  · cases hj : m.joinable <;> simp [stop, hj]
  · intro hj
    simp [stop, hj]

/-- C25 at a `Measurement` that was never started. -/
theorem stop_idempotent_witness :
    Controller.fresh.joinable = false ∧
    (stop Controller.fresh).1 = false ∧ (stop Controller.fresh).2.joinable = false ∧
    (stop Controller.fresh).2.stopFlag = true ∧
    (stop Controller.fresh).2.calls = Controller.fresh.calls :=
  ⟨rfl, (stop_idempotent Controller.fresh fiveSteps quiet).2.2.1 rfl⟩

end Measurement

namespace odmr_utils

theorem firstMin_between (y : List ℚ) {run : List Int} (hne : run ≠ [])
    (hs : run.Pairwise (· < ·)) :
    (∀ u ∈ run.head?, u ≤ firstMin y run) ∧ (∀ v ∈ run.getLast?, firstMin y run ≤ v) := by
  have hmem := (firstMin_spec y hne hs).1
  constructor
  · intro u hu
    cases run with
    | nil => exact absurd rfl hne
    | cons a rest =>
      simp only [List.head?_cons, Option.mem_def, Option.some.injEq] at hu
      subst hu
      rcases List.mem_cons.mp hmem with h | h
      · exact le_of_eq h.symm
      · exact le_of_lt ((List.pairwise_cons.mp hs).1 _ h)
  · intro v hv
    obtain ⟨pre, rfl⟩ : ∃ pre, run = pre ++ [v] := by
      have := List.getLast?_eq_some_iff.mp hv
      exact this
    rcases List.mem_append.mp hmem with h | h
    · have := (List.pairwise_append.mp hs).2.2 _ h v (List.mem_singleton_self v)
      exact le_of_lt this
    · exact le_of_eq (List.mem_singleton.mp h)

theorem picks_separated (y : List ℚ) (g : Int) :
    ∀ (L : List (List Int)), (∀ r ∈ L, r ≠ [] ∧ r.Pairwise (· < ·)) →
      List.Chain' (Separated g) L →
      List.Chain' (fun a b => g < b - a) (L.map (firstMin y)) := by
  intro L
  induction L with
  | nil => intro _ _; exact List.chain'_nil
  | cons r1 L ih =>
    intro hL hch
    cases L with
    | nil => exact List.chain'_singleton _
    | cons r2 L =>
      have h12 := (List.chain'_cons.mp hch).1
      have hrest := (List.chain'_cons.mp hch).2
      have ih' := ih (fun r hr => hL r (List.mem_cons_of_mem _ hr)) hrest
      simp only [List.map_cons] at ih' ⊢
      refine List.chain'_cons.mpr ⟨?_, ih'⟩
      obtain ⟨hne1, hs1⟩ := hL r1 (List.mem_cons_self _ _)
      obtain ⟨hne2, hs2⟩ := hL r2 (List.mem_cons_of_mem _ (List.mem_cons_self _ _))
      obtain ⟨v, hv⟩ : ∃ v, r1.getLast? = some v := by
        cases h : r1.getLast? with
        | none => exact absurd (List.getLast?_eq_none_iff.mp h) hne1
        | some v => exact ⟨v, rfl⟩
      obtain ⟨u, hu⟩ : ∃ u, r2.head? = some u := by
        cases r2 with
        | nil => exact absurd rfl hne2
        | cons a _ => exact ⟨a, rfl⟩
      have hsep := h12 v hv u hu
      have h1 := (firstMin_between y hne1 hs1).2 v hv
      have h2 := (firstMin_between y hne2 hs2).1 u hu
      omega

/-- C28. For a window that is not negative the returned list is strictly
increasing, and each returned index exceeds the one before it by more than
`window / 2`. -/
theorem FindProminentDips_spaced (y : List ℚ) (window : Int) (prominence : ℚ)
    (hw : 0 ≤ window) :
    ∃ dips, FindProminentDips y window prominence = some dips ∧
      dips.Pairwise (· < ·) ∧
      dips.Chain' (fun a b => window / 2 < b - a) := by
  obtain ⟨raw, hraw, hres⟩ := FindProminentDips_eq y prominence hw
  have hs := raw_sorted hw hraw
  have hch : List.Chain' (fun a b => window / 2 < b - a)
      ((runs (window / 2) raw).map (firstMin y)) :=
    picks_separated y (window / 2) _
      (fun r hr => ⟨(runs_chain _ raw r hr).1, run_sorted hs hr⟩) (runs_separated _ raw)
  refine ⟨_, hres, ?_, hch⟩
  have hg : 0 ≤ window / 2 := Int.ediv_nonneg hw (by decide)
  have hlt : List.Chain' (fun a b : Int => a < b) ((runs (window / 2) raw).map (firstMin y)) :=
    hch.imp (fun h => by omega)
  exact List.chain'_iff_pairwise.mp hlt

/-- C28 at the signal of the test `MultipleDips`, window 1. -/
theorem FindProminentDips_spaced_witness :
    (0 : Int) ≤ 1 ∧
    ∃ dips, FindProminentDips [1, 3 / 10, 1, 1 / 5, 1, 2 / 5, 1] 1 (1 / 2) = some dips ∧
      dips.Pairwise (· < ·) ∧
      dips.Chain' (fun a b => (1 : Int) / 2 < b - a) :=
  ⟨by decide, FindProminentDips_spaced [1, 3 / 10, 1, 1 / 5, 1, 2 / 5, 1] 1 (1 / 2) (by decide)⟩

end odmr_utils

namespace Gui

/-- C26 (violated by the code). From the cleared channel, an `onUpdate` with one
point at elapsed time 1 followed by an `onUpdate` with two points at elapsed time
2 leaves `backBuffer.z = {1, 2}`: `resize` keeps the entry written by the earlier
call, so not every entry is the time of the last call. After a swap in between,
the stale entry comes from the buffer that was the back buffer two calls
earlier. -/
theorem onUpdate_keeps_old_times :
    (onUpdate (twoPoints 1 2) (Dbl.fin 2)
      (onUpdate (onePoint 1) (Dbl.fin 1) State.initial)).backBuffer.z
        = [Dbl.fin 1, Dbl.fin 2] ∧
    (onUpdate (twoPoints 1 2) (Dbl.fin 3)
      (swapBlock (onUpdate (onePoint 1) (Dbl.fin 2)
        (swapBlock (onUpdate (onePoint 1) (Dbl.fin 1) State.initial)).2)).2).backBuffer.z
        = [Dbl.fin 1, Dbl.fin 3] := by
  decide!

end Gui

namespace Measurement

/-- C27 as stated fails: the bands 2.85-2.87 and 2.86-2.88 have the same width,
and the last point of each lies at the same fraction of its band, yet the
noise-free samples of the two differ; the last point of the first band and the
middle point of the second are both at 2.87 GHz and have the same sample. The
sample depends on the frequency itself, not on its place in the band. -/
theorem simulateODMR_ignores_band :
    freqGHz fiveSteps 4 = Dbl.fin (287 / 100) ∧ freqGHz shiftedBand 4 = Dbl.fin (288 / 100) ∧
    freqGHz shiftedBand 2 = Dbl.fin (287 / 100) ∧
    (voltage fiveSteps quiet 4 0).1 ≠ (voltage shiftedBand quiet 4 0).1 ∧
    (voltage fiveSteps quiet 4 0).1 = (voltage shiftedBand quiet 2 0).1 := by
  decide!

theorem dip_le (f center width : ℚ) : dip f center width ≤ 1 / 5 := by
  unfold dip
  have h1 : (1 : ℚ) ≤ 1 + ((f - center) / width) ^ 2 := by
    have := sq_nonneg ((f - center) / width)
    linarith
  have h2 : 1 / (1 + ((f - center) / width) ^ 2) ≤ 1 := by
    rw [div_le_one (by linarith)]
    exact h1
  linarith

theorem dip_eq_iff (f center width : ℚ) (hw : width ≠ 0) :
    dip f center width = 1 / 5 ↔ f = center := by
  unfold dip
  have hpos : (0 : ℚ) < 1 + ((f - center) / width) ^ 2 := by
    have := sq_nonneg ((f - center) / width)
    linarith
  constructor
  · intro h
    have h1 : 1 / (1 + ((f - center) / width) ^ 2) = 1 := by linarith
    rw [div_eq_one_iff_eq (ne_of_gt hpos)] at h1
    have h2 : ((f - center) / width) ^ 2 = 0 := by linarith
    have h3 : (f - center) / width = 0 := by
      exact pow_eq_zero_iff (by decide) |>.mp h2
    have h4 : f - center = 0 := by
      rcases div_eq_zero_iff.mp h3 with h | h
      · exact h
      · exact absurd h hw
    linarith
  · rintro rfl
    simp

theorem dis_bounded (u : ℚ) : -1 / 100 ≤ dis u ∧ dis u < 1 / 100 := by
  unfold dis
  have h0 := Int.fract_nonneg u
  have h1 := Int.fract_lt_one u
  constructor <;> nlinarith

/-- C27, amended. When the voltmeter is not used, the sample of repetition `j` at
a point of finite frequency `f` is `1 - dip1 - dip2 + dis(gen)`, a double
Lorentzian whose two dips have their centres at the fixed frequencies 2.87 and
2.90 GHz (where each dip term takes its largest value 0.2, and nowhere else),
whatever the band `startFreq`, `endFreq`, and the fixed width 0.005; the noise
term, the draw of the uniform distribution on `[-0.01, 0.01)`, is at most 0.01 in
absolute value, so the sample is within 0.01 of the noise-free value. -/
theorem voltage_simulated (c : Config) (e : Env) (i j : Nat) (f : ℚ)
    (hk : c.useKeithley = false) (hf : freqGHz c i = Dbl.fin f) :
    voltage c e i j
      = (Dbl.fin (1 - dip f (287 / 100) (5 / 1000) - dip f (290 / 100) (5 / 1000)
          + dis (e.noise i j)), []) ∧
    (∀ g : ℚ, dip g (287 / 100) (5 / 1000) ≤ 1 / 5 ∧
      (dip g (287 / 100) (5 / 1000) = 1 / 5 ↔ g = 287 / 100) ∧
      dip g (290 / 100) (5 / 1000) ≤ 1 / 5 ∧
      (dip g (290 / 100) (5 / 1000) = 1 / 5 ↔ g = 290 / 100)) ∧
    (voltage c e i j).1 = Dbl.fin (lorentzians f + dis (e.noise i j)) ∧
    |dis (e.noise i j)| ≤ 1 / 100 ∧
    |(lorentzians f + dis (e.noise i j)) - lorentzians f| ≤ 1 / 100 := by
  have hv : voltage c e i j
      = (Dbl.fin (1 - dip f (287 / 100) (5 / 1000) - dip f (290 / 100) (5 / 1000)
          + dis (e.noise i j)), []) := by
    simp [voltage, hk, hf, simulateODMR]
  have hb : |dis (e.noise i j)| ≤ 1 / 100 := by
    have h := dis_bounded (e.noise i j)
    rw [abs_le]
    constructor <;> linarith [h.1, h.2]
  refine ⟨hv, ?_, ?_, hb, ?_⟩
  · intro g
    exact ⟨dip_le _ _ _, dip_eq_iff _ _ _ (by norm_num), dip_le _ _ _,
      dip_eq_iff _ _ _ (by norm_num)⟩
  · rw [hv]
    rfl
  · simpa using hb

/-- C27, amended, at the first point of the test configuration
`RunFillsDataCorrectly`, with the draw 0. -/
theorem voltage_simulated_witness :
    (fiveSteps.useKeithley = false ∧ freqGHz fiveSteps 0 = Dbl.fin (285 / 100)) ∧
    (voltage fiveSteps quiet 0 0).1
      = Dbl.fin (lorentzians (285 / 100) + dis (quiet.noise 0 0)) ∧
    dis (quiet.noise 0 0) = 0 ∧
    |dis (quiet.noise 0 0)| ≤ 1 / 100 :=
  have hf : freqGHz fiveSteps 0 = Dbl.fin (285 / 100) := by decide!
  ⟨⟨rfl, hf⟩, (voltage_simulated fiveSteps quiet 0 0 (285 / 100) rfl hf).2.2.1,
    by decide!, (voltage_simulated fiveSteps quiet 0 0 (285 / 100) rfl hf).2.2.2.1⟩

end Measurement

namespace Measurement

end Measurement

namespace Measurement

end Measurement

namespace Measurement

end Measurement

namespace Measurement

end Measurement





namespace odmr_utils

theorem getElem?_append_cons (pre : List Int) (cur : Int) (rest : List Int) :
    (pre ++ cur :: rest)[pre.length]? = some cur := by
  rw [List.getElem?_append_right (le_refl _)]
  simp

theorem runLoop_filterLoop (y : List ℚ) (g : Int) (raw : List Int) :
    ∀ (rest pre : List Int) (cur : Int) (minVal : ℚ) (minIdx : Int) (out : List Int)
      (fuelW fuelF : Nat), raw = pre ++ cur :: rest → rest.length + 1 ≤ fuelW →
      rest.length + 1 ≤ fuelF →
      (match runLoop y g raw fuelW pre.length minVal minIdx with
        | none => none
        | some (i', m) => filterLoop y g raw fuelF (i' + 1) (out ++ [m]))
        = (mergeRun y g cur minVal minIdx rest).map (fun o => out ++ o) := by
  intro rest
  induction rest with
  | nil =>
    intro pre cur minVal minIdx out fuelW fuelF hraw hW hF
    obtain ⟨w, rfl⟩ : ∃ w, fuelW = w + 1 := ⟨fuelW - 1, by omega⟩
    obtain ⟨f, rfl⟩ : ∃ f, fuelF = f + 1 := ⟨fuelF - 1, by omega⟩
    have hlen : raw.length = pre.length + 1 := by rw [hraw]; simp
    have h1 : ¬ pre.length + 1 < raw.length := by omega
    simp only [runLoop, if_neg h1, filterLoop, mergeRun, Option.map]
  | cons r rs ih =>
    intro pre cur minVal minIdx out fuelW fuelF hraw hW hF
    obtain ⟨w, rfl⟩ : ∃ w, fuelW = w + 1 := ⟨fuelW - 1, by omega⟩
    obtain ⟨f, rfl⟩ : ∃ f, fuelF = f + 1 := ⟨fuelF - 1, by omega⟩
    simp only [List.length_cons] at hW hF
    have hlen : raw.length = pre.length + (rs.length + 2) := by rw [hraw]; simp
    have h1 : pre.length + 1 < raw.length := by omega
    have hcur : raw[pre.length]? = some cur := by
      rw [hraw]
      exact getElem?_append_cons _ _ _
    have hraw2 : raw = (pre ++ [cur]) ++ r :: rs := by rw [hraw]; simp
    have hplen : (pre ++ [cur]).length = pre.length + 1 := by simp
    have hnext : raw[pre.length + 1]? = some r := by
      rw [← hplen, hraw2]
      exact getElem?_append_cons _ _ _
    rw [runLoop, if_pos h1, hnext, hcur]
    simp only []
    rw [mergeRun]
    by_cases hg : r - cur ≤ g
    · rw [if_pos hg, if_pos hg]
      cases hy : readAt y r with
      | none => rfl
      | some v =>
        simp only []
        by_cases hv : v < minVal
        · rw [if_pos hv, if_pos hv, ← hplen]
          exact ih (pre ++ [cur]) r v r out w (f + 1) hraw2 (by omega) (by omega)
        · rw [if_neg hv, if_neg hv, ← hplen]
          exact ih (pre ++ [cur]) r minVal minIdx out w (f + 1) hraw2 (by omega) (by omega)
    · rw [if_neg hg, if_neg hg]
      simp only []
      rw [filterLoop, if_pos h1, hnext]
      simp only []
      cases hy : readAt y r with
      | none => rfl
      | some v =>
        simp only []
        have := ih (pre ++ [cur]) r v r (out ++ [minIdx]) (raw.length + 1) f hraw2
          (by omega) (by omega)
        rw [hplen] at this
        rw [this]
        cases mergeRun y g r v r rs with
        | none => rfl
        | some o => simp

theorem filteredDipsAt_eq (y : List ℚ) (g : Int) (raw : List Int) :
    filteredDipsAt y g raw = filteredDips y g raw := by
  cases raw with
  | nil => rfl
  | cons start rs =>
    unfold filteredDipsAt
    rw [filterLoop, if_pos (by simp)]
    simp only [List.length_cons, List.getElem?_cons_zero, filteredDips]
    cases hy : readAt y start with
    | none => rfl
    | some minVal =>
      simp only []
      have := runLoop_filterLoop y g (start :: rs) rs [] start minVal start []
        ((start :: rs).length + 1) (rs.length + 1) rfl (by simp) (le_refl _)
      simp only [List.length_nil, List.length_cons] at this
      rw [this]
      cases mergeRun y g start minVal start rs <;> simp

end odmr_utils

namespace odmr_utils

/-- C29. For a window of at least 1, every element access of `FindProminentDips`
is in bounds. In phase 1, for every `i` of the candidate loop, every index `j` of
the averaging loop satisfies `0 ≤ j < n`, the neighbours `i - 1` and `i + 1` are
inside the signal (the bounds check of the `isMin` loop never fires), and the body
runs to its end without a read outside the signal; the divisor `2 * window` is
not zero. In phase 2 every candidate is a valid index into the signal, and the
merge loop, run on the index with every read of `rawDips` and of `y` checked,
ends without a read outside a vector, with the list that `FindProminentDips`
returns. -/
theorem FindProminentDips_in_bounds (y : List ℚ) (window : Int) (prominence : ℚ)
    (hw : 1 ≤ window) :
    (∀ i ∈ intRange window ((y.length : Int) - window),
      (readAt y i).isSome = true ∧
      (∀ j ∈ intRange (i - window) (i + window + 1),
        0 ≤ j ∧ j < (y.length : Int) ∧ (readAt y j).isSome = true) ∧
      (∀ j ∈ intRange (i - 1) (i + 2), ¬ (j < 0 ∨ j ≥ (y.length : Int))) ∧
      (∃ c, isCandidate y window prominence i = some c)) ∧
    2 * window ≠ 0 ∧ Dbl.ofInt (2 * window) ≠ Dbl.fin 0 ∧
    ∃ raw dips, rawDips y window prominence = some raw ∧
      (∀ r ∈ raw, 0 ≤ r ∧ r < (y.length : Int) ∧ (readAt y r).isSome = true) ∧
      filteredDipsAt y (Int.tdiv window 2) raw = some dips ∧
      FindProminentDips y window prominence = some dips := by
  have hread : ∀ j : Int, 0 ≤ j → j < (y.length : Int) → (readAt y j).isSome = true := by
    intro j h0 h1
    rw [readAt_eq_valAt h0 h1]
    rfl
  refine ⟨?_, by omega, ?_, ?_⟩
  · intro i hi
    rw [mem_intRange] at hi
    refine ⟨hread i (by omega) (by omega), ?_, ?_,
      isCandidate_total prominence (by omega) hi.1 hi.2⟩
    · intro j hj
      rw [mem_intRange] at hj
      exact ⟨by omega, by omega, hread j (by omega) (by omega)⟩
    · intro j hj
      rw [mem_intRange] at hj
      omega
  · intro h
    have h2 : ((2 * window : Int) : ℚ) = 0 := by
      unfold Dbl.ofInt at h
      exact Dbl.fin.inj h
    have h3 : (2 * window : Int) = 0 := by exact_mod_cast h2
    omega
  · obtain ⟨raw, hraw, hdips⟩ := FindProminentDips_eq y prominence (show 0 ≤ window by omega)
    have hfilt : filteredDips y (Int.tdiv window 2) raw
        = some ((runs (window / 2) raw).map (firstMin y)) := by
      rw [← hdips]
      unfold FindProminentDips
      rw [hraw]
    refine ⟨raw, _, hraw, ?_, ?_, hdips⟩
    · intro r hr
      have := (raw_mem (show 0 ≤ window by omega) hraw).mp hr
      exact ⟨by omega, by omega, hread r (by omega) (by omega)⟩
    · rw [filteredDipsAt_eq, hfilt]

/-- C29 on the signal of the test `MergeCloseDipsKeepsDeeperFirst` with window 4:
the candidates are the indices 4 and 6, and the checked merge loop gives `[4]`. -/
theorem FindProminentDips_in_bounds_witness :
    (1 : Int) ≤ 4 ∧ rawDips deeperFirst 4 1 = some [4, 6] ∧
    filteredDipsAt deeperFirst (Int.tdiv 4 2) [4, 6] = some [4] ∧
    ∃ raw dips, rawDips deeperFirst 4 1 = some raw ∧
      (∀ r ∈ raw, 0 ≤ r ∧ r < (deeperFirst.length : Int) ∧ (readAt deeperFirst r).isSome = true) ∧
      filteredDipsAt deeperFirst (Int.tdiv 4 2) raw = some dips ∧
      FindProminentDips deeperFirst 4 1 = some dips :=
  ⟨by decide, by decide!, by decide!,
    (FindProminentDips_in_bounds deeperFirst 4 1 (by decide)).2.2.2⟩

end odmr_utils


namespace ieee

theorem pow2_eq_zpow (e : Int) : pow2 e = (2 : ℚ) ^ e := by
  unfold pow2
  by_cases h : 0 ≤ e
  · rw [if_pos h]
    obtain ⟨n, rfl⟩ := Int.eq_ofNat_of_zero_le h
    simp
  · rw [if_neg h]
    obtain ⟨n, hn⟩ := Int.eq_ofNat_of_zero_le (show 0 ≤ -e by omega)
    have he : e = -(n : Int) := by omega
    rw [he]
    simp

theorem pow2_pos (e : Int) : 0 < pow2 e := by
  rw [pow2_eq_zpow]
  positivity

theorem pow2_add (a b : Int) : pow2 (a + b) = pow2 a * pow2 b := by
  rw [pow2_eq_zpow, pow2_eq_zpow, pow2_eq_zpow, zpow_add₀ (by norm_num)]

theorem pow2_le {a b : Int} (h : a ≤ b) : pow2 a ≤ pow2 b := by
  rw [pow2_eq_zpow, pow2_eq_zpow]
  exact zpow_le_zpow_right₀ (by norm_num) h

theorem pow2_lt_iff {a b : Int} : pow2 a < pow2 b ↔ a < b := by
  rw [pow2_eq_zpow, pow2_eq_zpow]
  exact zpow_lt_zpow_iff_right₀ (by norm_num)

theorem pow2_natCast (n : Nat) : pow2 (n : Int) = ((2 ^ n : Nat) : ℚ) := by
  rw [pow2_eq_zpow]
  simp

theorem halvings_spec : ∀ (fuel n : Nat), n ≤ fuel → 1 ≤ n →
    2 ^ halvings fuel n ≤ n ∧ n < 2 ^ (halvings fuel n + 1) := by
  intro fuel
  induction fuel with
  | zero => intro n h1 h2; omega
  | succ fuel ih =>
    intro n hn h1
    unfold halvings
    by_cases h2 : n < 2
    · rw [if_pos h2]
      constructor <;> simp <;> omega
    · rw [if_neg h2]
      obtain ⟨ha, hb⟩ := ih (n / 2) (by omega) (by omega)
      constructor
      · rw [pow_succ]
        omega
      · rw [pow_succ]
        omega

theorem log2_spec {n : Nat} (h : 1 ≤ n) : 2 ^ log2 n ≤ n ∧ n < 2 ^ (log2 n + 1) :=
  halvings_spec n n (le_refl n) h

theorem binade_spec {x : ℚ} (hx : x ≠ 0) :
    pow2 (binade x) ≤ |x| ∧ |x| < pow2 (binade x + 1) := by
  have hnum : 1 ≤ x.num.natAbs := by
    have : x.num ≠ 0 := Rat.num_ne_zero.mpr hx
    omega
  have hden : 1 ≤ x.den := x.den_pos
  obtain ⟨ha1, ha2⟩ := log2_spec hnum
  obtain ⟨hb1, hb2⟩ := log2_spec hden
  have habs : |x| = (x.num.natAbs : ℚ) / (x.den : ℚ) := by
    have h1 : |x| = |(x.num : ℚ)| / (x.den : ℚ) := by
      conv_lhs => rw [← Rat.num_div_den x]
      rw [abs_div, abs_of_pos (show (0 : ℚ) < (x.den : ℚ) by exact_mod_cast x.den_pos)]
    rw [h1]
    congr 1
    rw [← Int.cast_abs, Int.abs_eq_natAbs, Int.cast_natCast]
  have hdpos : (0 : ℚ) < (x.den : ℚ) := by exact_mod_cast x.den_pos
  have hA1 : pow2 (log2 x.num.natAbs : Int) ≤ (x.num.natAbs : ℚ) := by
    rw [pow2_natCast]
    exact_mod_cast ha1
  have hA2 : (x.num.natAbs : ℚ) < pow2 ((log2 x.num.natAbs : Int) + 1) := by
    have : ((log2 x.num.natAbs : Int) + 1) = ((log2 x.num.natAbs + 1 : Nat) : Int) := by
      push_cast
      ring
    rw [this, pow2_natCast]
    exact_mod_cast ha2
  have hB1 : pow2 (log2 x.den : Int) ≤ (x.den : ℚ) := by
    rw [pow2_natCast]
    exact_mod_cast hb1
  have hB2 : (x.den : ℚ) < pow2 ((log2 x.den : Int) + 1) := by
    have : ((log2 x.den : Int) + 1) = ((log2 x.den + 1 : Nat) : Int) := by
      push_cast
      ring
    rw [this, pow2_natCast]
    exact_mod_cast hb2
  have hupper : |x| < pow2 ((log2 x.num.natAbs : Int) - (log2 x.den : Int) + 1) := by
    rw [habs, div_lt_iff₀ hdpos]
    have hsplit : pow2 ((log2 x.num.natAbs : Int) - (log2 x.den : Int) + 1)
        * pow2 (log2 x.den : Int) = pow2 ((log2 x.num.natAbs : Int) + 1) := by
      rw [← pow2_add]
      congr 1
      ring
    have hp := pow2_pos ((log2 x.num.natAbs : Int) - (log2 x.den : Int) + 1)
    calc (x.num.natAbs : ℚ) < pow2 ((log2 x.num.natAbs : Int) + 1) := hA2
      _ = pow2 ((log2 x.num.natAbs : Int) - (log2 x.den : Int) + 1)
            * pow2 (log2 x.den : Int) := hsplit.symm
      _ ≤ pow2 ((log2 x.num.natAbs : Int) - (log2 x.den : Int) + 1) * (x.den : ℚ) :=
          mul_le_mul_of_nonneg_left hB1 (le_of_lt hp)
  have hlower : pow2 ((log2 x.num.natAbs : Int) - (log2 x.den : Int) - 1) ≤ |x| := by
    rw [habs, le_div_iff₀ hdpos]
    have hsplit : pow2 ((log2 x.num.natAbs : Int) - (log2 x.den : Int) - 1)
        * pow2 ((log2 x.den : Int) + 1) = pow2 (log2 x.num.natAbs : Int) := by
      rw [← pow2_add]
      congr 1
      ring
    have hp := pow2_pos ((log2 x.num.natAbs : Int) - (log2 x.den : Int) - 1)
    calc pow2 ((log2 x.num.natAbs : Int) - (log2 x.den : Int) - 1) * (x.den : ℚ)
        ≤ pow2 ((log2 x.num.natAbs : Int) - (log2 x.den : Int) - 1)
            * pow2 ((log2 x.den : Int) + 1) :=
          mul_le_mul_of_nonneg_left (le_of_lt hB2) (le_of_lt hp)
      _ = pow2 (log2 x.num.natAbs : Int) := hsplit
      _ ≤ (x.num.natAbs : ℚ) := hA1
  unfold binade
  by_cases hc : pow2 ((log2 x.num.natAbs : Int) - (log2 x.den : Int)) ≤ |x|
  · rw [if_pos hc]
    exact ⟨hc, hupper⟩
  · rw [if_neg hc]
    refine ⟨hlower, ?_⟩
    have : (log2 x.num.natAbs : Int) - (log2 x.den : Int) - 1 + 1
        = (log2 x.num.natAbs : Int) - (log2 x.den : Int) := by ring
    rw [this]
    exact not_le.mp hc

theorem binade_le {x : ℚ} {e : Int} (hx : x ≠ 0) (h : |x| < pow2 (e + 1)) : binade x ≤ e := by
  have h1 := (binade_spec hx).1
  have h2 : pow2 (binade x) < pow2 (e + 1) := lt_of_le_of_lt h1 h
  have := pow2_lt_iff.mp h2
  omega

end ieee

namespace ieee

theorem roundHalfEven_intCast (n : Int) : roundHalfEven (n : ℚ) = n := by
  unfold roundHalfEven
  rw [Int.floor_intCast]
  simp

theorem roundHalfEven_le {q : ℚ} {N : Int} (h : q ≤ (N : ℚ)) : roundHalfEven q ≤ N := by
  have hfl : ⌊q⌋ ≤ N := by
    have := Int.floor_le_floor h
    rwa [Int.floor_intCast] at this
  have hstep : 0 < q - ⌊q⌋ → ⌊q⌋ + 1 ≤ N := by
    intro hpos
    have h1 : (⌊q⌋ : ℚ) < (N : ℚ) := by linarith
    have h2 : ⌊q⌋ < N := by exact_mod_cast h1
    omega
  unfold roundHalfEven
  by_cases c1 : q - ⌊q⌋ < 1 / 2
  · rw [if_pos c1]
    exact hfl
  · rw [if_neg c1]
    have hpos : 0 < q - ⌊q⌋ := by linarith
    by_cases c2 : 1 / 2 < q - ⌊q⌋
    · rw [if_pos c2]
      exact hstep hpos
    · rw [if_neg c2]
      by_cases c3 : ⌊q⌋ % 2 = 0
      · rw [if_pos c3]
        exact hfl
      · rw [if_neg c3]
        exact hstep hpos

theorem le_roundHalfEven {q : ℚ} {N : Int} (h : (N : ℚ) ≤ q) : N ≤ roundHalfEven q := by
  have hfl : N ≤ ⌊q⌋ := Int.le_floor.mpr h
  unfold roundHalfEven
  by_cases c1 : q - ⌊q⌋ < 1 / 2
  · rw [if_pos c1]
    exact hfl
  · rw [if_neg c1]
    by_cases c2 : 1 / 2 < q - ⌊q⌋
    · rw [if_pos c2]
      omega
    · rw [if_neg c2]
      by_cases c3 : ⌊q⌋ % 2 = 0
      · rw [if_pos c3]
        exact hfl
      · rw [if_neg c3]
        omega

theorem abs_roundHalfEven_le {q : ℚ} {N : Int} (h : |q| ≤ (N : ℚ)) :
    |roundHalfEven q| ≤ N := by
  rw [abs_le] at h ⊢
  constructor
  · apply le_roundHalfEven
    push_cast
    exact h.1
  · exact roundHalfEven_le h.2

theorem roundTo_of_int (p : Nat) (emin : Int) (y : ℚ) (z : Int)
    (h : y / ulp p emin y = (z : ℚ)) : roundTo p emin y = y := by
  have hu : ulp p emin y ≠ 0 := ne_of_gt (pow2_pos _)
  unfold roundTo
  rw [h, roundHalfEven_intCast, ← h]
  field_simp

theorem roundTo_zero (p : Nat) (emin : Int) : roundTo p emin 0 = 0 := by
  apply roundTo_of_int p emin 0 0
  simp

theorem abs_quot_lt (p : Nat) (emin : Int) {x : ℚ} (hx : x ≠ 0) :
    |x / ulp p emin x| < pow2 (p : Int) := by
  have hu : 0 < ulp p emin x := pow2_pos _
  rw [abs_div, abs_of_pos hu, div_lt_iff₀ hu]
  have h1 := (binade_spec hx).2
  have h2 : pow2 (binade x + 1) ≤ pow2 (max (binade x) emin + 1) :=
    pow2_le (by omega)
  have h3 : pow2 (p : Int) * ulp p emin x = pow2 (max (binade x) emin + 1) := by
    unfold ulp
    rw [← pow2_add]
    congr 1
    ring
  rw [h3]
  exact lt_of_lt_of_le h1 h2

theorem pow2_int (n : Nat) : pow2 (n : Int) = (((2 : Int) ^ n : Int) : ℚ) := by
  rw [pow2_natCast]
  push_cast
  rfl

theorem roundTo_fix (p : Nat) (hp : 1 ≤ p) (emin E : Int) (hE : emin ≤ E) (k : Int)
    (u y : ℚ) (hu : u = pow2 (E - ((p : Int) - 1))) (hy : y = (k : ℚ) * u)
    (hk : |k| ≤ (2 : Int) ^ p) : roundTo p emin y = y := by
  by_cases h0 : y = 0
  · rw [h0]
    exact roundTo_zero p emin
  have hupos : 0 < u := by
    rw [hu]
    exact pow2_pos _
  have hu0 : u ≠ 0 := ne_of_gt hupos
  have huy : ulp p emin y ≠ 0 := ne_of_gt (pow2_pos _)
  have habs : |y| = ((|k| : Int) : ℚ) * u := by
    rw [hy, abs_mul, abs_of_pos hupos, Int.cast_abs]
  have hfull : pow2 (p : Int) * u = pow2 (E + 1) := by
    rw [hu, ← pow2_add]
    congr 1
    ring
  have e : y / ulp p emin y = (k : ℚ) * u / ulp p emin y := by rw [hy]
  by_cases hlt : |k| < (2 : Int) ^ p
  · have hylt : |y| < pow2 (E + 1) := by
      rw [habs, ← hfull, pow2_int]
      exact mul_lt_mul_of_pos_right (by exact_mod_cast hlt) hupos
    have hb : binade y ≤ E := binade_le h0 hylt
    obtain ⟨n, hn⟩ := Int.eq_ofNat_of_zero_le (show 0 ≤ E - max (binade y) emin by omega)
    have hsplit : u = pow2 (n : Int) * ulp p emin y := by
      unfold ulp
      rw [hu, ← pow2_add]
      congr 1
      rw [← hn]
      ring
    apply roundTo_of_int p emin y (k * (2 : Int) ^ n)
    rw [e]
    generalize ulp p emin y = uy at huy hsplit ⊢
    rw [hsplit, pow2_int]
    push_cast
    rw [← mul_assoc, mul_div_assoc, div_self huy, mul_one]
  · have hkeq : |k| = (2 : Int) ^ p := le_antisymm hk (not_lt.mp hlt)
    have hyabs : |y| = pow2 (E + 1) := by
      rw [habs, hkeq, ← pow2_int, hfull]
    have hb1 : binade y ≤ E + 1 := by
      apply binade_le h0
      rw [hyabs]
      exact pow2_lt_iff.mpr (by omega)
    have hb2 : E + 1 ≤ binade y := by
      have h2 := (binade_spec h0).2
      rw [hyabs] at h2
      have := pow2_lt_iff.mp h2
      omega
    have hEy : max (binade y) emin = E + 1 := by omega
    obtain ⟨m, hm⟩ : ∃ m : Nat, p = m + 1 := ⟨p - 1, by omega⟩
    have hsplit : ulp p emin y = 2 * u := by
      unfold ulp
      rw [hEy, hu]
      have : E + 1 - ((p : Int) - 1) = 1 + (E - ((p : Int) - 1)) := by ring
      rw [this, pow2_add]
      congr 1
    have hdiv : ∀ c : ℚ, c * 2 * u / (2 * u) = c := by
      intro c
      field_simp
      ring
    rcases (abs_eq (show (0 : Int) ≤ 2 ^ p by positivity)).mp hkeq with hpos | hneg
    · apply roundTo_of_int p emin y ((2 : Int) ^ m)
      rw [e, hsplit, hpos, hm]
      push_cast
      rw [pow_succ]
      exact hdiv _
    · apply roundTo_of_int p emin y (-(2 : Int) ^ m)
      rw [e, hsplit, hneg, hm]
      push_cast
      rw [pow_succ, neg_mul_eq_neg_mul]
      exact hdiv _

theorem roundTo_idem (p : Nat) (hp : 1 ≤ p) (emin : Int) (x : ℚ) :
    roundTo p emin (roundTo p emin x) = roundTo p emin x := by
  by_cases hx : x = 0
  · rw [hx, roundTo_zero, roundTo_zero]
  apply roundTo_fix p hp emin (max (binade x) emin) (le_max_right _ _)
    (roundHalfEven (x / ulp p emin x)) (ulp p emin x) _ rfl rfl
  apply abs_roundHalfEven_le
  rw [← pow2_int]
  exact le_of_lt (abs_quot_lt p emin hx)

theorem fltMax_bounds : fltMax < pow2 128 ∧ pow2 127 ≤ fltMax ∧ fltMax = 16777215 * pow2 104 ∧
    pow2 ((24 : Nat) : Int) = 16777216 := by
  decide!

theorem roundFloat_le_max {x : ℚ} (h : |x| ≤ fltMax) : |roundFloat x| ≤ fltMax := by
  by_cases hx : x = 0
  · rw [hx]
    have : roundFloat 0 = 0 := roundTo_zero 24 (-126)
    rw [this]
    simp only [abs_zero]
    exact le_trans (le_of_lt (pow2_pos 127)) fltMax_bounds.2.1
  have hb : binade x ≤ 127 := binade_le hx (lt_of_le_of_lt h fltMax_bounds.1)
  have hu : 0 < ulp 24 (-126) x := pow2_pos _
  have hyval : roundFloat x
      = (roundHalfEven (x / ulp 24 (-126) x) : ℚ) * ulp 24 (-126) x := rfl
  have habs : |roundFloat x|
      = (|roundHalfEven (x / ulp 24 (-126) x)| : Int) * ulp 24 (-126) x := by
    rw [hyval, abs_mul, abs_of_pos hu, Int.cast_abs]
  by_cases hE : max (binade x) (-126) = 127
  · have huval : ulp 24 (-126) x = pow2 104 := by
      unfold ulp
      rw [hE]
      rfl
    have hk : |roundHalfEven (x / ulp 24 (-126) x)| ≤ (16777215 : Int) := by
      apply abs_roundHalfEven_le
      rw [abs_div, abs_of_pos hu, div_le_iff₀ hu, huval]
      push_cast
      rw [← fltMax_bounds.2.2.1]
      exact h
    rw [habs, fltMax_bounds.2.2.1, ← huval]
    exact mul_le_mul_of_nonneg_right (by exact_mod_cast hk) (le_of_lt hu)
  · have hk : |roundHalfEven (x / ulp 24 (-126) x)| ≤ (16777216 : Int) := by
      apply abs_roundHalfEven_le
      have := abs_quot_lt 24 (-126) hx
      rw [fltMax_bounds.2.2.2] at this
      push_cast
      exact le_of_lt this
    have hfull : pow2 ((24 : Nat) : Int) * ulp 24 (-126) x = pow2 (max (binade x) (-126) + 1) := by
      unfold ulp
      rw [← pow2_add]
      congr 1
      ring
    have h1 : |roundFloat x| ≤ pow2 (max (binade x) (-126) + 1) := by
      rw [habs, ← hfull, fltMax_bounds.2.2.2]
      exact mul_le_mul_of_nonneg_right (by exact_mod_cast hk) (le_of_lt hu)
    have h2 : pow2 (max (binade x) (-126) + 1) ≤ pow2 127 := pow2_le (by omega)
    exact le_trans h1 (le_trans h2 fltMax_bounds.2.1)

theorem isFloat_roundFloat {x : ℚ} (h : |x| ≤ fltMax) : isFloat (roundFloat x) = true := by
  unfold isFloat
  simp only [Bool.and_eq_true, decide_eq_true_eq]
  exact ⟨roundFloat_le_max h, roundTo_idem 24 (by decide) (-126) x⟩

end ieee

namespace ieee

theorem roundHalfEven_bounds (q : ℚ) : ⌊q⌋ ≤ roundHalfEven q ∧ roundHalfEven q ≤ ⌊q⌋ + 1 := by
  unfold roundHalfEven
  split_ifs <;> constructor <;> omega

theorem roundHalfEven_mono {q r : ℚ} (h : q ≤ r) : roundHalfEven q ≤ roundHalfEven r := by
  have hfl : ⌊q⌋ ≤ ⌊r⌋ := Int.floor_le_floor h
  rcases lt_or_eq_of_le hfl with hlt | heq
  · have h1 := (roundHalfEven_bounds q).2
    have h2 := (roundHalfEven_bounds r).1
    omega
  · unfold roundHalfEven
    rw [heq]
    have hfr : q - (⌊r⌋ : ℚ) ≤ r - (⌊r⌋ : ℚ) := by linarith
    split_ifs <;> first | omega | (exfalso; linarith)

theorem roundHalfEven_near (q : ℚ) : (roundHalfEven q : ℚ) ≤ q + 1 / 2 := by
  have h0 : (⌊q⌋ : ℚ) ≤ q := Int.floor_le q
  unfold roundHalfEven
  split_ifs with c1 c2 c3
  · linarith
  · push_cast
    linarith
  · linarith
  · push_cast
    linarith

theorem roundHalfEven_neg (q : ℚ) : roundHalfEven (-q) = -roundHalfEven q := by
  by_cases hint : (⌊q⌋ : ℚ) = q
  · rw [← hint, ← Int.cast_neg, roundHalfEven_intCast, roundHalfEven_intCast]
  · have h0 : (⌊q⌋ : ℚ) < q := lt_of_le_of_ne (Int.floor_le q) hint
    have h1 : q < (⌊q⌋ : ℚ) + 1 := Int.lt_floor_add_one q
    have hfloor : ⌊-q⌋ = -⌊q⌋ - 1 := by
      rw [Int.floor_eq_iff]
      push_cast
      constructor <;> linarith
    unfold roundHalfEven
    rw [hfloor]
    push_cast
    split_ifs <;> first | omega | (exfalso; linarith)

theorem binade_neg (x : ℚ) : binade (-x) = binade x := by
  unfold binade
  simp

theorem ulp_neg (p : Nat) (emin : Int) (x : ℚ) : ulp p emin (-x) = ulp p emin x := by
  unfold ulp
  rw [binade_neg]

theorem roundTo_neg (p : Nat) (emin : Int) (x : ℚ) : roundTo p emin (-x) = -roundTo p emin x := by
  unfold roundTo
  rw [ulp_neg, neg_div, roundHalfEven_neg]
  push_cast
  ring

theorem roundTo_nonneg (p : Nat) (emin : Int) {x : ℚ} (h : 0 ≤ x) : 0 ≤ roundTo p emin x := by
  have hu : 0 < ulp p emin x := pow2_pos _
  unfold roundTo
  have hk : (0 : Int) ≤ roundHalfEven (x / ulp p emin x) := by
    apply le_roundHalfEven
    push_cast
    exact div_nonneg h (le_of_lt hu)
  exact mul_nonneg (by exact_mod_cast hk) (le_of_lt hu)

theorem roundTo_mono_pos (p : Nat) (hp : 1 ≤ p) (emin : Int) {x y : ℚ} (hx : 0 < x)
    (hxy : x ≤ y) : roundTo p emin x ≤ roundTo p emin y := by
  have hy : 0 < y := lt_of_lt_of_le hx hxy
  have hx0 : x ≠ 0 := ne_of_gt hx
  have hy0 : y ≠ 0 := ne_of_gt hy
  have hbx := binade_spec hx0
  have hby := binade_spec hy0
  rw [abs_of_pos hx] at hbx
  rw [abs_of_pos hy] at hby
  have hb : binade x ≤ binade y := by
    have : pow2 (binade x) < pow2 (binade y + 1) :=
      lt_of_le_of_lt hbx.1 (lt_of_le_of_lt hxy hby.2)
    have := pow2_lt_iff.mp this
    omega
  have hux : 0 < ulp p emin x := pow2_pos _
  have huy : 0 < ulp p emin y := pow2_pos _
  by_cases hE : max (binade x) emin = max (binade y) emin
  · have hu : ulp p emin x = ulp p emin y := by
      unfold ulp
      rw [hE]
    unfold roundTo
    rw [hu]
    have hq : x / ulp p emin y ≤ y / ulp p emin y := div_le_div_of_nonneg_right hxy (le_of_lt huy)
    have hk := roundHalfEven_mono hq
    exact mul_le_mul_of_nonneg_right (by exact_mod_cast hk) (le_of_lt huy)
  · have hlt : max (binade x) emin < max (binade y) emin := by omega
    have hEy : max (binade y) emin = binade y := by omega
    have hkx : roundHalfEven (x / ulp p emin x) ≤ (2 : Int) ^ p := by
      apply roundHalfEven_le
      rw [← pow2_int]
      have := abs_quot_lt p emin hx0
      rw [abs_of_pos (div_pos hx hux)] at this
      exact le_of_lt this
    have hfullx : pow2 (p : Int) * ulp p emin x = pow2 (max (binade x) emin + 1) := by
      unfold ulp
      rw [← pow2_add]
      congr 1
      ring
    have h1 : roundTo p emin x ≤ pow2 (max (binade x) emin + 1) := by
      unfold roundTo
      rw [← hfullx, pow2_int]
      exact mul_le_mul_of_nonneg_right (by exact_mod_cast hkx) (le_of_lt hux)
    have h2 : pow2 (max (binade x) emin + 1) ≤ pow2 (binade y) := pow2_le (by omega)
    obtain ⟨m, hm⟩ : ∃ m : Nat, p = m + 1 := ⟨p - 1, by omega⟩
    have hsplity : pow2 (m : Int) * ulp p emin y = pow2 (binade y) := by
      unfold ulp
      rw [hEy, ← pow2_add]
      congr 1
      rw [hm]
      push_cast
      ring
    have hky : (2 : Int) ^ m ≤ roundHalfEven (y / ulp p emin y) := by
      apply le_roundHalfEven
      rw [← pow2_int, le_div_iff₀ huy, hsplity]
      exact hby.1
    have h3 : pow2 (binade y) ≤ roundTo p emin y := by
      unfold roundTo
      rw [← hsplity, pow2_int]
      exact mul_le_mul_of_nonneg_right (by exact_mod_cast hky) (le_of_lt huy)
    exact le_trans h1 (le_trans h2 h3)

theorem roundTo_mono (p : Nat) (hp : 1 ≤ p) (emin : Int) : Monotone (roundTo p emin) := by
  intro x y hxy
  rcases lt_trichotomy 0 x with hx | hx | hx
  · exact roundTo_mono_pos p hp emin hx hxy
  · rw [← hx] at hxy ⊢
    rw [roundTo_zero]
    exact roundTo_nonneg p emin hxy
  · have hxn : roundTo p emin x ≤ 0 := by
      have := roundTo_nonneg p emin (show 0 ≤ -x by linarith)
      rw [roundTo_neg] at this
      linarith
    rcases le_or_lt 0 y with hy | hy
    · exact le_trans hxn (roundTo_nonneg p emin hy)
    · have := roundTo_mono_pos p hp emin (show 0 < -y by linarith) (show -y ≤ -x by linarith)
      rw [roundTo_neg, roundTo_neg] at this
      linarith

theorem roundDouble_mono : Monotone roundDouble := roundTo_mono 53 (by decide) (-1022)

theorem roundDouble_idem (x : ℚ) : roundDouble (roundDouble x) = roundDouble x :=
  roundTo_idem 53 (by decide) (-1022) x

theorem roundDouble_le_of_le {x z : ℚ} (hz : roundDouble z = z) (h : x ≤ z) :
    roundDouble x ≤ z := by
  rw [← hz]
  exact roundDouble_mono h

theorem roundDouble_near {t : ℚ} (h0 : 0 < t) (h1 : t < pow2 63) : roundDouble t ≤ t + 512 := by
  have ht : t ≠ 0 := ne_of_gt h0
  have hb : binade t ≤ 62 := binade_le ht (by rw [abs_of_pos h0]; exact h1)
  have hu : 0 < ulp 53 (-1022) t := pow2_pos _
  have hule : ulp 53 (-1022) t ≤ pow2 10 := by
    unfold ulp
    exact pow2_le (by push_cast; omega)
  have h10 : pow2 10 = 1024 := by decide!
  have hk := roundHalfEven_near (t / ulp 53 (-1022) t)
  have h2 : roundDouble t ≤ (t / ulp 53 (-1022) t + 1 / 2) * ulp 53 (-1022) t :=
    mul_le_mul_of_nonneg_right hk (le_of_lt hu)
  have h3 : (t / ulp 53 (-1022) t + 1 / 2) * ulp 53 (-1022) t
      = t + ulp 53 (-1022) t / 2 := by
    field_simp
    ring
  rw [h3] at h2
  rw [h10] at hule
  linarith

theorem truncate_le_of_lt {x : ℚ} {n : Int} (hn : 0 ≤ n) (h : x < (n : ℚ) + 1) :
    truncate x ≤ n := by
  unfold truncate
  by_cases h0 : 0 ≤ x
  · rw [if_pos h0]
    have : ⌊x⌋ < n + 1 := by
      rw [Int.floor_lt]
      push_cast
      exact h
    omega
  · rw [if_neg h0]
    have h1 : x ≤ ((0 : Int) : ℚ) := by
      push_cast
      linarith
    have := Int.ceil_le.mpr h1
    omega

end ieee

namespace odmr_utils.rounded

theorem sumNeighbours_fold (fl : ℚ → ℚ) (y : List ℚ) (i : Int) :
    ∀ (js : List Int) (acc : ℚ), (∀ j ∈ js, 0 ≤ j ∧ j < (y.length : Int)) →
      sumNeighbours fl y i js acc
        = some ((js.filter (fun j => decide (j ≠ i))).foldl
            (fun acc j => fl (acc + valAt y j)) acc) := by
  intro js
  induction js with
  | nil => intro acc _; simp [sumNeighbours]
  | cons j js ih =>
    intro acc hjs
    have hj := hjs j (List.mem_cons_self _ _)
    have hrest : ∀ j ∈ js, 0 ≤ j ∧ j < (y.length : Int) :=
      fun k hk => hjs k (List.mem_cons_of_mem _ hk)
    by_cases hji : j = i
    · simp [sumNeighbours, hji, ih acc hrest]
    · simp [sumNeighbours, hji, readAt_eq_valAt hj.1 hj.2, ih _ hrest]

theorem localAvg_fold (fl : ℚ → ℚ) {y : List ℚ} {window i : Int} (h1 : window ≤ i)
    (h2 : i < (y.length : Int) - window) :
    localAvg fl y window i
      = some (Dbl.round fl (Dbl.div (Dbl.fin (windowSum fl y window i))
          (Dbl.ofInt (2 * window)))) := by
  unfold localAvg
  rw [sumNeighbours_fold fl y i _ 0 (fun j hj => by rw [mem_intRange] at hj; omega)]
  rfl

theorem isCandidate_fold (fl : ℚ → ℚ) {y : List ℚ} {window i : Int} (prominence : ℚ)
    (hw : 1 ≤ window) (h1 : window ≤ i) (h2 : i < (y.length : Int) - window) :
    isCandidate fl y window prominence i
      = some (decide (fl (valAt y i + prominence)
            < fl (windowSum fl y window i / (2 * (window : ℚ)))) &&
          (decide (valAt y i ≤ valAt y (i - 1)) && decide (valAt y i ≤ valAt y (i + 1)))) := by
  have hne : ((2 * window : Int) : ℚ) ≠ 0 := by
    have : (2 * window : Int) ≠ 0 := by omega
    exact_mod_cast this
  have hcast : ((2 * window : Int) : ℚ) = 2 * (window : ℚ) := by push_cast; ring
  have hdiv : ∀ s : ℚ, Dbl.round fl (Dbl.div (Dbl.fin s) (Dbl.ofInt (2 * window)))
      = Dbl.fin (fl (s / (2 * (window : ℚ)))) := by
    intro s
    show Dbl.round fl (if ((2 * window : Int) : ℚ) = 0 then Dbl.nan
      else Dbl.fin (s / ((2 * window : Int) : ℚ))) = _
    rw [if_neg hne, hcast]
    rfl
  have hlt : ∀ a b : ℚ, Dbl.lt (Dbl.fin a) (Dbl.fin b) = decide (a < b) := fun _ _ => rfl
  unfold isCandidate
  rw [readAt_eq_valAt (by omega) (by omega), localAvg_fold fl h1 h2]
  simp only [hdiv, hlt]
  rw [intRange_three, isMin_three _ (by omega) (by omega)]
  by_cases hp : fl (valAt y i + prominence) < fl (windowSum fl y window i / (2 * (window : ℚ)))
  · simp [hp]
  · simp [hp]

theorem scanDips_filter (fl : ℚ → ℚ) (y : List ℚ) (window : Int) (prominence : ℚ) :
    ∀ (is : List Int), (∀ i ∈ is, ∃ c, isCandidate fl y window prominence i = some c) →
      scanDips fl y window prominence is
        = some (is.filter (fun i => decide (isCandidate fl y window prominence i = some true))) := by
  intro is
  induction is with
  | nil => intro _; rfl
  | cons i is ih =>
    intro h
    obtain ⟨c, hc⟩ := h i (List.mem_cons_self _ _)
    have hrest := ih (fun k hk => h k (List.mem_cons_of_mem _ hk))
    cases c <;> simp [scanDips, hc, hrest]

theorem rawDips_filter (fl : ℚ → ℚ) (y : List ℚ) {window : Int} (prominence : ℚ)
    (hw : 1 ≤ window) :
    rawDips fl y window prominence
      = some ((intRange window ((y.length : Int) - window)).filter
          (fun i => decide (isCandidate fl y window prominence i = some true))) := by
  unfold rawDips
  apply scanDips_filter
  intro i hi
  rw [mem_intRange] at hi
  exact ⟨_, isCandidate_fold fl prominence hw hi.1 hi.2⟩

theorem FindProminentDips_runs (fl : ℚ → ℚ) (y : List ℚ) {window : Int} (prominence : ℚ)
    (hw : 1 ≤ window) :
    ∃ raw, rawDips fl y window prominence = some raw ∧ raw.Pairwise (· < ·) ∧
      (∀ i ∈ raw, (window ≤ i ∧ i < (y.length : Int) - window) ∧
        isCandidate fl y window prominence i = some true) ∧
      FindProminentDips fl y window prominence
        = some ((runs (window / 2) raw).map (firstMin y)) := by
  have hraw := rawDips_filter fl y prominence hw
  have hmem : ∀ i ∈ (intRange window ((y.length : Int) - window)).filter
      (fun i => decide (isCandidate fl y window prominence i = some true)),
      (window ≤ i ∧ i < (y.length : Int) - window) ∧
        isCandidate fl y window prominence i = some true := by
    intro i hi
    simpa [List.mem_filter, mem_intRange] using hi
  refine ⟨_, hraw, (intRange_sorted _ _).filter _, hmem, ?_⟩
  unfold FindProminentDips
  rw [hraw]
  simp only []
  rw [Int.tdiv_eq_ediv (by omega) (by decide)]
  apply filteredDips_eq
  intro r hr
  have := (hmem r hr).1
  omega

theorem sumNeighbours_exact (y : List ℚ) (i : Int) :
    ∀ (js : List Int) (acc : ℚ),
      sumNeighbours (fun x => x) y i js acc = odmr_utils.sumNeighbours y i js acc := by
  intro js
  induction js with
  | nil => intro acc; rfl
  | cons j js ih =>
    intro acc
    unfold sumNeighbours odmr_utils.sumNeighbours
    by_cases hji : j = i
    · rw [if_pos hji, if_pos hji]
      exact ih acc
    · rw [if_neg hji, if_neg hji]
      cases readAt y j with
      | none => rfl
      | some v => exact ih _

theorem round_exact (d : Dbl) : Dbl.round (fun x => x) d = d := by
  cases d <;> rfl

theorem isCandidate_exact (y : List ℚ) (window : Int) (prominence : ℚ) (i : Int) :
    isCandidate (fun x => x) y window prominence i
      = odmr_utils.isCandidate y window prominence i := by
  unfold isCandidate odmr_utils.isCandidate localAvg odmr_utils.localAvg
  rw [sumNeighbours_exact]
  simp only [round_exact]

theorem scanDips_exact (y : List ℚ) (window : Int) (prominence : ℚ) :
    ∀ is : List Int, scanDips (fun x => x) y window prominence is
      = odmr_utils.scanDips y window prominence is := by
  intro is
  induction is with
  | nil => rfl
  | cons i is ih =>
    unfold scanDips odmr_utils.scanDips
    rw [isCandidate_exact, ih]

theorem FindProminentDips_exact (y : List ℚ) (window : Int) (prominence : ℚ) :
    FindProminentDips (fun x => x) y window prominence
      = odmr_utils.FindProminentDips y window prominence := by
  unfold FindProminentDips odmr_utils.FindProminentDips rawDips odmr_utils.rawDips
  rw [scanDips_exact]

end odmr_utils.rounded

namespace odmr_utils

/-- C4 as stated fails. On the signal `{0.6, 1.1, 0.5, 0.6, 1.3}` with window 2 and
prominence 0.4 (the `double` values of these literals) the program returns index
2, although `y[2] + prominence` equals the mean of the four neighbours: the sum
`0.6 + 1.1` is rounded up in `double`, which makes the computed `localAvg`
larger than the mean. In exact arithmetic nothing is returned. -/
theorem FindProminentDips_rounded_tie :
    rounded.FindProminentDips ieee.roundDouble rounded.tieSignal 2 (ieee.roundDouble (4 / 10))
      = some [2] ∧
    valAt rounded.tieSignal 2 + ieee.roundDouble (4 / 10)
      = neighbourSum rounded.tieSignal 2 2 / (2 * ((2 : Int) : ℚ)) ∧
    ieee.roundDouble (valAt rounded.tieSignal 2 + ieee.roundDouble (4 / 10))
      < ieee.roundDouble
          (rounded.windowSum ieee.roundDouble rounded.tieSignal 2 2 / (2 * ((2 : Int) : ℚ))) ∧
    FindProminentDips rounded.tieSignal 2 (ieee.roundDouble (4 / 10)) = some [] := by
  decide!

/-- C4, amended. For a window of at least 1 the function returns a list, and every
returned index `i` passed the test on the values that the program computes in
`double` arithmetic: the rounded sum `y[i] + prominence` is strictly below the
computed local average, the neighbours added in index order with every addition
rounded and the sum divided by `2 * window`; an index where these two computed
values are equal is not returned. This holds for every rounding `fl`; with no
rounding the function is the exact one, for which the sum is the exact sum and
the local average the exact mean. -/
theorem FindProminentDips_prominent (fl : ℚ → ℚ) (y : List ℚ) (window : Int)
    (prominence : ℚ) (hw : 1 ≤ window) :
    (∃ dips, rounded.FindProminentDips fl y window prominence = some dips ∧
      (∀ i ∈ dips, fl (valAt y i + prominence)
        < fl (rounded.windowSum fl y window i / (2 * (window : ℚ)))) ∧
      (∀ i, fl (valAt y i + prominence)
          = fl (rounded.windowSum fl y window i / (2 * (window : ℚ))) → i ∉ dips)) ∧
    rounded.FindProminentDips (fun x => x) y window prominence
      = FindProminentDips y window prominence ∧
    (∃ dips, FindProminentDips y window prominence = some dips ∧
      (∀ i ∈ dips, valAt y i + prominence < neighbourSum y window i / (2 * (window : ℚ))) ∧
      (∀ i, valAt y i + prominence = neighbourSum y window i / (2 * (window : ℚ)) →
        i ∉ dips)) := by
  have hw0 : 0 ≤ window := by omega
  refine ⟨?_, rounded.FindProminentDips_exact y window prominence, ?_⟩
  · obtain ⟨raw, _, hs, hmemraw, hres⟩ := rounded.FindProminentDips_runs fl y prominence hw
    have hmem : ∀ i ∈ (runs (window / 2) raw).map (firstMin y),
        fl (valAt y i + prominence)
          < fl (rounded.windowSum fl y window i / (2 * (window : ℚ))) := by
      intro i hi
      obtain ⟨hb, hc⟩ := hmemraw i (dips_mem_raw hs hi)
      rw [rounded.isCandidate_fold fl prominence hw hb.1 hb.2] at hc
      simp only [Option.some.injEq, Bool.and_eq_true, decide_eq_true_eq] at hc
      exact hc.1
    refine ⟨_, hres, hmem, ?_⟩
    intro i heq hi
    exact absurd (hmem i hi) (by rw [heq]; exact lt_irrefl _)
  · obtain ⟨raw, hraw, hres⟩ := FindProminentDips_eq y prominence hw0
    have hmem : ∀ i ∈ (runs (window / 2) raw).map (firstMin y),
        valAt y i + prominence < neighbourSum y window i / (2 * (window : ℚ)) := by
      intro i hi
      obtain ⟨hb, hc⟩ := (raw_mem hw0 hraw).mp (dips_mem_raw (raw_sorted hw0 hraw) hi)
      rw [isCandidate_eq prominence hw hb.1 hb.2] at hc
      simp only [Option.some.injEq, Bool.and_eq_true, decide_eq_true_eq] at hc
      exact hc.1
    refine ⟨_, hres, hmem, ?_⟩
    intro i heq hi
    exact absurd (hmem i hi) (by rw [heq]; exact lt_irrefl _)

/-- C4, amended, in `double` arithmetic on the signal `{0.6, 1.1, 0.5, 0.6, 1.3}`
with window 2 and prominence 0.4, where index 2 is returned, and in exact
arithmetic on the signal `{1.0, 1.0, 0.2, 1.0, 1.0}` with window 1 and prominence
0.5, where index 2 is returned. -/
theorem FindProminentDips_prominent_witness :
    ((1 : Int) ≤ 2 ∧
      rounded.FindProminentDips ieee.roundDouble rounded.tieSignal 2
        (ieee.roundDouble (4 / 10)) = some [2] ∧
      ∃ dips, rounded.FindProminentDips ieee.roundDouble rounded.tieSignal 2
          (ieee.roundDouble (4 / 10)) = some dips ∧
        (∀ i ∈ dips,
          ieee.roundDouble (valAt rounded.tieSignal i + ieee.roundDouble (4 / 10))
            < ieee.roundDouble (rounded.windowSum ieee.roundDouble rounded.tieSignal 2 i
                / (2 * ((2 : Int) : ℚ)))) ∧
        (∀ i, ieee.roundDouble (valAt rounded.tieSignal i + ieee.roundDouble (4 / 10))
            = ieee.roundDouble (rounded.windowSum ieee.roundDouble rounded.tieSignal 2 i
                / (2 * ((2 : Int) : ℚ))) → i ∉ dips)) ∧
    ((1 : Int) ≤ 1 ∧ FindProminentDips singleDip 1 (1 / 2) = some [2] ∧
      ∃ dips, FindProminentDips singleDip 1 (1 / 2) = some dips ∧
        (∀ i ∈ dips, valAt singleDip i + 1 / 2
          < neighbourSum singleDip 1 i / (2 * ((1 : Int) : ℚ))) ∧
        (∀ i, valAt singleDip i + 1 / 2 = neighbourSum singleDip 1 i / (2 * ((1 : Int) : ℚ)) →
          i ∉ dips)) :=
  ⟨⟨by decide, by decide!,
      (FindProminentDips_prominent ieee.roundDouble rounded.tieSignal 2
        (ieee.roundDouble (4 / 10)) (by decide)).1⟩,
    ⟨by decide, by decide!,
      (FindProminentDips_prominent (fun x => x) singleDip 1 (1 / 2) (by decide)).2.2⟩⟩

/-- C6 (violated by the code). On the plateau `{1.0, 0.2, 0.2, 1.0}` with window 1
and prominence 0.3 no index passes the phase-1 test of the specification, whose
comparison with the immediate neighbours is strict, yet the function returns the
indices 1 and 2: its phase 1 lets a neighbour equal to the centre pass (the
defect of C1), and with window 1 phase 2 merges nothing, so both candidates are
returned. -/
theorem FindProminentDips_window_one_plateau :
    (intRange 1 ((plateau.length : Int) - 1)).filter (specCandidate plateau 1 (3 / 10)) = [] ∧
    rawDips plateau 1 (3 / 10) = some [1, 2] ∧
    FindProminentDips plateau 1 (3 / 10) = some [1, 2] ∧
    rounded.FindProminentDips ieee.roundDouble
      [1, ieee.roundDouble (2 / 10), ieee.roundDouble (2 / 10), 1] 1
      (ieee.roundDouble (3 / 10)) = some [1, 2] := by
  decide!

end odmr_utils

namespace odmr_utils

theorem requests_succ (fl : ℚ → ℚ) (clock : Nat → Int) (dl : ℚ) (m : Nat) :
    requests fl clock dl (m + 1)
      = requests fl clock dl m ++
        (if remaining fl clock dl (2 * m + 2) > 2000 then
          [(2 * m + 2, remaining fl clock dl (2 * m + 2) / 2)] else []) := by
  unfold requests
  rw [List.range_succ, List.map_append, List.filter_append, List.map_append]
  by_cases h : remaining fl clock dl (2 * m + 2) > 2000
  · simp [h]
  · simp [h]

theorem sleepLoop_requests (fl : ℚ → ℚ) (clock : Nat → Int) (dl : ℚ) :
    ∀ (fuel m : Nat) (r : Nat × List (Nat × Int)),
      sleepLoop fl clock dl fuel (2 * m + 1) (requests fl clock dl m) = some r →
      ∃ n, r.1 = 2 * n + 1 ∧ r.2 = requests fl clock dl n ∧
        ¬ fl (clock r.1 : ℚ) < dl := by
  intro fuel
  induction fuel with
  | zero => intro m r h; simp [sleepLoop] at h
  | succ fuel ih =>
    intro m r h
    unfold sleepLoop at h
    by_cases hc : fl (clock (2 * m + 1) : ℚ) < dl
    · rw [if_pos hc] at h
      have hreq := requests_succ fl clock dl m
      have hk : 2 * m + 1 + 2 = 2 * (m + 1) + 1 := by ring
      have hj : 2 * m + 1 + 1 = 2 * m + 2 := by ring
      rw [hj, hk] at h
      by_cases hr : remaining fl clock dl (2 * m + 2) > 2000
      · rw [if_pos hr] at h
        rw [if_pos hr] at hreq
        rw [Int.tdiv_eq_ediv (by omega) (by decide), ← hreq] at h
        exact ih (m + 1) r h
      · rw [if_neg hr] at h
        rw [if_neg hr, List.append_nil] at hreq
        rw [← hreq] at h
        exact ih (m + 1) r h
    · rw [if_neg hc] at h
      cases h
      exact ⟨m, rfl, rfl, hc⟩

theorem mem_requests {fl : ℚ → ℚ} {clock : Nat → Int} {dl : ℚ} {m : Nat} {p : Nat × Int}
    (hp : p ∈ requests fl clock dl m) :
    ∃ t, t < m ∧ p.1 = 2 * t + 2 ∧ remaining fl clock dl p.1 > 2000 ∧
      p.2 = remaining fl clock dl p.1 / 2 := by
  unfold requests at hp
  simp only [List.mem_map, List.mem_filter, List.mem_range, decide_eq_true_eq] at hp
  obtain ⟨j, ⟨⟨t, ht, rfl⟩, hr⟩, rfl⟩ := hp
  exact ⟨t, ht, rfl, hr, rfl⟩

theorem truncate_le {x : ℚ} {n : Int} (hn : 0 ≤ n) (h : x ≤ (n : ℚ)) : ieee.truncate x ≤ n := by
  unfold ieee.truncate
  by_cases h0 : 0 ≤ x
  · rw [if_pos h0]
    have := Int.floor_le_floor h
    rwa [Int.floor_intCast] at this
  · rw [if_neg h0]
    have h1 : x ≤ ((0 : Int) : ℚ) := by
      push_cast
      linarith
    have := Int.ceil_le.mpr h1
    omega

theorem milliClock_from_start (j : Nat) : milliClock 0 ≤ milliClock j := by
  unfold milliClock
  omega

/-- C21 (violated by the code). Entered when the system clock reads
1 800 000 000 000 000 127 ns (15 January 2027, 08:00 UTC) for a sleep of
`0.001` s, the function computes `end` in `double` nanoseconds as
`start + 999 809`: the conversion of `start` to `double` drops 127 ns and the sum
is rounded down by 64 ns more. At the reading `start + 999 700` the loop test
`now() < end` compares the `double` value of the reading, which is `end` itself,
and is false: the function returns 999 700 ns after `start`, before
`start + duration_seconds`. With exact arithmetic it polls on. -/
theorem accurate_sleep_returns_early :
    deadline ieee.roundDouble (ieee.roundDouble (1 / 1000)) (pollClock 0)
      = ((pollClock 0 + 999809 : Int) : ℚ) ∧
    ieee.roundDouble (pollClock 5 : ℚ) = ((pollClock 0 + 999809 : Int) : ℚ) ∧
    accurate_sleep ieee.roundDouble (ieee.roundDouble (1 / 1000)) pollClock 3 = some (5, []) ∧
    pollClock 5 - pollClock 0 = 999700 ∧
    (pollClock 5 : ℚ) < (pollClock 0 : ℚ) + ieee.roundDouble (1 / 1000) * 1000000000 ∧
    accurate_sleep (fun x => x) (ieee.roundDouble (1 / 1000)) pollClock 4 = some (7, []) := by
  decide!

/-- C22 as stated fails on a clock that is set back: with the readings of
`backClock`, a sleep of `1/1024` s (less than 2 ms) finds 10 976 microseconds
remaining at the reading after the first test and requests a suspension of 5488
microseconds, and a sleep of zero duration enters the loop body, the first test
reading being below the entry reading, and requests a suspension of 5000
microseconds. -/
theorem accurate_sleep_clock_set_back :
    (1 / 1024 : ℚ) ≤ 2 / 1000 ∧
    accurate_sleep ieee.roundDouble (1 / 1024) backClock 2 = some (3, [(2, 5488)]) ∧
    accurate_sleep ieee.roundDouble 0 backClock 2 = some (3, [(2, 5000)]) ∧
    backClock 1 < backClock 0 := by
  decide!

theorem requests_nil {fl : ℚ → ℚ} {clock : Nat → Int} {dl : ℚ}
    (h : ∀ j, remaining fl clock dl j ≤ 2000) (m : Nat) : requests fl clock dl m = [] := by
  unfold requests
  rw [List.filter_eq_nil_iff.mpr]
  · rfl
  · intro j _
    have := h j
    simp only [gt_iff_lt, decide_eq_true_eq, not_lt]
    exact this

theorem remaining_short_double (d : ℚ) (clock : Nat → Int) (hclock : ∀ j, clock 0 ≤ clock j)
    (h0 : 0 ≤ clock 0) (h1 : clock 0 ≤ 4611686018427387904)
    (hd : d ≤ ieee.roundDouble (2 / 1000)) (j : Nat) :
    remaining ieee.roundDouble clock (deadline ieee.roundDouble d (clock 0)) j ≤ 2000 := by
  have ha0 : 0 ≤ ieee.roundDouble (clock 0 : ℚ) :=
    ieee.roundTo_nonneg 53 (-1022) (by exact_mod_cast h0)
  have ha1 : ieee.roundDouble (clock 0 : ℚ) ≤ 4611686018427387904 :=
    ieee.roundDouble_le_of_le (by decide!) (by exact_mod_cast h1)
  have hD : ieee.roundDouble (d * 1000000000) ≤ 2000000 := by
    have h2 : d * 1000000000 ≤ ieee.roundDouble (2 / 1000) * 1000000000 :=
      mul_le_mul_of_nonneg_right hd (by norm_num)
    have h3 : ieee.roundDouble (ieee.roundDouble (2 / 1000) * 1000000000) = 2000000 := by
      decide!
    rw [← h3]
    exact ieee.roundDouble_mono h2
  have hp63 : ieee.pow2 63 = 9223372036854775808 := by decide!
  have hend : deadline ieee.roundDouble d (clock 0)
      ≤ ieee.roundDouble (clock 0 : ℚ) + 2000000 + 512 := by
    unfold deadline
    refine le_trans (ieee.roundDouble_mono
      (show ieee.roundDouble (clock 0 : ℚ) + ieee.roundDouble (d * 1000000000)
        ≤ ieee.roundDouble (clock 0 : ℚ) + 2000000 by linarith)) ?_
    apply ieee.roundDouble_near
    · linarith
    · rw [hp63]
      linarith
  have hb : ieee.roundDouble (clock 0 : ℚ) ≤ ieee.roundDouble (clock j : ℚ) :=
    ieee.roundDouble_mono (by exact_mod_cast hclock j)
  have hw : ieee.roundDouble
      (deadline ieee.roundDouble d (clock 0) - ieee.roundDouble (clock j : ℚ)) ≤ 2000512 :=
    ieee.roundDouble_le_of_le (by decide!) (by linarith)
  have hq : ieee.roundDouble (ieee.roundDouble
      (deadline ieee.roundDouble d (clock 0) - ieee.roundDouble (clock j : ℚ)) / 1000)
        ≤ 8003 / 4 :=
    ieee.roundDouble_le_of_le (by decide!) (by linarith)
  unfold remaining toMicroseconds
  apply ieee.truncate_le_of_lt (by decide)
  push_cast
  linarith

theorem deadline_nonpos_double (d : ℚ) (start : Int) (hd : d ≤ 0) :
    deadline ieee.roundDouble d start ≤ ieee.roundDouble (start : ℚ) := by
  have hD : ieee.roundDouble (d * 1000000000) ≤ 0 :=
    ieee.roundDouble_le_of_le (ieee.roundTo_zero 53 (-1022))
      (mul_nonpos_of_nonpos_of_nonneg hd (by norm_num))
  unfold deadline
  exact ieee.roundDouble_le_of_le (ieee.roundDouble_idem _) (by linarith)

/-- C22, amended. Whenever `accurate_sleep` returns, after `m` turns of its loop,
its `sleep_for` calls are exactly those of `requests`: one in each turn where the
count `remaining`, computed from the reading taken in that turn right after the
loop test, exceeds 2000 microseconds, for half of that count, which is less than
the count. This holds for every rounding `fl` of the `double` operations. On a
clock that never reads less than on entry, in the `double` arithmetic of the
program as in exact arithmetic: a duration of at most 2 ms (at most the `double`
`0.002`, for an entry reading between the epoch of the clock and `2 ^ 62` ns
after it) makes no `sleep_for` call, and a duration that is zero or negative ends
at the first loop test, without entering the loop body. -/
theorem accurate_sleep_suspends (fl : ℚ → ℚ) (d : ℚ) (clock : Nat → Int) :
    (∀ (fuel k : Nat) (sleeps : List (Nat × Int)),
      accurate_sleep fl d clock fuel = some (k, sleeps) →
      ∃ m, k = 2 * m + 1 ∧ sleeps = requests fl clock (deadline fl d (clock 0)) m ∧
        ∀ p ∈ sleeps, (∃ t, t < m ∧ p.1 = 2 * t + 2) ∧
          2000 < remaining fl clock (deadline fl d (clock 0)) p.1 ∧
          p.2 = remaining fl clock (deadline fl d (clock 0)) p.1 / 2 ∧
          p.2 < remaining fl clock (deadline fl d (clock 0)) p.1) ∧
    ((∀ j, clock 0 ≤ clock j) → 0 ≤ clock 0 → clock 0 ≤ 4611686018427387904 →
      d ≤ ieee.roundDouble (2 / 1000) →
      ∀ (fuel k : Nat) (sleeps : List (Nat × Int)),
        accurate_sleep ieee.roundDouble d clock fuel = some (k, sleeps) → sleeps = []) ∧
    ((∀ j, clock 0 ≤ clock j) → d ≤ 0 →
      ∀ fuel : Nat, accurate_sleep ieee.roundDouble d clock (fuel + 1) = some (1, [])) ∧
    ((∀ j, clock 0 ≤ clock j) → d ≤ 2 / 1000 →
      ∀ (fuel k : Nat) (sleeps : List (Nat × Int)),
        accurate_sleep (fun x => x) d clock fuel = some (k, sleeps) → sleeps = []) ∧
    ((∀ j, clock 0 ≤ clock j) → d ≤ 0 →
      ∀ fuel : Nat, accurate_sleep (fun x => x) d clock (fuel + 1) = some (1, [])) := by
  have hmain : ∀ (g : ℚ → ℚ) (fuel k : Nat) (sleeps : List (Nat × Int)),
      accurate_sleep g d clock fuel = some (k, sleeps) →
      ∃ m, k = 2 * m + 1 ∧ sleeps = requests g clock (deadline g d (clock 0)) m := by
    intro g fuel k sleeps h
    obtain ⟨n, h1, h2, _⟩ :=
      sleepLoop_requests g clock (deadline g d (clock 0)) fuel 0 (k, sleeps) h
    exact ⟨n, h1, h2⟩
  refine ⟨?_, ?_, ?_, ?_, ?_⟩
  · intro fuel k sleeps h
    obtain ⟨m, hk, hs⟩ := hmain fl fuel k sleeps h
    refine ⟨m, hk, hs, ?_⟩
    intro p hp
    rw [hs] at hp
    obtain ⟨t, ht, hj, hr, hv⟩ := mem_requests hp
    exact ⟨⟨t, ht, hj⟩, hr, hv, by omega⟩
  · intro hclock h0 h1 hd fuel k sleeps h
    obtain ⟨m, _, hs⟩ := hmain ieee.roundDouble fuel k sleeps h
    rw [hs]
    exact requests_nil (remaining_short_double d clock hclock h0 h1 hd) m
  · intro hclock hd fuel
    have hc : ¬ ieee.roundDouble (clock 1 : ℚ) < deadline ieee.roundDouble d (clock 0) := by
      have h1 := deadline_nonpos_double d (clock 0) hd
      have h2 : ieee.roundDouble (clock 0 : ℚ) ≤ ieee.roundDouble (clock 1 : ℚ) :=
        ieee.roundDouble_mono (by exact_mod_cast hclock 1)
      exact not_lt.mpr (le_trans h1 h2)
    show sleepLoop ieee.roundDouble clock (deadline ieee.roundDouble d (clock 0)) (fuel + 1) 1 []
      = some (1, [])
    rw [sleepLoop, if_neg hc]
  · intro hclock hd fuel k sleeps h
    obtain ⟨m, _, hs⟩ := hmain (fun x => x) fuel k sleeps h
    rw [hs]
    apply requests_nil
    intro j
    unfold remaining toMicroseconds deadline
    apply truncate_le (by decide)
    have hj : ((clock 0 : Int) : ℚ) ≤ ((clock j : Int) : ℚ) := by exact_mod_cast hclock j
    push_cast
    linarith
  · intro hclock hd fuel
    have hc : ¬ ((clock 1 : Int) : ℚ) < deadline (fun x => x) d (clock 0) := by
      have hj : ((clock 0 : Int) : ℚ) ≤ ((clock 1 : Int) : ℚ) := by exact_mod_cast hclock 1
      show ¬ ((clock 1 : Int) : ℚ) < ((clock 0 : Int) : ℚ) + d * 1000000000
      exact not_lt.mpr (by linarith)
    show sleepLoop (fun x => x) clock (deadline (fun x => x) d (clock 0)) (fuel + 1) 1 []
      = some (1, [])
    rw [sleepLoop, if_neg hc]

/-- C22, amended, in `double` arithmetic on a clock that advances by 1 ms per
reading from 1 s: a sleep of `0.01` s makes three `sleep_for` calls, of 4000, 3000
and 2000 microseconds, from the readings 2, 4 and 6; one of `0.002` s makes none;
one of 0 s ends at the first test. -/
theorem accurate_sleep_suspends_witness :
    (accurate_sleep ieee.roundDouble (ieee.roundDouble (1 / 100)) milliClock 6
        = some (11, [(2, 4000), (4, 3000), (6, 2000)]) ∧
      (∀ j, milliClock 0 ≤ milliClock j) ∧ 0 ≤ milliClock 0 ∧
      milliClock 0 ≤ 4611686018427387904 ∧
      ieee.roundDouble (2 / 1000) ≤ ieee.roundDouble (2 / 1000) ∧ (0 : ℚ) ≤ 0 ∧
      accurate_sleep ieee.roundDouble (ieee.roundDouble (2 / 1000)) milliClock 2
        = some (3, [])) ∧
    (∃ m, 11 = 2 * m + 1 ∧
      [((2 : Nat), (4000 : Int)), (4, 3000), (6, 2000)]
        = requests ieee.roundDouble milliClock
            (deadline ieee.roundDouble (ieee.roundDouble (1 / 100)) (milliClock 0)) m ∧
      ∀ p ∈ [((2 : Nat), (4000 : Int)), (4, 3000), (6, 2000)],
        (∃ t, t < m ∧ p.1 = 2 * t + 2) ∧
        2000 < remaining ieee.roundDouble milliClock
          (deadline ieee.roundDouble (ieee.roundDouble (1 / 100)) (milliClock 0)) p.1 ∧
        p.2 = remaining ieee.roundDouble milliClock
          (deadline ieee.roundDouble (ieee.roundDouble (1 / 100)) (milliClock 0)) p.1 / 2 ∧
        p.2 < remaining ieee.roundDouble milliClock
          (deadline ieee.roundDouble (ieee.roundDouble (1 / 100)) (milliClock 0)) p.1) ∧
    ([] : List (Nat × Int)) = [] ∧
    (∀ fuel : Nat, accurate_sleep ieee.roundDouble 0 milliClock (fuel + 1) = some (1, [])) :=
  have hret : accurate_sleep ieee.roundDouble (ieee.roundDouble (1 / 100)) milliClock 6
      = some (11, [(2, 4000), (4, 3000), (6, 2000)]) := by decide!
  have hshort : accurate_sleep ieee.roundDouble (ieee.roundDouble (2 / 1000)) milliClock 2
      = some (3, []) := by
    decide!
  have h0 : 0 ≤ milliClock 0 := by decide
  have h1 : milliClock 0 ≤ 4611686018427387904 := by decide
  ⟨⟨hret, milliClock_from_start, h0, h1, le_refl _, le_refl _, hshort⟩,
    (accurate_sleep_suspends ieee.roundDouble (ieee.roundDouble (1 / 100)) milliClock).1
      6 11 _ hret,
    (accurate_sleep_suspends ieee.roundDouble (ieee.roundDouble (2 / 1000)) milliClock).2.1
      milliClock_from_start h0 h1 (le_refl _) 2 3 [] hshort,
    (accurate_sleep_suspends ieee.roundDouble 0 milliClock).2.2.1
      milliClock_from_start (le_refl _)⟩

end odmr_utils

namespace cpp

theorem floatOfDouble_val (f : Float32) : floatOfDouble f.val = some f := by
  have hp := f.property
  unfold ieee.isFloat at hp
  simp only [Bool.and_eq_true, decide_eq_true_eq] at hp
  have h : ieee.isFloat (ieee.roundFloat f.val) = true := by
    rw [hp.2]
    exact f.property
  unfold floatOfDouble
  rw [if_pos hp.1, dif_pos h]
  exact congrArg some (Subtype.ext hp.2)

theorem floatOfDouble_defined {x : ℚ} (h : |x| ≤ ieee.fltMax) :
    ∃ f : Float32, floatOfDouble x = some f ∧ f.val = ieee.roundFloat x := by
  unfold floatOfDouble
  rw [if_pos h, dif_pos (ieee.isFloat_roundFloat h)]
  exact ⟨_, rfl, rfl⟩

theorem intOfDouble_defined {x : ℚ}
    (h : -2147483648 ≤ ieee.truncate x ∧ ieee.truncate x ≤ 2147483647) :
    ∃ c : Int32, intOfDouble x = some c ∧ c.val = ieee.truncate x := by
  unfold intOfDouble
  rw [dif_pos h]
  exact ⟨_, rfl, rfl⟩

theorem intOfInt64_val (c : Int32) : intOfInt64 c.val = c := by
  apply Subtype.ext
  have hp := c.property
  show (c.val + 2147483648) % 4294967296 - 2147483648 = c.val
  omega

theorem intOfInt64_congruent (n : Int) :
    ((intOfInt64 n).val - n) % 4294967296 = 0 := by
  show ((n + 2147483648) % 4294967296 - 2147483648 - n) % 4294967296 = 0
  omega

end cpp

namespace UserSettings

open nlohmann

theorem get_to_float_val (f : cpp.Float32) :
    get_to_float (value.number_float f.val) = Got.stored f := by
  show (match cpp.floatOfDouble f.val with
    | some f => Got.stored f
    | none => Got.undefined) = Got.stored f
  rw [cpp.floatOfDouble_val]

theorem get_to_int_val (c : cpp.Int32) :
    get_to_int (value.number_integer c.val) = Got.stored c := by
  show Got.stored (cpp.intOfInt64 c.val) = Got.stored c
  rw [cpp.intOfInt64_val]

/-- C23. Settings round trip: `t.from_json(s.to_json())` returns normally and
leaves `t` with all ten members equal to those of `s`, for all settings `s` and
`t`; so `Load` after `Save` of `s` restores `s`, whatever the settings `t` were
edited to in between. -/
theorem from_json_to_json (s t : UserSettings) :
    t.from_json s.to_json = Except.ok s ∧
    SettingsManager.Load t (SettingsManager.Save s) = Except.ok s := by
  have h : t.from_json s.to_json = Except.ok s := by
    simp [from_json, to_json, store, readFloat, readInt, List.lookup, get_to_float_val,
      get_to_int_val, bind, Except.bind]
  exact ⟨h, h⟩

end UserSettings

namespace UserSettings

open nlohmann

theorem readFloat_converts (j : json) (key : String) (hkey : key ∈ floatKeys)
    (hj : Converts j) (old : cpp.Float32) :
    readFloat j key old = Got.stored (floatField old (j.lookup key)) := by
  unfold readFloat floatField
  cases h : j.lookup key with
  | none => rfl
  | some v =>
    obtain ⟨x, hx⟩ := hj.1 key hkey v h
    simp [hx]

theorem readInt_converts (j : json) (key : String) (hkey : key ∈ intKeys)
    (hj : Converts j) (old : cpp.Int32) :
    readInt j key old = Got.stored (intField old (j.lookup key)) := by
  unfold readInt intField
  cases h : j.lookup key with
  | none => rfl
  | some v =>
    obtain ⟨x, hx⟩ := hj.2 key hkey v h
    simp [hx]

theorem after_bind (P : UserSettings → Prop) (m : Except Stop UserSettings)
    (f : UserSettings → Except Stop UserSettings)
    (hm : ∀ s1, after m = some s1 → P s1)
    (hf : ∀ s1, P s1 → ∀ s2, after (f s1) = some s2 → P s2) :
    ∀ s2, after (m >>= f) = some s2 → P s2 := by
  cases m with
  | error e => exact hm
  | ok a => exact hf a (hm a rfl)

theorem store_keeps {α : Type} (P : UserSettings → Prop) (r : Got α) (s1 : UserSettings)
    (set : α → UserSettings) (h1 : P s1) (hset : ∀ x, r = Got.stored x → P (set x)) :
    ∀ s2, after (store r s1 set) = some s2 → P s2 := by
  intro s2 h
  cases r with
  | stored x =>
    cases h
    exact hset x rfl
  | type_error =>
    cases h
    exact h1
  | undefined => cases h

theorem from_json_keeps (s : UserSettings) (j : json) :
    ∀ s', after (s.from_json j) = some s' → KeepsAbsent j s s' := by
  have h0 : KeepsAbsent j s s := by simp [KeepsAbsent]
  unfold from_json
  refine after_bind _ _ _ (store_keeps _ _ _ _ h0 ?_) (fun s1 h1 => ?_)
  · intro x hx
    simp only [readFloat, readInt] at hx
    split at hx
    · cases hx
      exact h0
    · rename_i v heq
      obtain ⟨a1, a2, a3, a4, a5, a6, a7, a8, a9, a10⟩ := h0
      refine ⟨?_, ?_, ?_, ?_, ?_, ?_, ?_, ?_, ?_, ?_⟩ <;>
        first
          | assumption
          | (intro hn; rw [hn] at heq; cases heq)
  refine after_bind _ _ _ (store_keeps _ _ _ _ h1 ?_) (fun s2 h2 => ?_)
  · intro x hx
    simp only [readFloat, readInt] at hx
    split at hx
    · cases hx
      exact h1
    · rename_i v heq
      obtain ⟨a1, a2, a3, a4, a5, a6, a7, a8, a9, a10⟩ := h1
      refine ⟨?_, ?_, ?_, ?_, ?_, ?_, ?_, ?_, ?_, ?_⟩ <;>
        first
          | assumption
          | (intro hn; rw [hn] at heq; cases heq)
  refine after_bind _ _ _ (store_keeps _ _ _ _ h2 ?_) (fun s3 h3 => ?_)
  · intro x hx
    simp only [readFloat, readInt] at hx
    split at hx
    · cases hx
      exact h2
    · rename_i v heq
      obtain ⟨a1, a2, a3, a4, a5, a6, a7, a8, a9, a10⟩ := h2
      refine ⟨?_, ?_, ?_, ?_, ?_, ?_, ?_, ?_, ?_, ?_⟩ <;>
        first
          | assumption
          | (intro hn; rw [hn] at heq; cases heq)
  refine after_bind _ _ _ (store_keeps _ _ _ _ h3 ?_) (fun s4 h4 => ?_)
  · intro x hx
    simp only [readFloat, readInt] at hx
    split at hx
    · cases hx
      exact h3
    · rename_i v heq
      obtain ⟨a1, a2, a3, a4, a5, a6, a7, a8, a9, a10⟩ := h3
      refine ⟨?_, ?_, ?_, ?_, ?_, ?_, ?_, ?_, ?_, ?_⟩ <;>
        first
          | assumption
          | (intro hn; rw [hn] at heq; cases heq)
  refine after_bind _ _ _ (store_keeps _ _ _ _ h4 ?_) (fun s5 h5 => ?_)
  · intro x hx
    simp only [readFloat, readInt] at hx
    split at hx
    · cases hx
      exact h4
    · rename_i v heq
      obtain ⟨a1, a2, a3, a4, a5, a6, a7, a8, a9, a10⟩ := h4
      refine ⟨?_, ?_, ?_, ?_, ?_, ?_, ?_, ?_, ?_, ?_⟩ <;>
        first
          | assumption
          | (intro hn; rw [hn] at heq; cases heq)
  refine after_bind _ _ _ (store_keeps _ _ _ _ h5 ?_) (fun s6 h6 => ?_)
  · intro x hx
    simp only [readFloat, readInt] at hx
    split at hx
    · cases hx
      exact h5
    · rename_i v heq
      obtain ⟨a1, a2, a3, a4, a5, a6, a7, a8, a9, a10⟩ := h5
      refine ⟨?_, ?_, ?_, ?_, ?_, ?_, ?_, ?_, ?_, ?_⟩ <;>
        first
          | assumption
          | (intro hn; rw [hn] at heq; cases heq)
  refine after_bind _ _ _ (store_keeps _ _ _ _ h6 ?_) (fun s7 h7 => ?_)
  · intro x hx
    simp only [readFloat, readInt] at hx
    split at hx
    · cases hx
      exact h6
    · rename_i v heq
      obtain ⟨a1, a2, a3, a4, a5, a6, a7, a8, a9, a10⟩ := h6
      refine ⟨?_, ?_, ?_, ?_, ?_, ?_, ?_, ?_, ?_, ?_⟩ <;>
        first
          | assumption
          | (intro hn; rw [hn] at heq; cases heq)
  refine after_bind _ _ _ (store_keeps _ _ _ _ h7 ?_) (fun s8 h8 => ?_)
  · intro x hx
    simp only [readFloat, readInt] at hx
    split at hx
    · cases hx
      exact h7
    · rename_i v heq
      obtain ⟨a1, a2, a3, a4, a5, a6, a7, a8, a9, a10⟩ := h7
      refine ⟨?_, ?_, ?_, ?_, ?_, ?_, ?_, ?_, ?_, ?_⟩ <;>
        first
          | assumption
          | (intro hn; rw [hn] at heq; cases heq)
  refine after_bind _ _ _ (store_keeps _ _ _ _ h8 ?_) (fun s9 h9 => ?_)
  · intro x hx
    simp only [readFloat, readInt] at hx
    split at hx
    · cases hx
      exact h8
    · rename_i v heq
      obtain ⟨a1, a2, a3, a4, a5, a6, a7, a8, a9, a10⟩ := h8
      refine ⟨?_, ?_, ?_, ?_, ?_, ?_, ?_, ?_, ?_, ?_⟩ <;>
        first
          | assumption
          | (intro hn; rw [hn] at heq; cases heq)
  refine store_keeps _ _ _ _ h9 ?_
  intro x hx
  simp only [readFloat, readInt] at hx
  split at hx
  · cases hx
    exact h9
  · rename_i v heq
    obtain ⟨a1, a2, a3, a4, a5, a6, a7, a8, a9, a10⟩ := h9
    refine ⟨?_, ?_, ?_, ?_, ?_, ?_, ?_, ?_, ?_, ?_⟩ <;>
      first
        | assumption
        | (intro hn; rw [hn] at heq; cases heq)

/-- C24 as stated fails: on the object `{"steps": "x"}`, whose key `steps` is
present, `from_json` throws and `steps` keeps its value 1000; on
`{"endFreq": 3, "steps": "x", "averages": 3}` it throws after it has updated
`endFreq`, and the present key `averages` is never read; on `{"steps": 2.5}` the
member `steps` becomes 2, the JSON value truncated; on `{"steps": 3000000000}` it
becomes -1294967296, the value of `int` congruent to the JSON value modulo
`2 ^ 32`; on `{"delay": 0.1}` the member `delay` becomes the `float` nearest to
the `double` 0.1, which is another number. -/
theorem from_json_non_number :
    from_json initial [("steps", value.string "x")] = Except.error (Stop.type_error initial) ∧
    from_json initial [("endFreq", value.number_integer 3), ("steps", value.string "x"),
        ("averages", value.number_integer 3)]
      = Except.error (Stop.type_error { initial with endFreq := cpp.float 3 }) ∧
    from_json initial [("steps", value.number_float (5 / 2))]
      = Except.ok { initial with steps := cpp.int 2 } ∧
    from_json initial [("steps", value.number_integer 3000000000)]
      = Except.ok { initial with steps := cpp.int (-1294967296) } ∧
    from_json initial [("delay", value.number_float (ieee.roundDouble (1 / 10)))]
      = Except.ok { initial with delay := cpp.float (1 / 10) } ∧
    (cpp.float (1 / 10)).val ≠ ieee.roundDouble (1 / 10) := by
  decide!

/-- C24, amended. When every member of `j` under one of the ten keys is a number
or a boolean whose conversion to the type of the field is defined, `from_json`
returns normally, and each field whose key is present has the JSON value
converted to the type of the field by `static_cast` while each field whose key
is absent has its previous value. The conversion takes a value of the type of
the field as it is; it reduces another integer modulo `2 ^ 32` into the range of
`int`, truncates a floating-point number toward zero for an `int` field, and
rounds it to a `float` for a `float` field, these two conversions being defined
when the result is in the range of the type; a boolean counts as 0 or 1. For
every object, also one for which `from_json` throws, a field whose key is absent
keeps its previous value. The empty object leaves the settings unchanged. -/
theorem from_json_fields (s : UserSettings) (j : json) :
    (Converts j → s.from_json j = Except.ok
      { startFreq := floatField s.startFreq (j.lookup "startFreq")
        endFreq := floatField s.endFreq (j.lookup "endFreq")
        delay := floatField s.delay (j.lookup "delay")
        steps := intField s.steps (j.lookup "steps")
        averages := intField s.averages (j.lookup "averages")
        updateInterval := intField s.updateInterval (j.lookup "updateInterval")
        lineWidth := floatField s.lineWidth (j.lookup "lineWidth")
        plotStyle := intField s.plotStyle (j.lookup "plotStyle")
        bandMode := intField s.bandMode (j.lookup "bandMode")
        themeMode := intField s.themeMode (j.lookup "themeMode") }) ∧
    (∀ s', after (s.from_json j) = some s' → KeepsAbsent j s s') ∧
    ((∀ (old : cpp.Float32) (v : value) (x : cpp.Float32),
        get_to_float v = Got.stored x → floatField old (some v) = x) ∧
      (∀ (old : cpp.Int32) (v : value) (n : cpp.Int32),
        get_to_int v = Got.stored n → intField old (some v) = n) ∧
      (∀ old : cpp.Float32, floatField old none = old) ∧
      (∀ old : cpp.Int32, intField old none = old)) ∧
    ((∀ f : cpp.Float32, get_to_float (value.number_float f.val) = Got.stored f) ∧
      (∀ c : cpp.Int32, get_to_int (value.number_integer c.val) = Got.stored c) ∧
      (∀ n : Int, ∃ c : cpp.Int32, get_to_int (value.number_integer n) = Got.stored c ∧
        (c.val - n) % 4294967296 = 0) ∧
      (∀ (x : ℚ) (c : cpp.Int32), get_to_int (value.number_float x) = Got.stored c →
        c.val = ieee.truncate x) ∧
      (∀ (x : ℚ) (f : cpp.Float32), get_to_float (value.number_float x) = Got.stored f →
        f.val = ieee.roundFloat x) ∧
      (∀ b : Bool, get_to_int (value.boolean b) = Got.stored (cpp.int (if b then 1 else 0)) ∧
        get_to_float (value.boolean b) = Got.stored (cpp.float (if b then 1 else 0))) ∧
      (∀ x : ℚ, |x| ≤ ieee.fltMax →
        ∃ f : cpp.Float32, get_to_float (value.number_float x) = Got.stored f) ∧
      (∀ x : ℚ, -2147483648 ≤ ieee.truncate x ∧ ieee.truncate x ≤ 2147483647 →
        ∃ c : cpp.Int32, get_to_int (value.number_float x) = Got.stored c)) ∧
    s.from_json [] = Except.ok s := by
  refine ⟨?_, from_json_keeps s j, ⟨?_, ?_, fun _ => rfl, fun _ => rfl⟩,
    ⟨get_to_float_val, get_to_int_val, ?_, ?_, ?_, ?_, ?_, ?_⟩, rfl⟩
  · intro hj
    have hf := fun (key : String) (hkey : key ∈ floatKeys) => readFloat_converts j key hkey hj
    have hi := fun (key : String) (hkey : key ∈ intKeys) => readInt_converts j key hkey hj
    simp only [from_json, store, bind, Except.bind,
      hf "startFreq" (by simp [floatKeys]), hf "endFreq" (by simp [floatKeys]),
      hf "delay" (by simp [floatKeys]), hi "steps" (by simp [intKeys]),
      hi "averages" (by simp [intKeys]), hi "updateInterval" (by simp [intKeys]),
      hf "lineWidth" (by simp [floatKeys]), hi "plotStyle" (by simp [intKeys]),
      hi "bandMode" (by simp [intKeys]), hi "themeMode" (by simp [intKeys])]
  · intro old v x h
    simp [floatField, h]
  · intro old v n h
    simp [intField, h]
  · intro n
    exact ⟨cpp.intOfInt64 n, rfl, cpp.intOfInt64_congruent n⟩
  · intro x c h
    have h' : (match cpp.intOfDouble x with
      | some n => Got.stored n
      | none => Got.undefined) = Got.stored c := h
    unfold cpp.intOfDouble at h'
    split at h'
    · rename_i n hn
      split at hn
      · cases hn
        cases h'
        rfl
      · cases hn
    · cases h'
  · intro x f h
    have h' : (match cpp.floatOfDouble x with
      | some f => Got.stored f
      | none => Got.undefined) = Got.stored f := h
    unfold cpp.floatOfDouble at h'
    split at h'
    · rename_i g hg
      split at hg
      · split at hg
        · cases hg
          cases h'
          rfl
        · cases hg
      · cases hg
    · cases h'
  · intro b
    cases b <;> exact ⟨rfl, rfl⟩
  · intro x hx
    obtain ⟨f, hf, _⟩ := cpp.floatOfDouble_defined hx
    refine ⟨f, ?_⟩
    show (match cpp.floatOfDouble x with
      | some f => Got.stored f
      | none => Got.undefined) = Got.stored f
    rw [hf]
  · intro x hx
    obtain ⟨c, hc, _⟩ := cpp.intOfDouble_defined hx
    refine ⟨c, ?_⟩
    show (match cpp.intOfDouble x with
      | some n => Got.stored n
      | none => Got.undefined) = Got.stored c
    rw [hc]

/-- C24, amended, on the test `FromJsonKeepsExistingValuesWhenKeysAreMissing`:
`startFreq` takes the value `2.22f` of the object and `endFreq` keeps `9.99f`. -/
theorem from_json_fields_witness :
    Converts onlyStartFreq ∧
    edited.from_json onlyStartFreq
      = Except.ok { edited with startFreq := cpp.float (222 / 100) } ∧
    (∀ s', after (edited.from_json onlyStartFreq) = some s' →
      s'.endFreq = cpp.float (999 / 100)) := by
  have hj : Converts onlyStartFreq := by
    constructor
    · intro key _ v hv
      simp only [onlyStartFreq, List.lookup] at hv
      split at hv
      · cases hv
        exact ⟨_, get_to_float_val _⟩
      · cases hv
    · intro key hkey v hv
      simp only [onlyStartFreq, List.lookup] at hv
      split at hv
      · rename_i hk
        simp only [intKeys, List.mem_cons, List.mem_singleton, List.not_mem_nil, or_false]
          at hkey
        rcases hkey with rfl | rfl | rfl | rfl | rfl | rfl <;> cases hk
      · cases hv
  have h := (from_json_fields edited onlyStartFreq).1 hj
  refine ⟨hj, ?_, ?_⟩
  · rw [h]
    decide!
  · intro s' hs'
    rw [h] at hs'
    cases hs'
    rfl

end UserSettings
